import Mathlib

/-!
# calculator-c-parser: tokenizer, recursive-descent parser and evaluator

A shallow embedding of `main.c`.

* A `char*` is a `List Char` holding the bytes it points to.  The C string it denotes is the
  part before the first `'\0'` (`cstr`); a list without `'\0'` has its terminator right behind
  its last element, so a read at an index past the list yields `'\0'`.
* `int` values are `Int`s kept in the 32-bit range by `wrap32`; the `+`, `-` and `*` of
  `calculate` reduce their results with it, and `atoi` is the `(int) strtol` of the C library
  with a 64-bit `long`.
* A C function that can leave the normal control flow returns a `Result`: it returns a value,
  calls `exit(1)`, or runs into behaviour that C leaves undefined (a write outside a buffer, a
  null dereference).
* C gives no meaning to a division by zero.  What the platform does then is a parameter `dz` of
  `calculate`: the division traps, or it yields some value.  The division of `INT_MIN` by `-1`
  overflows; it has no defined result.
* The mutually recursive parser functions take a budget that decreases at every call and loop
  iteration; `parse` provides enough of it for every token string.
-/

namespace Calc

/-! ## Results of C functions -/

/-- Outcome of running a C function of the program. -/
inductive Result (α : Type) where
  /-- The function returns the value. -/
  | ok (a : α) : Result α
  /-- The program printed `Invalid input ...` on stderr and called `exit(1)`. -/
  | exit1 : Result α
  /-- The run has no defined behaviour in C (write outside a buffer, null dereference,
  trapping division). -/
  | undef : Result α
  /-- The recursion budget of the model is used up (not a behaviour of the program). -/
  | nofuel : Result α
  deriving DecidableEq, Repr

/-! ## Machine integers -/

/-- Largest `int`. -/
def INT_MAX : Int := 2147483647

/-- Smallest `int`. -/
def INT_MIN : Int := -2147483648

/-- Largest `long` (64 bits). -/
def LONG_MAX : Int := 9223372036854775807

/-- Two's complement reduction of an integer to the 32-bit `int` range. -/
def wrap32 (x : Int) : Int := (x + 2147483648) % 4294967296 - 2147483648

/-- C `l / r` on `int`.  It is the quotient truncated toward zero when that quotient is an
`int`.  For `r = 0` C leaves the behaviour undefined; `dz l` is what the platform does then:
`none` when the division traps (x86 raises SIGFPE), `some q` when it yields the value `q`
(AArch64 yields 0).  The quotient of `INT_MIN` by `-1` is no `int`: the division overflows,
which C leaves undefined as well (x86 raises SIGFPE). -/
def cdiv (dz : Int → Option Int) (l r : Int) : Result Int :=
  if r = 0 then
    match dz l with
    | some q => .ok q
    | none => .undef
  else if l = INT_MIN ∧ r = -1 then .undef
  else .ok (wrap32 (Int.tdiv l r))

/-! ## Strings -/

/-- The alphabet `VALID_TOKENS`. -/
def VALID_TOKENS : List Char := "+-*/0123456789()".toList

/-- The buffer size `MAX_INPUT_SIZE`. -/
def MAX_INPUT_SIZE : Nat := 100

/-- The characters of the C string stored in `s`: everything before the first `'\0'`. -/
def cstr (s : List Char) : List Char := s.takeWhile (fun c => c != '\x00')

/-- The length `strlen(s)` of the C string stored in `s`. -/
def strlen (s : List Char) : Nat := (cstr s).length

/-- The test `strchr(set, c) != NULL`: the terminating null of `set` counts as part of it. -/
def strchr (set : List Char) (c : Char) : Bool := set.contains c || c == '\x00'

/-- The read `s[i]` for a `char*`: the byte at index `i`, the terminator behind the end of the list. -/
def charAt (s : List Char) (i : Nat) : Char := s.getD i '\x00'

/-- The call `atoi(number)` for a buffer of decimal digits.  The C library computes it as
`(int) strtol(number, NULL, 10)`: the decimal value of the leading digits, which `strtol`
saturates at `LONG_MAX`, converted to `int` by reduction to 32 bits.  (C leaves a value outside
the `int` range undefined; this is what the library does with a 64-bit `long`.) -/
def atoi (number : List Char) : Int :=
  wrap32 (min (Int.ofNat ((number.takeWhile Char.isDigit).foldl
    (fun acc c => 10 * acc + (c.toNat - '0'.toNat)) 0)) LONG_MAX)

/-! ## Tokenizer -/

/-- The `for` loop of `tokenize` over the characters `in[i]`, `i < in_len`; `tokens` is the
part of the output buffer written so far, so `token_pos = tokens.length`.  The write
`tokens[token_pos++] = in[i]` is defined only inside the `MAX_INPUT_SIZE` bytes allocated. -/
def tokenize_loop : List Char → List Char → Result (List Char)
  | [], tokens => .ok tokens
  | c :: rest, tokens =>
    if strchr VALID_TOKENS c then
      if tokens.length < MAX_INPUT_SIZE then tokenize_loop rest (tokens ++ [c])
      else .undef
    else tokenize_loop rest tokens

/-- The function `char* tokenize(char* in)`. -/
def tokenize (inp : List Char) : Result (List Char) :=
  let in_len := strlen inp
  match tokenize_loop (inp.take in_len) [] with
  | .ok tokens =>
    -- tokens[token_pos] = '\0'
    if tokens.length < MAX_INPUT_SIZE then .ok tokens else .undef
  | .exit1 => .exit1
  | .undef => .undef
  | .nofuel => .nofuel

/-! ## Expression trees -/

/-- The type `exprtree*`: a null pointer or a node `{type, value, left, right}`. -/
inductive exprtree where
  | NULL : exprtree
  | node (type : Char) (value : Int) (left right : exprtree) : exprtree
  deriving DecidableEq, Repr

/-- The function `create_exprtree(type, value, left, right)`. -/
def create_exprtree (type : Char) (value : Int) (left right : exprtree) : exprtree :=
  .node type value left right

/-- The leaf `Number(v)` of the specification, as `parse_number` builds it. -/
def Number (v : Int) : exprtree := create_exprtree 'n' v .NULL .NULL

/-- The node `BinaryOp(op, l, r)` of the specification, as the parser loops build it. -/
def BinaryOp (op : Char) (l r : exprtree) : exprtree := create_exprtree op 0 l r

/-! ## Parser -/

/-- The type `parser_t`. -/
structure parser_t where
  tokens : List Char
  ntokens : Nat
  pos : Nat
  deriving DecidableEq, Repr

/-- The read `parser->tokens[parser->pos]`. -/
def parser_t.cur (p : parser_t) : Char := charAt p.tokens p.pos

/-- The step `parser->pos++`. -/
def parser_t.advance (p : parser_t) : parser_t := { p with pos := p.pos + 1 }

/-- The `while` loop of `parse_number`; `number` is the part of the local buffer written so far,
so `numberlen = number.length`.  The loop needs at most `ntokens - pos` iterations, which is the
budget `parse_number` gives it. -/
def parse_number_loop : Nat → parser_t → List Char → parser_t × List Char
  | 0, p, number => (p, number)
  | fuel + 1, p, number =>
    if strchr "0123456789".toList p.cur && decide (number.length < MAX_INPUT_SIZE)
        && decide (p.pos < p.ntokens) then
      parse_number_loop fuel p.advance (number ++ [p.cur])
    else (p, number)

/-- The function `exprtree* parse_number(parser_t* parser)`. -/
def parse_number (p : parser_t) : Result (exprtree × parser_t) :=
  match parse_number_loop (p.ntokens - p.pos) p [] with
  | (p1, number) =>
    -- number[numberlen] = '\0'
    if number.length < MAX_INPUT_SIZE then
      if number.length = 0 then .exit1
      else .ok (create_exprtree 'n' (atoi number) .NULL .NULL, p1)
    else .undef

mutual

/-- The function `exprtree* parse_add_expression(parser_t* parser)`. -/
def parse_add_expression : Nat → parser_t → Result (exprtree × parser_t)
  | 0, _ => .nofuel
  | fuel + 1, p =>
    match parse_mult_expression fuel p with
    | .ok (expr, p1) => parse_add_expression_loop fuel expr p1
    | .exit1 => .exit1
    | .undef => .undef
    | .nofuel => .nofuel

/-- The `while` loop of `parse_add_expression`. -/
def parse_add_expression_loop : Nat → exprtree → parser_t → Result (exprtree × parser_t)
  | 0, _, _ => .nofuel
  | fuel + 1, expr, p =>
    if decide (p.pos < p.ntokens) && (p.cur == '+' || p.cur == '-') then
      let type := p.cur
      match parse_mult_expression fuel p.advance with
      | .ok (right_expr, p1) =>
        parse_add_expression_loop fuel (create_exprtree type 0 expr right_expr) p1
      | .exit1 => .exit1
      | .undef => .undef
      | .nofuel => .nofuel
    else .ok (expr, p)

/-- The function `exprtree* parse_mult_expression(parser_t* parser)`. -/
def parse_mult_expression : Nat → parser_t → Result (exprtree × parser_t)
  | 0, _ => .nofuel
  | fuel + 1, p =>
    match parse_atomic_expression fuel p with
    | .ok (expr, p1) => parse_mult_expression_loop fuel expr p1
    | .exit1 => .exit1
    | .undef => .undef
    | .nofuel => .nofuel

/-- The `while` loop of `parse_mult_expression`. -/
def parse_mult_expression_loop : Nat → exprtree → parser_t → Result (exprtree × parser_t)
  | 0, _, _ => .nofuel
  | fuel + 1, expr, p =>
    if decide (p.pos < p.ntokens) && (p.cur == '*' || p.cur == '/') then
      let type := p.cur
      match parse_atomic_expression fuel p.advance with
      | .ok (right_expr, p1) =>
        parse_mult_expression_loop fuel (create_exprtree type 0 expr right_expr) p1
      | .exit1 => .exit1
      | .undef => .undef
      | .nofuel => .nofuel
    else .ok (expr, p)

/-- The function `exprtree* parse_atomic_expression(parser_t* parser)`. -/
def parse_atomic_expression : Nat → parser_t → Result (exprtree × parser_t)
  | 0, _ => .nofuel
  | fuel + 1, p =>
    if p.cur == '(' then
      match parse_add_expression fuel p.advance with
      | .ok (expr, p1) =>
        if p1.cur == ')' then .ok (expr, p1.advance)
        else .exit1
      | .exit1 => .exit1
      | .undef => .undef
      | .nofuel => .nofuel
    else parse_number p

end

/-- The function `exprtree* parse(char* tokens)`.  Every call and every loop iteration of the
descent uses one unit of the budget; `3 * ntokens + 3` units cover the longest chain of calls on
`ntokens` tokens (theorem `parse_ne_nofuel`). -/
def parse (tokens : List Char) : Result exprtree :=
  let parser : parser_t := { tokens := tokens, ntokens := strlen tokens, pos := 0 }
  match parse_add_expression (3 * parser.ntokens + 3) parser with
  | .ok (expression, _) => .ok expression
  | .exit1 => .exit1
  | .undef => .undef
  | .nofuel => .nofuel

/-! ## Evaluator -/

/-- The function `int calculate(exprtree* expr)`. -/
def calculate (dz : Int → Option Int) : exprtree → Result Int
  | .NULL => .undef
  | .node type value left right =>
    if type = 'n' then .ok value
    else
      match calculate dz left with
      | .ok l =>
        match calculate dz right with
        | .ok r =>
          if type = '+' then .ok (wrap32 (l + r))
          else if type = '-' then .ok (wrap32 (l - r))
          else if type = '*' then .ok (wrap32 (l * r))
          else if type = '/' then
            match cdiv dz l r with
            | .ok q => .ok (if q ≠ 0 then r else 0)
            | .exit1 => .exit1
            | .undef => .undef
            | .nofuel => .nofuel
          else .ok 0
        | .exit1 => .exit1
        | .undef => .undef
        | .nofuel => .nofuel
      | .exit1 => .exit1
      | .undef => .undef
      | .nofuel => .nofuel

/-- One pass of the body of the loop in `main` on the input line `inp`:
`calculate(parse(tokenize(in)))`. -/
def run (dz : Int → Option Int) (inp : List Char) : Result Int :=
  match tokenize inp with
  | .ok tokens =>
    match parse tokens with
    | .ok expression => calculate dz expression
    | .exit1 => .exit1
    | .undef => .undef
    | .nofuel => .nofuel
  | .exit1 => .exit1
  | .undef => .undef
  | .nofuel => .nofuel

/-! ## Definitions used in the statements and proofs

The unread part of the token string of a parser is `rest p`.  The `unread_*` functions follow the
`parse_*` functions step by step, with the cursor replaced by the unread tokens; the theorem
`parse_eq_unread` states the correspondence.  They are used in proofs only. -/

/-- The decimal digits, as `parse_number` tests for them on a non-null character. -/
def isDig (c : Char) : Bool := "0123456789".toList.contains c

/-- The parser state is one that `parse` produces: `ntokens` is the length of the token string
and the cursor is inside the string or on its terminator. -/
def parser_t.WF (p : parser_t) : Prop := p.ntokens = strlen p.tokens ∧ p.pos ≤ p.ntokens

/-- The unread tokens of a parser. -/
def parser_t.rest (p : parser_t) : List Char := (cstr p.tokens).drop p.pos

/-- The parser after it has read everything but `r`. -/
def parser_t.seek (p : parser_t) (r : List Char) : parser_t :=
  { p with pos := p.ntokens - r.length }

/-- Transport of a result on unread tokens to a result on parser states. -/
def parser_t.lift (p : parser_t) : Result (exprtree × List Char) → Result (exprtree × parser_t)
  | .ok (e, r) => .ok (e, p.seek r)
  | .exit1 => .exit1
  | .undef => .undef
  | .nofuel => .nofuel

/-- The loop of `parse_number` on the unread tokens. -/
def unread_number_loop : List Char → List Char → List Char × List Char
  | [], number => ([], number)
  | c :: r, number =>
    if isDig c && decide (number.length < MAX_INPUT_SIZE) then
      unread_number_loop r (number ++ [c])
    else (c :: r, number)

/-- The function `parse_number` on the unread tokens. -/
def unread_number (inp : List Char) : Result (exprtree × List Char) :=
  match unread_number_loop inp [] with
  | (r, number) =>
    if number.length < MAX_INPUT_SIZE then
      if number.length = 0 then .exit1
      else .ok (create_exprtree 'n' (atoi number) .NULL .NULL, r)
    else .undef

mutual

/-- The function `parse_add_expression` on the unread tokens. -/
def unread_add : Nat → List Char → Result (exprtree × List Char)
  | 0, _ => .nofuel
  | fuel + 1, inp =>
    match unread_mult fuel inp with
    | .ok (expr, r) => unread_add_loop fuel expr r
    | .exit1 => .exit1
    | .undef => .undef
    | .nofuel => .nofuel

/-- The loop of `parse_add_expression` on the unread tokens. -/
def unread_add_loop : Nat → exprtree → List Char → Result (exprtree × List Char)
  | 0, _, _ => .nofuel
  | _ + 1, expr, [] => .ok (expr, [])
  | fuel + 1, expr, c :: r =>
    if c == '+' || c == '-' then
      match unread_mult fuel r with
      | .ok (right_expr, r1) => unread_add_loop fuel (create_exprtree c 0 expr right_expr) r1
      | .exit1 => .exit1
      | .undef => .undef
      | .nofuel => .nofuel
    else .ok (expr, c :: r)

/-- The function `parse_mult_expression` on the unread tokens. -/
def unread_mult : Nat → List Char → Result (exprtree × List Char)
  | 0, _ => .nofuel
  | fuel + 1, inp =>
    match unread_atomic fuel inp with
    | .ok (expr, r) => unread_mult_loop fuel expr r
    | .exit1 => .exit1
    | .undef => .undef
    | .nofuel => .nofuel

/-- The loop of `parse_mult_expression` on the unread tokens. -/
def unread_mult_loop : Nat → exprtree → List Char → Result (exprtree × List Char)
  | 0, _, _ => .nofuel
  | _ + 1, expr, [] => .ok (expr, [])
  | fuel + 1, expr, c :: r =>
    if c == '*' || c == '/' then
      match unread_atomic fuel r with
      | .ok (right_expr, r1) => unread_mult_loop fuel (create_exprtree c 0 expr right_expr) r1
      | .exit1 => .exit1
      | .undef => .undef
      | .nofuel => .nofuel
    else .ok (expr, c :: r)

/-- The function `parse_atomic_expression` on the unread tokens. -/
def unread_atomic : Nat → List Char → Result (exprtree × List Char)
  | 0, _ => .nofuel
  | _ + 1, [] => unread_number []
  | fuel + 1, c :: r =>
    if c == '(' then
      match unread_add fuel r with
      | .ok (_, []) => .exit1
      | .ok (expr, c1 :: r1) => if c1 == ')' then .ok (expr, r1) else .exit1
      | .exit1 => .exit1
      | .undef => .undef
      | .nofuel => .nofuel
    else unread_number (c :: r)

end

/-- The first token of `rest`, if any, is no digit. -/
def stopsNumber (rest : List Char) : Prop := ∀ c ∈ rest.head?, isDig c = false

/-- The first token of `rest`, if any, is no digit and none of `*`, `/`. -/
def stopsMult (rest : List Char) : Prop :=
  ∀ c ∈ rest.head?, isDig c = false ∧ (c == '*' || c == '/') = false

/-- The first token of `rest`, if any, is no digit and none of `*`, `/`, `+`, `-`. -/
def stopsAdd (rest : List Char) : Prop :=
  ∀ c ∈ rest.head?, isDig c = false ∧ (c == '*' || c == '/') = false ∧
    (c == '+' || c == '-') = false

/-- Membership of a character in the alphabet `VALID_TOKENS`. -/
def inAlphabet (c : Char) : Bool := VALID_TOKENS.contains c

/-- The decimal literal of a natural number: the characters of `Nat.repr n`. -/
def lit (n : Nat) : List Char := Nat.toDigits 10 n

/-- The value `atoi` accumulates over a run of digits. -/
def decval (ds : List Char) : Nat := ds.foldl (fun acc c => 10 * acc + (c.toNat - '0'.toNat)) 0

/-- The tree of a parser result. -/
def Result.tree {α : Type} : Result (exprtree × α) → Result exprtree
  | .ok (e, _) => .ok e
  | .exit1 => .exit1
  | .undef => .undef
  | .nofuel => .nofuel

/-- The rule `f` (one of the `parse_*` functions) reads the whole token string `x` and returns
the tree `T`. -/
def accepts (f : Nat → parser_t → Result (exprtree × parser_t)) (x : List Char)
    (T : exprtree) : Prop :=
  ∃ fuel, f fuel ⟨x, strlen x, 0⟩ = .ok (T, ⟨x, strlen x, x.length⟩)

/-- A link `op x` of a chain `x0 op1 x1 ... opn xn`: the operator, the text of the operand and
the tree of the operand. -/
structure Link where
  op : Char
  text : List Char
  tree : exprtree

/-- The text `op1 x1 ... opn xn` of a list of links. -/
def chainText : List Link → List Char
  | [] => []
  | y :: ys => y.op :: (y.text ++ chainText ys)

/-- The left fold `BinaryOp(opn, BinaryOp(..., BinaryOp(op1, T0, T1) ...), Tn)`. -/
def leftFold : exprtree → List Link → exprtree
  | T0, [] => T0
  | T0, y :: ys => leftFold (BinaryOp y.op T0 y.tree) ys

/-- The indices of the output buffer that the loop of `tokenize` writes from `token_pos` on, in
the order of the writes `tokens[token_pos++] = in[i]`; the last index is that of the terminator
write `tokens[token_pos] = '\0'` behind the loop. -/
def tokenize_writes_loop : List Char → Nat → List Nat
  | [], token_pos => [token_pos]
  | c :: rest, token_pos =>
    if strchr VALID_TOKENS c then token_pos :: tokenize_writes_loop rest (token_pos + 1)
    else tokenize_writes_loop rest token_pos

/-- The indices of its output buffer that `tokenize(in)` writes. -/
def tokenize_writes (inp : List Char) : List Nat :=
  tokenize_writes_loop (inp.take (strlen inp)) 0

/-- The value is one of an `int`. -/
def inIntRange (x : Int) : Bool := decide (INT_MIN ≤ x) && decide (x ≤ INT_MAX)

/-- Integer addition, subtraction or multiplication, by the operator character. -/
def intOp (op : Char) (x y : Int) : Int :=
  if op = '+' then x + y else if op = '-' then x - y else x * y

/-- The tree is fully built and all its operator nodes are `+`, `-` or `*`. -/
def arithOnly : exprtree → Bool
  | .NULL => false
  | .node type _ left right =>
    type == 'n' || ((type == '+' || type == '-' || type == '*') && arithOnly left &&
      arithOnly right)

/-- The value of a tree of `+`, `-`, `*` in unbounded integer arithmetic. -/
def exactValue : exprtree → Int
  | .NULL => 0
  | .node type value left right =>
    if type = 'n' then value else intOp type (exactValue left) (exactValue right)

/-- No result in the evaluation of the tree, intermediate ones included, leaves the `int`
range. -/
def allInRange : exprtree → Bool
  | .NULL => true
  | .node type value left right =>
    if type = 'n' then inIntRange value
    else inIntRange (intOp type (exactValue left) (exactValue right)) && allInRange left &&
      allInRange right

/-- The tree has a node of type `+` or `-`. -/
def hasAddNode : exprtree → Bool
  | .NULL => false
  | .node type _ left right => type == '+' || type == '-' || hasAddNode left || hasAddNode right

/-- The tree is a `Number` leaf: a node of type `n` with two null children. -/
def isNumberLeaf : exprtree → Bool
  | .NULL => false
  | .node type _ left right => type == 'n' && decide (left = .NULL) && decide (right = .NULL)

/-- Structural precedence: no `*` or `/` node of the tree has a `+` or `-` node below it, and
the right child of every `*` or `/` node is a `Number` leaf. -/
def precedenceOK : exprtree → Bool
  | .NULL => true
  | .node type _ left right =>
    (if type == '*' || type == '/' then
      !hasAddNode left && !hasAddNode right && isNumberLeaf right
    else true) && precedenceOK left && precedenceOK right

/-- The shape of the tree of a `mult_expression` without parentheses: a `Number` leaf, or a `*`
or `/` node over such a tree and a `Number` leaf. -/
def multShape : exprtree → Bool
  | .NULL => false
  | .node type value left right =>
    isNumberLeaf (.node type value left right) ||
      ((type == '*' || type == '/') && multShape left && isNumberLeaf right)

/-- The shape of the tree of an `add_expression` without parentheses: that of a
`mult_expression`, or a `+` or `-` node over such a tree and the tree of a
`mult_expression`. -/
def addShape : exprtree → Bool
  | .NULL => false
  | .node type value left right =>
    multShape (.node type value left right) ||
      ((type == '+' || type == '-') && addShape left && multShape right)

/-- The number of nodes of a tree. -/
def size : exprtree → Nat
  | .NULL => 0
  | .node _ _ left right => 1 + size left + size right

/-- The depth of a tree: the number of nodes on its longest path from the root. -/
def depth : exprtree → Nat
  | .NULL => 0
  | .node _ _ left right => 1 + max (depth left) (depth right)

/-- The text `show(T)` of a tree: the decimal digits of the value for a `Number`, and
`(` `show(l)` `)` `op` `(` `show(r)` `)` for a `BinaryOp`. -/
def showTree : exprtree → List Char
  | .NULL => []
  | .node type value left right =>
    if type = 'n' then lit value.toNat
    else '(' :: (showTree left ++ ')' :: type :: '(' :: (showTree right ++ [')']))

/-- The tree is built from `Number` and `BinaryOp`: operators among `+ - * /`, leaves
non-negative and within the `int` range. -/
def showable : exprtree → Bool
  | .NULL => false
  | .node type value left right =>
    (type == 'n' && decide (0 ≤ value) && decide (value ≤ INT_MAX) && decide (left = .NULL) &&
        decide (right = .NULL)) ||
      ((type == '+' || type == '-' || type == '*' || type == '/') && decide (value = 0) &&
        showable left && showable right)

/-- The cursor positions at which the loop of `parse_number` reads `tokens[pos]`, in order:
once in every evaluation of the loop condition (the last one is the evaluation that ends the
loop) and once in every run of the loop body. -/
def reads_number_loop : Nat → parser_t → List Char → List Nat
  | 0, p, _ => [p.pos]
  | fuel + 1, p, number =>
    if strchr "0123456789".toList p.cur && decide (number.length < MAX_INPUT_SIZE)
        && decide (p.pos < p.ntokens) then
      p.pos :: p.pos :: reads_number_loop fuel p.advance (number ++ [p.cur])
    else [p.pos]

/-- The cursor positions at which `parse_number` reads `tokens[pos]`, in order. -/
def reads_number (p : parser_t) : List Nat := reads_number_loop (p.ntokens - p.pos) p []

mutual

/-- The cursor positions at which `parse_add_expression` and the calls it makes read
`tokens[pos]`, in order. -/
def reads_add : Nat → parser_t → List Nat
  | 0, _ => []
  | fuel + 1, p =>
    reads_mult fuel p ++
      match parse_mult_expression fuel p with
      | .ok (_, p1) => reads_add_loop fuel p1
      | _ => []

/-- The cursor positions at which the loop of `parse_add_expression` and the calls it makes
read `tokens[pos]`, in order; the loop condition reads only when `pos < ntokens`, and the
position of an iteration is listed once. -/
def reads_add_loop : Nat → parser_t → List Nat
  | 0, _ => []
  | fuel + 1, p =>
    if p.pos < p.ntokens then
      p.pos ::
        (if p.cur == '+' || p.cur == '-' then
          reads_mult fuel p.advance ++
            match parse_mult_expression fuel p.advance with
            | .ok (_, p1) => reads_add_loop fuel p1
            | _ => []
        else [])
    else []

/-- The cursor positions at which `parse_mult_expression` and the calls it makes read
`tokens[pos]`, in order. -/
def reads_mult : Nat → parser_t → List Nat
  | 0, _ => []
  | fuel + 1, p =>
    reads_atomic fuel p ++
      match parse_atomic_expression fuel p with
      | .ok (_, p1) => reads_mult_loop fuel p1
      | _ => []

/-- The cursor positions at which the loop of `parse_mult_expression` and the calls it makes
read `tokens[pos]`, in order; the loop condition reads only when `pos < ntokens`, and the
position of an iteration is listed once. -/
def reads_mult_loop : Nat → parser_t → List Nat
  | 0, _ => []
  | fuel + 1, p =>
    if p.pos < p.ntokens then
      p.pos ::
        (if p.cur == '*' || p.cur == '/' then
          reads_atomic fuel p.advance ++
            match parse_atomic_expression fuel p.advance with
            | .ok (_, p1) => reads_mult_loop fuel p1
            | _ => []
        else [])
    else []

/-- The cursor positions at which `parse_atomic_expression` and the calls it makes read
`tokens[pos]`, in order: the test for `(`, then either the parenthesized `add_expression` and
the test for `)`, or `parse_number`. -/
def reads_atomic : Nat → parser_t → List Nat
  | 0, _ => []
  | fuel + 1, p =>
    p.pos ::
      (if p.cur == '(' then
        reads_add fuel p.advance ++
          match parse_add_expression fuel p.advance with
          | .ok (_, p1) => [p1.pos]
          | _ => []
      else reads_number p)

end

/-- All positions of the list are between `lo` and `hi`, and they never decrease along the
list. -/
def Within (lo hi : Nat) (L : List Nat) : Prop :=
  (∀ i ∈ L, lo ≤ i ∧ i ≤ hi) ∧ L.Pairwise (fun a b => a ≤ b)

/-- The cursor after a call: that of the returned parser, and the end of the token string when
the call does not return. -/
def hiOf (p : parser_t) : Result (exprtree × parser_t) → Nat
  | .ok (_, p1) => p1.pos
  | _ => p.ntokens

/-- The maximal runs of consecutive digits of a token string, from left to right, where `cur`
is the run of digits that ends right before the string. -/
def digitRunsFrom : List Char → List Char → List (List Char)
  | cur, [] => if cur.isEmpty then [] else [cur]
  | cur, c :: s =>
    if isDig c then digitRunsFrom (cur ++ [c]) s
    else (if cur.isEmpty then [] else [cur]) ++ digitRunsFrom [] s

/-- The maximal runs of consecutive digits of a token string, from left to right. -/
def digitRuns (s : List Char) : List (List Char) := digitRunsFrom [] s

/-! ## Strings: basic facts -/

theorem cstr_ne_null (s : List Char) : ∀ c ∈ cstr s, c ≠ '\x00' := by
  intro c hc
  have h := List.mem_takeWhile_imp hc
  simpa using h

theorem cstr_eq_self (s : List Char) (h : ∀ c ∈ s, c ≠ '\x00') : cstr s = s := by
  unfold cstr
  rw [List.takeWhile_eq_self_iff]
  intro c hc
  simpa using h c hc

theorem cstr_cstr (s : List Char) : cstr (cstr s) = cstr s :=
  cstr_eq_self _ (cstr_ne_null s)

theorem strlen_le (s : List Char) : strlen s ≤ s.length := by
  unfold strlen cstr
  exact (List.takeWhile_sublist _).length_le

theorem take_strlen (s : List Char) : s.take (strlen s) = cstr s := by
  unfold strlen cstr
  induction s with
  | nil => rfl
  | cons c t ih =>
    by_cases h : c = '\x00'
    · simp [List.takeWhile_cons, h]
    · simp [List.takeWhile_cons, h, ih]

theorem charAt_eq (s : List Char) : ∀ i, i ≤ strlen s →
    charAt s i = ((cstr s).drop i).headD '\x00' := by
  induction s with
  | nil => intro i _; simp [charAt, cstr]
  | cons c t ih =>
    intro i hi
    by_cases h : c = '\x00'
    · subst h
      have : i = 0 := by simpa [strlen, cstr, List.takeWhile_cons] using hi
      subst this
      simp [charAt, cstr, List.takeWhile_cons]
    · cases i with
      | zero => simp [charAt, cstr, List.takeWhile_cons, h]
      | succ j =>
        have hj : j ≤ strlen t := by
          simpa [strlen, cstr, List.takeWhile_cons, h] using hi
        have := ih j hj
        simpa [charAt, cstr, List.takeWhile_cons, h] using this

theorem cstr_append (s t : List Char) (h : ∀ c ∈ s, c ≠ '\x00') : cstr (s ++ t) = s ++ cstr t := by
  unfold cstr
  induction s with
  | nil => simp
  | cons c r ih =>
    have hc : c ≠ '\x00' := h c (by simp)
    have hr : ∀ c ∈ r, c ≠ '\x00' := fun d hd => h d (by simp [hd])
    simp [List.takeWhile_cons, hc, ih hr]

/-! ## Parser states and unread tokens -/

theorem parser_t.cur_eq (p : parser_t) (h : p.WF) : p.cur = p.rest.headD '\x00' := by
  unfold parser_t.cur parser_t.rest
  exact charAt_eq _ _ (h.1 ▸ h.2)

theorem parser_t.rest_ne_null (p : parser_t) : ∀ c ∈ p.rest, c ≠ '\x00' := by
  intro c hc
  exact cstr_ne_null _ c (List.mem_of_mem_drop hc)

theorem parser_t.rest_nil (p : parser_t) (h : p.WF) (hr : p.rest = []) : ¬ p.pos < p.ntokens := by
  unfold parser_t.rest at hr
  have := List.drop_eq_nil_iff.1 hr
  have h1 := h.1
  unfold strlen at h1
  omega

theorem parser_t.rest_cons (p : parser_t) (h : p.WF) (c : Char) (r : List Char)
    (hr : p.rest = c :: r) :
    p.cur = c ∧ p.pos < p.ntokens ∧ p.advance.WF ∧ p.advance.rest = r ∧ c ≠ '\x00' := by
  have hcur := p.cur_eq h
  rw [hr] at hcur
  have hlt : p.pos < p.ntokens := by
    by_contra hn
    have : p.rest = [] := by
      unfold parser_t.rest
      apply List.drop_eq_nil_iff.2
      have h1 := h.1
      unfold strlen at h1
      omega
    rw [this] at hr
    cases hr
  refine ⟨by simpa using hcur, hlt, ⟨h.1, ?_⟩, ?_, ?_⟩
  · show p.pos + 1 ≤ p.ntokens
    omega
  · show (cstr p.tokens).drop (p.pos + 1) = r
    have : (cstr p.tokens).drop (p.pos + 1) = (p.rest).drop 1 := by
      unfold parser_t.rest
      rw [List.drop_drop]
    rw [this, hr]
    rfl
  · exact p.rest_ne_null c (by rw [hr]; simp)

theorem parser_t.seek_rest (p : parser_t) (h : p.WF) : p.seek p.rest = p := by
  unfold parser_t.seek parser_t.rest
  have h1 := h.1
  have h2 := h.2
  unfold strlen at h1
  cases p
  simp at *
  omega

/-- Seeking to a suffix of the unread tokens gives a well-formed parser with that suffix unread. -/
theorem parser_t.seek_spec (p : parser_t) (h : p.WF) (r : List Char) (hs : r <:+ p.rest) :
    (p.seek r).WF ∧ (p.seek r).rest = r ∧ p.pos ≤ (p.seek r).pos ∧
      ∀ r1, (p.seek r).seek r1 = p.seek r1 := by
  obtain ⟨pre, hpre⟩ := hs
  have h1 := h.1
  have h2 := h.2
  unfold strlen at h1
  have hlen : p.rest.length = p.ntokens - p.pos := by
    unfold parser_t.rest
    simp [h1]
  have hl2 : pre.length + r.length = p.ntokens - p.pos := by
    rw [← hlen, ← hpre]; simp
  refine ⟨⟨h.1, ?_⟩, ?_, ?_, ?_⟩
  · show p.ntokens - r.length ≤ p.ntokens
    omega
  · show (cstr p.tokens).drop (p.ntokens - r.length) = r
    have e : p.ntokens - r.length = p.pos + pre.length := by omega
    rw [e, ← List.drop_drop]
    show List.drop pre.length p.rest = r
    rw [← hpre]
    simp
  · show p.pos ≤ p.ntokens - r.length
    omega
  · intro r1; rfl

/-! ## The unread tokens after a call are a suffix of those before -/

theorem unread_number_loop_suffix : ∀ (inp number : List Char),
    (unread_number_loop inp number).1 <:+ inp := by
  intro inp
  induction inp with
  | nil => intro number; simp [unread_number_loop]
  | cons c r ih =>
    intro number
    unfold unread_number_loop
    split
    · exact (ih _).trans (List.suffix_cons c r)
    · exact List.suffix_refl _

theorem unread_number_suffix (inp : List Char) (e : exprtree) (r : List Char)
    (h : unread_number inp = .ok (e, r)) : r <:+ inp := by
  unfold unread_number at h
  have hs := unread_number_loop_suffix inp []
  revert h hs
  cases unread_number_loop inp [] with
  | mk r0 number =>
    intro h hs
    simp only at h
    split at h
    · split at h
      · cases h
      · cases h; exact hs
    · cases h

theorem unread_suffix : ∀ fuel : Nat,
    (∀ inp e r, unread_add fuel inp = .ok (e, r) → r <:+ inp) ∧
    (∀ e0 inp e r, unread_add_loop fuel e0 inp = .ok (e, r) → r <:+ inp) ∧
    (∀ inp e r, unread_mult fuel inp = .ok (e, r) → r <:+ inp) ∧
    (∀ e0 inp e r, unread_mult_loop fuel e0 inp = .ok (e, r) → r <:+ inp) ∧
    (∀ inp e r, unread_atomic fuel inp = .ok (e, r) → r <:+ inp) := by
  intro fuel
  induction fuel with
  | zero =>
    refine ⟨?_, ?_, ?_, ?_, ?_⟩ <;> intros <;> simp_all [unread_add, unread_add_loop, unread_mult,
      unread_mult_loop, unread_atomic]
  | succ fuel ih =>
    obtain ⟨ihA, ihAL, ihM, ihML, ihAt⟩ := ih
    refine ⟨?_, ?_, ?_, ?_, ?_⟩
    · intro inp e r h
      rw [unread_add] at h
      cases hm : unread_mult fuel inp with
      | ok a =>
        obtain ⟨e1, r1⟩ := a
        rw [hm] at h
        exact (ihAL _ _ _ _ h).trans (ihM _ _ _ hm)
      | exit1 => rw [hm] at h; cases h
      | undef => rw [hm] at h; cases h
      | nofuel => rw [hm] at h; cases h
    · intro e0 inp e r h
      cases inp with
      | nil =>
        rw [unread_add_loop] at h
        cases h; exact List.suffix_refl _
      | cons c r0 =>
        rw [unread_add_loop] at h
        split at h
        · cases hm : unread_mult fuel r0 with
          | ok a =>
            obtain ⟨e1, r1⟩ := a
            rw [hm] at h
            exact ((ihAL _ _ _ _ h).trans (ihM _ _ _ hm)).trans (List.suffix_cons c r0)
          | exit1 => rw [hm] at h; cases h
          | undef => rw [hm] at h; cases h
          | nofuel => rw [hm] at h; cases h
        · cases h; exact List.suffix_refl _
    · intro inp e r h
      rw [unread_mult] at h
      cases hm : unread_atomic fuel inp with
      | ok a =>
        obtain ⟨e1, r1⟩ := a
        rw [hm] at h
        exact (ihML _ _ _ _ h).trans (ihAt _ _ _ hm)
      | exit1 => rw [hm] at h; cases h
      | undef => rw [hm] at h; cases h
      | nofuel => rw [hm] at h; cases h
    · intro e0 inp e r h
      cases inp with
      | nil =>
        rw [unread_mult_loop] at h
        cases h; exact List.suffix_refl _
      | cons c r0 =>
        rw [unread_mult_loop] at h
        split at h
        · cases hm : unread_atomic fuel r0 with
          | ok a =>
            obtain ⟨e1, r1⟩ := a
            rw [hm] at h
            exact ((ihML _ _ _ _ h).trans (ihAt _ _ _ hm)).trans (List.suffix_cons c r0)
          | exit1 => rw [hm] at h; cases h
          | undef => rw [hm] at h; cases h
          | nofuel => rw [hm] at h; cases h
        · cases h; exact List.suffix_refl _
    · intro inp e r h
      cases inp with
      | nil =>
        rw [unread_atomic] at h
        exact unread_number_suffix _ _ _ h
      | cons c r0 =>
        rw [unread_atomic] at h
        split at h
        · cases hm : unread_add fuel r0 with
          | ok a =>
            obtain ⟨e1, r1⟩ := a
            rw [hm] at h
            cases r1 with
            | nil => cases h
            | cons c1 r2 =>
              simp only at h
              split at h
              · cases h
                exact ((List.suffix_cons c1 r).trans (ihA _ _ _ hm)).trans (List.suffix_cons c r0)
              · cases h
          | exit1 => rw [hm] at h; cases h
          | undef => rw [hm] at h; cases h
          | nofuel => rw [hm] at h; cases h
        · exact unread_number_suffix _ _ _ h

/-! ## The parser and its unread-token form agree -/

theorem parser_t.lift_seek (p : parser_t) (r : List Char)
    (x : Result (exprtree × List Char)) : (p.seek r).lift x = p.lift x := by
  cases x <;> rfl

theorem strchr_digits (c : Char) (hc : c ≠ '\x00') :
    strchr "0123456789".toList c = isDig c := by
  unfold strchr isDig
  simp [hc]

theorem parse_number_loop_eq : ∀ (fuel : Nat) (p : parser_t) (number : List Char),
    p.WF → p.rest.length ≤ fuel →
    parse_number_loop fuel p number =
      (p.seek (unread_number_loop p.rest number).1, (unread_number_loop p.rest number).2) := by
  intro fuel
  induction fuel with
  | zero =>
    intro p number hwf hlen
    have hr : p.rest = [] := List.length_eq_zero.1 (Nat.le_zero.1 hlen)
    have hs := p.seek_rest hwf
    rw [hr] at hs ⊢
    simp [parse_number_loop, unread_number_loop, hs]
  | succ fuel ih =>
    intro p number hwf hlen
    cases hr : p.rest with
    | nil =>
      have hs := p.seek_rest hwf
      have hn := p.rest_nil hwf hr
      rw [hr] at hs
      simp [parse_number_loop, unread_number_loop, hs, hn]
    | cons c r =>
      obtain ⟨hcur, hlt, hwf1, hrest1, hc0⟩ := p.rest_cons hwf c r hr
      have hs := p.seek_rest hwf
      rw [hr] at hs
      rw [parse_number_loop, unread_number_loop, hcur, strchr_digits c hc0]
      by_cases hcond : (isDig c && decide (number.length < MAX_INPUT_SIZE)) = true
      · have hlen1 : p.advance.rest.length ≤ fuel := by
          rw [hrest1]; rw [hr] at hlen; simpa using hlen
        rw [if_pos (by simp [hcond, hlt]), if_pos hcond, ih p.advance _ hwf1 hlen1, hrest1]
        rfl
      · rw [if_neg hcond, if_neg (by simpa [hlt] using hcond)]
        simp [hs]

theorem parse_number_eq (p : parser_t) (hwf : p.WF) :
    parse_number p = p.lift (unread_number p.rest) := by
  have hlen : p.rest.length ≤ p.ntokens - p.pos := by
    unfold parser_t.rest
    have := hwf.1
    unfold strlen at this
    simp [this]
  unfold parse_number unread_number
  rw [parse_number_loop_eq _ p [] hwf hlen]
  cases unread_number_loop p.rest [] with
  | mk r number =>
    simp only
    split
    · split <;> rfl
    · rfl

theorem parse_eq_unread : ∀ fuel : Nat,
    (∀ p : parser_t, p.WF → parse_add_expression fuel p = p.lift (unread_add fuel p.rest)) ∧
    (∀ (e0 : exprtree) (p : parser_t), p.WF →
      parse_add_expression_loop fuel e0 p = p.lift (unread_add_loop fuel e0 p.rest)) ∧
    (∀ p : parser_t, p.WF → parse_mult_expression fuel p = p.lift (unread_mult fuel p.rest)) ∧
    (∀ (e0 : exprtree) (p : parser_t), p.WF →
      parse_mult_expression_loop fuel e0 p = p.lift (unread_mult_loop fuel e0 p.rest)) ∧
    (∀ p : parser_t, p.WF →
      parse_atomic_expression fuel p = p.lift (unread_atomic fuel p.rest)) := by
  intro fuel
  induction fuel with
  | zero =>
    refine ⟨?_, ?_, ?_, ?_, ?_⟩ <;> intros <;>
      simp [parse_add_expression, parse_add_expression_loop, parse_mult_expression,
        parse_mult_expression_loop, parse_atomic_expression, unread_add, unread_add_loop,
        unread_mult, unread_mult_loop, unread_atomic, parser_t.lift]
  | succ fuel ih =>
    obtain ⟨ihA, ihAL, ihM, ihML, ihAt⟩ := ih
    have hS := unread_suffix fuel
    refine ⟨?_, ?_, ?_, ?_, ?_⟩
    · intro p hwf
      rw [parse_add_expression, unread_add, ihM p hwf]
      cases hm : unread_mult fuel p.rest with
      | ok a =>
        obtain ⟨e1, r1⟩ := a
        obtain ⟨hwf1, hrest1, -, -⟩ := p.seek_spec hwf r1 (hS.2.2.1 _ _ _ hm)
        simp only [parser_t.lift]
        rw [ihAL e1 _ hwf1, hrest1, parser_t.lift_seek]
        rfl
      | exit1 => rfl
      | undef => rfl
      | nofuel => rfl
    · intro e0 p hwf
      cases hr : p.rest with
      | nil =>
        have hs := p.seek_rest hwf
        have hn := p.rest_nil hwf hr
        rw [hr] at hs
        simp [parse_add_expression_loop, unread_add_loop, hn, parser_t.lift, hs]
      | cons c r =>
        obtain ⟨hcur, hlt, hwf1, hrest1, hc0⟩ := p.rest_cons hwf c r hr
        have hs := p.seek_rest hwf
        rw [hr] at hs
        rw [parse_add_expression_loop, unread_add_loop, hcur]
        by_cases hcond : (c == '+' || c == '-') = true
        · rw [if_pos (by simp only [hlt, decide_True, Bool.true_and]; exact hcond), if_pos hcond]
          simp only
          rw [ihM _ hwf1, hrest1]
          cases hm : unread_mult fuel r with
          | ok a =>
            obtain ⟨e1, r1⟩ := a
            have hsuf : r1 <:+ p.rest := by
              rw [hr]; exact (hS.2.2.1 _ _ _ hm).trans (List.suffix_cons c r)
            obtain ⟨hwf2, hrest2, -, -⟩ := p.seek_spec hwf r1 hsuf
            simp only [parser_t.lift]
            show parse_add_expression_loop fuel _ (p.seek r1) = _
            rw [ihAL _ _ hwf2, hrest2, parser_t.lift_seek]
            rfl
          | exit1 => rfl
          | undef => rfl
          | nofuel => rfl
        · rw [if_neg (by simp only [hlt, decide_True, Bool.true_and]; exact hcond),
            if_neg hcond]
          simp [parser_t.lift, hs]
    · intro p hwf
      rw [parse_mult_expression, unread_mult, ihAt p hwf]
      cases hm : unread_atomic fuel p.rest with
      | ok a =>
        obtain ⟨e1, r1⟩ := a
        obtain ⟨hwf1, hrest1, -, -⟩ := p.seek_spec hwf r1 (hS.2.2.2.2 _ _ _ hm)
        simp only [parser_t.lift]
        rw [ihML e1 _ hwf1, hrest1, parser_t.lift_seek]
        rfl
      | exit1 => rfl
      | undef => rfl
      | nofuel => rfl
    · intro e0 p hwf
      cases hr : p.rest with
      | nil =>
        have hs := p.seek_rest hwf
        have hn := p.rest_nil hwf hr
        rw [hr] at hs
        simp [parse_mult_expression_loop, unread_mult_loop, hn, parser_t.lift, hs]
      | cons c r =>
        obtain ⟨hcur, hlt, hwf1, hrest1, hc0⟩ := p.rest_cons hwf c r hr
        have hs := p.seek_rest hwf
        rw [hr] at hs
        rw [parse_mult_expression_loop, unread_mult_loop, hcur]
        by_cases hcond : (c == '*' || c == '/') = true
        · rw [if_pos (by simp only [hlt, decide_True, Bool.true_and]; exact hcond), if_pos hcond]
          simp only
          rw [ihAt _ hwf1, hrest1]
          cases hm : unread_atomic fuel r with
          | ok a =>
            obtain ⟨e1, r1⟩ := a
            have hsuf : r1 <:+ p.rest := by
              rw [hr]; exact (hS.2.2.2.2 _ _ _ hm).trans (List.suffix_cons c r)
            obtain ⟨hwf2, hrest2, -, -⟩ := p.seek_spec hwf r1 hsuf
            simp only [parser_t.lift]
            show parse_mult_expression_loop fuel _ (p.seek r1) = _
            rw [ihML _ _ hwf2, hrest2, parser_t.lift_seek]
            rfl
          | exit1 => rfl
          | undef => rfl
          | nofuel => rfl
        · rw [if_neg (by simp only [hlt, decide_True, Bool.true_and]; exact hcond),
            if_neg hcond]
          simp [parser_t.lift, hs]
    · intro p hwf
      cases hr : p.rest with
      | nil =>
        have hcur := p.cur_eq hwf
        rw [hr] at hcur
        rw [parse_atomic_expression, unread_atomic, hcur, parse_number_eq p hwf, hr]
        simp
      | cons c r =>
        obtain ⟨hcur, hlt, hwf1, hrest1, hc0⟩ := p.rest_cons hwf c r hr
        rw [parse_atomic_expression, unread_atomic, hcur]
        by_cases hcond : (c == '(') = true
        · rw [if_pos hcond, if_pos hcond, ihA _ hwf1, hrest1]
          cases hm : unread_add fuel r with
          | ok a =>
            obtain ⟨e1, r1⟩ := a
            have hsuf : r1 <:+ p.rest := by
              rw [hr]; exact (hS.1 _ _ _ hm).trans (List.suffix_cons c r)
            obtain ⟨hwf2, hrest2, -, -⟩ := p.seek_spec hwf r1 hsuf
            have hs2 : (p.advance.seek r1) = p.seek r1 := rfl
            simp only [parser_t.lift, hs2]
            cases r1 with
            | nil =>
              have hcur2 := (p.seek []).cur_eq hwf2
              rw [hrest2] at hcur2
              simp [hcur2]
            | cons c1 r2 =>
              obtain ⟨hcur2, -, -, -, -⟩ := (p.seek (c1 :: r2)).rest_cons hwf2 c1 r2 hrest2
              rw [hcur2]
              have hadv : (p.seek (c1 :: r2)).advance = p.seek r2 := by
                have h1 := hwf2.2
                have hl : (c1 :: r2).length ≤ p.ntokens := by
                  have := hsuf.length_le
                  have h3 : p.rest.length ≤ p.ntokens := by
                    unfold parser_t.rest
                    have := hwf.1
                    unfold strlen at this
                    simp [this]
                  omega
                unfold parser_t.advance parser_t.seek
                simp only [List.length_cons] at hl ⊢
                congr 1
                omega
              rw [hadv]
              by_cases hc1 : (c1 == ')') = true
              · simp [hc1, parser_t.lift]
              · simp [hc1, parser_t.lift]
          | exit1 => rfl
          | undef => rfl
          | nofuel => rfl
        · rw [if_neg hcond, if_neg hcond, parse_number_eq p hwf, hr]

/-! ## Budget: more is harmless, three units per token are enough -/

theorem unread_number_ne_nofuel (inp : List Char) : unread_number inp ≠ .nofuel := by
  unfold unread_number
  cases unread_number_loop inp [] with
  | mk r number =>
    simp only
    split
    · split <;> simp
    · simp

theorem unread_fuel_succ : ∀ fuel : Nat,
    (∀ inp, unread_add fuel inp ≠ .nofuel → unread_add (fuel + 1) inp = unread_add fuel inp) ∧
    (∀ e0 inp, unread_add_loop fuel e0 inp ≠ .nofuel →
      unread_add_loop (fuel + 1) e0 inp = unread_add_loop fuel e0 inp) ∧
    (∀ inp, unread_mult fuel inp ≠ .nofuel → unread_mult (fuel + 1) inp = unread_mult fuel inp) ∧
    (∀ e0 inp, unread_mult_loop fuel e0 inp ≠ .nofuel →
      unread_mult_loop (fuel + 1) e0 inp = unread_mult_loop fuel e0 inp) ∧
    (∀ inp, unread_atomic fuel inp ≠ .nofuel →
      unread_atomic (fuel + 1) inp = unread_atomic fuel inp) := by
  intro fuel
  induction fuel with
  | zero =>
    refine ⟨?_, ?_, ?_, ?_, ?_⟩ <;> intros <;> simp_all [unread_add, unread_add_loop, unread_mult,
      unread_mult_loop, unread_atomic]
  | succ fuel ih =>
    obtain ⟨ihA, ihAL, ihM, ihML, ihAt⟩ := ih
    refine ⟨?_, ?_, ?_, ?_, ?_⟩
    · intro inp h
      simp only [unread_add] at h ⊢
      cases hm : unread_mult fuel inp with
      | ok a =>
        obtain ⟨e1, r1⟩ := a
        rw [hm] at h
        rw [ihM inp (by rw [hm]; simp), hm]
        exact ihAL _ _ h
      | exit1 => rw [ihM inp (by rw [hm]; simp), hm]
      | undef => rw [ihM inp (by rw [hm]; simp), hm]
      | nofuel => rw [hm] at h; exact absurd rfl h
    · intro e0 inp h
      cases inp with
      | nil => simp only [unread_add_loop]
      | cons c r =>
        simp only [unread_add_loop] at h ⊢
        by_cases hcond : (c == '+' || c == '-') = true
        · simp only [if_pos hcond] at h ⊢
          cases hm : unread_mult fuel r with
          | ok a =>
            obtain ⟨e1, r1⟩ := a
            rw [hm] at h
            rw [ihM r (by rw [hm]; simp), hm]
            exact ihAL _ _ h
          | exit1 => rw [ihM r (by rw [hm]; simp), hm]
          | undef => rw [ihM r (by rw [hm]; simp), hm]
          | nofuel => rw [hm] at h; exact absurd rfl h
        · simp only [if_neg hcond]
    · intro inp h
      simp only [unread_mult] at h ⊢
      cases hm : unread_atomic fuel inp with
      | ok a =>
        obtain ⟨e1, r1⟩ := a
        rw [hm] at h
        rw [ihAt inp (by rw [hm]; simp), hm]
        exact ihML _ _ h
      | exit1 => rw [ihAt inp (by rw [hm]; simp), hm]
      | undef => rw [ihAt inp (by rw [hm]; simp), hm]
      | nofuel => rw [hm] at h; exact absurd rfl h
    · intro e0 inp h
      cases inp with
      | nil => simp only [unread_mult_loop]
      | cons c r =>
        simp only [unread_mult_loop] at h ⊢
        by_cases hcond : (c == '*' || c == '/') = true
        · simp only [if_pos hcond] at h ⊢
          cases hm : unread_atomic fuel r with
          | ok a =>
            obtain ⟨e1, r1⟩ := a
            rw [hm] at h
            rw [ihAt r (by rw [hm]; simp), hm]
            exact ihML _ _ h
          | exit1 => rw [ihAt r (by rw [hm]; simp), hm]
          | undef => rw [ihAt r (by rw [hm]; simp), hm]
          | nofuel => rw [hm] at h; exact absurd rfl h
        · simp only [if_neg hcond]
    · intro inp h
      cases inp with
      | nil => simp only [unread_atomic]
      | cons c r =>
        simp only [unread_atomic] at h ⊢
        by_cases hcond : (c == '(') = true
        · simp only [if_pos hcond] at h ⊢
          cases hm : unread_add fuel r with
          | ok a => rw [ihA r (by rw [hm]; simp), hm]
          | exit1 => rw [ihA r (by rw [hm]; simp), hm]
          | undef => rw [ihA r (by rw [hm]; simp), hm]
          | nofuel => rw [hm] at h; exact absurd rfl h
        · simp only [if_neg hcond]

theorem unread_fuel_add : ∀ (k fuel : Nat),
    (∀ inp, unread_add fuel inp ≠ .nofuel → unread_add (fuel + k) inp = unread_add fuel inp) ∧
    (∀ e0 inp, unread_add_loop fuel e0 inp ≠ .nofuel →
      unread_add_loop (fuel + k) e0 inp = unread_add_loop fuel e0 inp) ∧
    (∀ inp, unread_mult fuel inp ≠ .nofuel → unread_mult (fuel + k) inp = unread_mult fuel inp) ∧
    (∀ e0 inp, unread_mult_loop fuel e0 inp ≠ .nofuel →
      unread_mult_loop (fuel + k) e0 inp = unread_mult_loop fuel e0 inp) ∧
    (∀ inp, unread_atomic fuel inp ≠ .nofuel →
      unread_atomic (fuel + k) inp = unread_atomic fuel inp) := by
  intro k
  induction k with
  | zero => intro fuel; simp
  | succ k ih =>
    intro fuel
    obtain ⟨hA, hAL, hM, hML, hAt⟩ := ih fuel
    obtain ⟨sA, sAL, sM, sML, sAt⟩ := unread_fuel_succ (fuel + k)
    refine ⟨?_, ?_, ?_, ?_, ?_⟩
    · intro inp h
      rw [← Nat.add_assoc, sA inp (by rw [hA inp h]; exact h), hA inp h]
    · intro e0 inp h
      rw [← Nat.add_assoc, sAL e0 inp (by rw [hAL e0 inp h]; exact h), hAL e0 inp h]
    · intro inp h
      rw [← Nat.add_assoc, sM inp (by rw [hM inp h]; exact h), hM inp h]
    · intro e0 inp h
      rw [← Nat.add_assoc, sML e0 inp (by rw [hML e0 inp h]; exact h), hML e0 inp h]
    · intro inp h
      rw [← Nat.add_assoc, sAt inp (by rw [hAt inp h]; exact h), hAt inp h]

/-- A result obtained with some budget is the result with any larger budget. -/
theorem unread_mult_mono (f g : Nat) (hfg : f ≤ g) (inp : List Char)
    (res : exprtree × List Char) (h : unread_mult f inp = .ok res) :
    unread_mult g inp = .ok res := by
  obtain ⟨k, rfl⟩ := Nat.exists_eq_add_of_le hfg
  rw [(unread_fuel_add k f).2.2.1 inp (by rw [h]; simp), h]

theorem unread_atomic_mono (f g : Nat) (hfg : f ≤ g) (inp : List Char)
    (res : exprtree × List Char) (h : unread_atomic f inp = .ok res) :
    unread_atomic g inp = .ok res := by
  obtain ⟨k, rfl⟩ := Nat.exists_eq_add_of_le hfg
  rw [(unread_fuel_add k f).2.2.2.2 inp (by rw [h]; simp), h]

theorem unread_add_mono (f g : Nat) (hfg : f ≤ g) (inp : List Char)
    (res : exprtree × List Char) (h : unread_add f inp = .ok res) :
    unread_add g inp = .ok res := by
  obtain ⟨k, rfl⟩ := Nat.exists_eq_add_of_le hfg
  rw [(unread_fuel_add k f).1 inp (by rw [h]; simp), h]

theorem unread_enough : ∀ fuel : Nat,
    (∀ inp : List Char, 3 * inp.length + 3 ≤ fuel → unread_add fuel inp ≠ .nofuel) ∧
    (∀ (e0 : exprtree) (inp : List Char), 3 * inp.length + 2 ≤ fuel →
      unread_add_loop fuel e0 inp ≠ .nofuel) ∧
    (∀ inp : List Char, 3 * inp.length + 2 ≤ fuel → unread_mult fuel inp ≠ .nofuel) ∧
    (∀ (e0 : exprtree) (inp : List Char), 3 * inp.length + 1 ≤ fuel →
      unread_mult_loop fuel e0 inp ≠ .nofuel) ∧
    (∀ inp : List Char, 3 * inp.length + 1 ≤ fuel → unread_atomic fuel inp ≠ .nofuel) := by
  intro fuel
  induction fuel with
  | zero =>
    refine ⟨?_, ?_, ?_, ?_, ?_⟩ <;> intros <;> omega
  | succ fuel ih =>
    obtain ⟨ihA, ihAL, ihM, ihML, ihAt⟩ := ih
    have hS := unread_suffix fuel
    refine ⟨?_, ?_, ?_, ?_, ?_⟩
    · intro inp hf
      simp only [unread_add]
      cases hm : unread_mult fuel inp with
      | ok a =>
        obtain ⟨e1, r1⟩ := a
        have := (hS.2.2.1 _ _ _ hm).length_le
        exact ihAL _ _ (by omega)
      | exit1 => simp
      | undef => simp
      | nofuel => exact absurd hm (ihM inp (by omega))
    · intro e0 inp hf
      cases inp with
      | nil => simp [unread_add_loop]
      | cons c r =>
        simp only [unread_add_loop]
        simp only [List.length_cons] at hf
        split
        · cases hm : unread_mult fuel r with
          | ok a =>
            obtain ⟨e1, r1⟩ := a
            have := (hS.2.2.1 _ _ _ hm).length_le
            exact ihAL _ _ (by omega)
          | exit1 => simp
          | undef => simp
          | nofuel => exact absurd hm (ihM r (by omega))
        · simp
    · intro inp hf
      simp only [unread_mult]
      cases hm : unread_atomic fuel inp with
      | ok a =>
        obtain ⟨e1, r1⟩ := a
        have := (hS.2.2.2.2 _ _ _ hm).length_le
        exact ihML _ _ (by omega)
      | exit1 => simp
      | undef => simp
      | nofuel => exact absurd hm (ihAt inp (by omega))
    · intro e0 inp hf
      cases inp with
      | nil => simp [unread_mult_loop]
      | cons c r =>
        simp only [unread_mult_loop]
        simp only [List.length_cons] at hf
        split
        · cases hm : unread_atomic fuel r with
          | ok a =>
            obtain ⟨e1, r1⟩ := a
            have := (hS.2.2.2.2 _ _ _ hm).length_le
            exact ihML _ _ (by omega)
          | exit1 => simp
          | undef => simp
          | nofuel => exact absurd hm (ihAt r (by omega))
        · simp
    · intro inp hf
      cases inp with
      | nil =>
        simp only [unread_atomic]
        exact unread_number_ne_nofuel _
      | cons c r =>
        simp only [unread_atomic]
        simp only [List.length_cons] at hf
        split
        · cases hm : unread_add fuel r with
          | ok a =>
            obtain ⟨e1, r1⟩ := a
            cases r1 with
            | nil => simp
            | cons c1 r2 =>
              simp only
              split <;> simp
          | exit1 => simp
          | undef => simp
          | nofuel => exact absurd hm (ihA r (by omega))
        · exact unread_number_ne_nofuel _

/-! ## Tokens behind the parsed text

A call reads at most one token behind the text it accepts.  When that token cannot continue the
text, the call gives the same tree with any tokens appended. -/

theorem stopsAdd.toMult {rest : List Char} (h : stopsAdd rest) : stopsMult rest :=
  fun c hc => ⟨(h c hc).1, (h c hc).2.1⟩

theorem stopsMult.toNumber {rest : List Char} (h : stopsMult rest) : stopsNumber rest :=
  fun c hc => (h c hc).1

theorem ne_nil_of_suffix_ne_nil {r r1 : List Char} (hs : r <:+ r1) (h : r ≠ []) : r1 ≠ [] := by
  intro h1
  subst h1
  exact h (List.suffix_nil.1 hs)

theorem unread_number_loop_append : ∀ (inp number rest r num1 : List Char),
    unread_number_loop inp number = (r, num1) → (r ≠ [] ∨ stopsNumber rest) →
    unread_number_loop (inp ++ rest) number = (r ++ rest, num1) := by
  intro inp
  induction inp with
  | nil =>
    intro number rest r num1 h hstop
    simp only [unread_number_loop, Prod.mk.injEq] at h
    obtain ⟨rfl, rfl⟩ := h
    have hst : stopsNumber rest := by
      rcases hstop with h | h
      · exact absurd rfl h
      · exact h
    cases rest with
    | nil => rfl
    | cons c t =>
      have := hst c (by simp)
      simp [unread_number_loop, this]
  | cons c r0 ih =>
    intro number rest r num1 h hstop
    simp only [List.cons_append, unread_number_loop] at h ⊢
    by_cases hcond : (isDig c && decide (number.length < MAX_INPUT_SIZE)) = true
    · simp only [if_pos hcond] at h ⊢
      exact ih _ _ _ _ h hstop
    · simp only [if_neg hcond, Prod.mk.injEq] at h ⊢
      obtain ⟨rfl, rfl⟩ := h
      simp

theorem unread_number_append (inp rest : List Char) (e : exprtree) (r : List Char)
    (h : unread_number inp = .ok (e, r)) (hstop : r ≠ [] ∨ stopsNumber rest) :
    unread_number (inp ++ rest) = .ok (e, r ++ rest) := by
  unfold unread_number at h ⊢
  cases hl : unread_number_loop inp [] with
  | mk r0 number =>
    rw [hl] at h
    simp only at h
    by_cases h1 : number.length < MAX_INPUT_SIZE
    · by_cases h2 : number.length = 0
      · rw [if_pos h1, if_pos h2] at h
        cases h
      · simp only [if_pos h1, if_neg h2, Result.ok.injEq, Prod.mk.injEq] at h
        obtain ⟨rfl, rfl⟩ := h
        rw [unread_number_loop_append inp [] rest _ _ hl hstop]
        simp [h1, h2]
    · rw [if_neg h1] at h
      cases h

theorem unread_append : ∀ fuel : Nat,
    (∀ inp rest e r, unread_add fuel inp = .ok (e, r) → (r ≠ [] ∨ stopsAdd rest) →
      unread_add fuel (inp ++ rest) = .ok (e, r ++ rest)) ∧
    (∀ e0 inp rest e r, unread_add_loop fuel e0 inp = .ok (e, r) → (r ≠ [] ∨ stopsAdd rest) →
      unread_add_loop fuel e0 (inp ++ rest) = .ok (e, r ++ rest)) ∧
    (∀ inp rest e r, unread_mult fuel inp = .ok (e, r) → (r ≠ [] ∨ stopsMult rest) →
      unread_mult fuel (inp ++ rest) = .ok (e, r ++ rest)) ∧
    (∀ e0 inp rest e r, unread_mult_loop fuel e0 inp = .ok (e, r) → (r ≠ [] ∨ stopsMult rest) →
      unread_mult_loop fuel e0 (inp ++ rest) = .ok (e, r ++ rest)) ∧
    (∀ inp rest e r, unread_atomic fuel inp = .ok (e, r) → (r ≠ [] ∨ stopsNumber rest) →
      unread_atomic fuel (inp ++ rest) = .ok (e, r ++ rest)) := by
  intro fuel
  induction fuel with
  | zero =>
    refine ⟨?_, ?_, ?_, ?_, ?_⟩ <;> intros <;> simp_all [unread_add, unread_add_loop, unread_mult,
      unread_mult_loop, unread_atomic]
  | succ fuel ih =>
    obtain ⟨ihA, ihAL, ihM, ihML, ihAt⟩ := ih
    have hS := unread_suffix fuel
    refine ⟨?_, ?_, ?_, ?_, ?_⟩
    · intro inp rest e r h hstop
      simp only [unread_add] at h ⊢
      cases hm : unread_mult fuel inp with
      | ok a =>
        obtain ⟨e1, r1⟩ := a
        rw [hm] at h
        simp only at h
        have hstop1 : r1 ≠ [] ∨ stopsMult rest :=
          hstop.imp (ne_nil_of_suffix_ne_nil (hS.2.1 _ _ _ _ h)) stopsAdd.toMult
        rw [ihM _ _ _ _ hm hstop1]
        exact ihAL _ _ _ _ _ h hstop
      | exit1 => rw [hm] at h; cases h
      | undef => rw [hm] at h; cases h
      | nofuel => rw [hm] at h; cases h
    · intro e0 inp rest e r h hstop
      cases inp with
      | nil =>
        simp only [unread_add_loop, Result.ok.injEq, Prod.mk.injEq] at h
        obtain ⟨rfl, rfl⟩ := h
        have hst : stopsAdd rest := hstop.resolve_left (fun h => h rfl)
        cases rest with
        | nil => simp [unread_add_loop]
        | cons c t =>
          have := (hst c (by simp)).2.2
          simp only [List.nil_append, unread_add_loop, this]
          simp
      | cons c r0 =>
        simp only [List.cons_append, unread_add_loop, List.append_eq] at h ⊢
        by_cases hcond : (c == '+' || c == '-') = true
        · simp only [if_pos hcond] at h ⊢
          cases hm : unread_mult fuel r0 with
          | ok a =>
            obtain ⟨e1, r1⟩ := a
            rw [hm] at h
            simp only at h
            have hstop1 : r1 ≠ [] ∨ stopsMult rest :=
              hstop.imp (ne_nil_of_suffix_ne_nil (hS.2.1 _ _ _ _ h)) stopsAdd.toMult
            rw [ihM _ _ _ _ hm hstop1]
            exact ihAL _ _ _ _ _ h hstop
          | exit1 => rw [hm] at h; cases h
          | undef => rw [hm] at h; cases h
          | nofuel => rw [hm] at h; cases h
        · simp only [if_neg hcond, Result.ok.injEq, Prod.mk.injEq] at h ⊢
          obtain ⟨rfl, rfl⟩ := h
          simp
    · intro inp rest e r h hstop
      simp only [unread_mult] at h ⊢
      cases hm : unread_atomic fuel inp with
      | ok a =>
        obtain ⟨e1, r1⟩ := a
        rw [hm] at h
        simp only at h
        have hstop1 : r1 ≠ [] ∨ stopsNumber rest :=
          hstop.imp (ne_nil_of_suffix_ne_nil (hS.2.2.2.1 _ _ _ _ h)) stopsMult.toNumber
        rw [ihAt _ _ _ _ hm hstop1]
        exact ihML _ _ _ _ _ h hstop
      | exit1 => rw [hm] at h; cases h
      | undef => rw [hm] at h; cases h
      | nofuel => rw [hm] at h; cases h
    · intro e0 inp rest e r h hstop
      cases inp with
      | nil =>
        simp only [unread_mult_loop, Result.ok.injEq, Prod.mk.injEq] at h
        obtain ⟨rfl, rfl⟩ := h
        have hst : stopsMult rest := hstop.resolve_left (fun h => h rfl)
        cases rest with
        | nil => simp [unread_mult_loop]
        | cons c t =>
          have := (hst c (by simp)).2
          simp only [List.nil_append, unread_mult_loop, this]
          simp
      | cons c r0 =>
        simp only [List.cons_append, unread_mult_loop, List.append_eq] at h ⊢
        by_cases hcond : (c == '*' || c == '/') = true
        · simp only [if_pos hcond] at h ⊢
          cases hm : unread_atomic fuel r0 with
          | ok a =>
            obtain ⟨e1, r1⟩ := a
            rw [hm] at h
            simp only at h
            have hstop1 : r1 ≠ [] ∨ stopsNumber rest :=
              hstop.imp (ne_nil_of_suffix_ne_nil (hS.2.2.2.1 _ _ _ _ h)) stopsMult.toNumber
            rw [ihAt _ _ _ _ hm hstop1]
            exact ihML _ _ _ _ _ h hstop
          | exit1 => rw [hm] at h; cases h
          | undef => rw [hm] at h; cases h
          | nofuel => rw [hm] at h; cases h
        · simp only [if_neg hcond, Result.ok.injEq, Prod.mk.injEq] at h ⊢
          obtain ⟨rfl, rfl⟩ := h
          simp
    · intro inp rest e r h hstop
      cases inp with
      | nil =>
        simp [unread_atomic, unread_number, unread_number_loop, MAX_INPUT_SIZE] at h
      | cons c r0 =>
        simp only [List.cons_append, unread_atomic, List.append_eq] at h ⊢
        by_cases hcond : (c == '(') = true
        · simp only [if_pos hcond] at h ⊢
          cases hm : unread_add fuel r0 with
          | ok a =>
            obtain ⟨e1, r1⟩ := a
            rw [hm] at h
            cases r1 with
            | nil => cases h
            | cons c1 r2 =>
              simp only at h
              rw [ihA _ rest _ _ hm (Or.inl (by simp))]
              simp only [List.cons_append]
              by_cases hc1 : (c1 == ')') = true
              · simp only [if_pos hc1, Result.ok.injEq, Prod.mk.injEq] at h ⊢
                obtain ⟨rfl, rfl⟩ := h
                simp
              · rw [if_neg hc1] at h
                cases h
          | exit1 => rw [hm] at h; cases h
          | undef => rw [hm] at h; cases h
          | nofuel => rw [hm] at h; cases h
        · simp only [if_neg hcond] at h ⊢
          exact unread_number_append (c :: r0) rest e r h hstop

/-! ## Tokenizer -/

theorem strchr_valid (c : Char) (hc : c ≠ '\x00') : strchr VALID_TOKENS c = inAlphabet c := by
  unfold strchr inAlphabet
  simp [hc]

theorem inAlphabet_ne_null (c : Char) (h : inAlphabet c = true) : c ≠ '\x00' := by
  intro h0
  subst h0
  revert h
  decide

theorem tokenize_loop_eq : ∀ (xs acc : List Char), (∀ c ∈ xs, c ≠ '\x00') →
    tokenize_loop xs acc =
      if xs.filter inAlphabet = [] ∨ (acc ++ xs.filter inAlphabet).length ≤ MAX_INPUT_SIZE then
        .ok (acc ++ xs.filter inAlphabet)
      else .undef := by
  intro xs
  induction xs with
  | nil => intro acc _; simp [tokenize_loop]
  | cons c r ih =>
    intro acc h0
    have hc : c ≠ '\x00' := h0 c (by simp)
    have hr : ∀ d ∈ r, d ≠ '\x00' := fun d hd => h0 d (by simp [hd])
    rw [tokenize_loop, strchr_valid c hc]
    by_cases hv : inAlphabet c = true
    · rw [if_pos hv]
      by_cases hl : acc.length < MAX_INPUT_SIZE
      · rw [if_pos hl, ih _ hr]
        simp only [List.filter_cons, hv, if_true, List.append_assoc, List.singleton_append,
          List.length_append, List.length_cons, List.length_nil, reduceCtorEq, false_or]
        by_cases he : List.filter inAlphabet r = []
        · simp only [he, List.length_nil, true_or, if_true]
          rw [if_pos (by omega)]
        · simp only [he, false_or]
      · rw [if_neg hl]
        simp only [List.filter_cons, hv, if_true, List.length_append, List.length_cons,
          reduceCtorEq, false_or]
        rw [if_neg (by omega)]
    · rw [if_neg hv, ih _ hr]
      simp [List.filter_cons, hv]

theorem tokenize_eq (s : List Char) :
    tokenize s =
      if ((cstr s).filter inAlphabet).length < MAX_INPUT_SIZE then
        .ok ((cstr s).filter inAlphabet)
      else .undef := by
  unfold tokenize
  simp only [take_strlen]
  rw [tokenize_loop_eq _ _ (cstr_ne_null s)]
  simp only [List.nil_append]
  by_cases h1 : ((cstr s).filter inAlphabet).length < MAX_INPUT_SIZE
  · have : List.filter inAlphabet (cstr s) = [] ∨
        (List.filter inAlphabet (cstr s)).length ≤ MAX_INPUT_SIZE := Or.inr (by omega)
    rw [if_pos this, if_pos h1]
    simp only [if_pos h1]
  · by_cases h2 : List.filter inAlphabet (cstr s) = [] ∨
        (List.filter inAlphabet (cstr s)).length ≤ MAX_INPUT_SIZE
    · rw [if_pos h2, if_neg h1]
      simp only [if_neg h1]
    · rw [if_neg h2, if_neg h1]

/-- A token string made of alphabet characters, shorter than the buffer, is its own
tokenization. -/
theorem tokenize_self (s : List Char) (hv : ∀ c ∈ s, inAlphabet c = true)
    (hl : s.length < MAX_INPUT_SIZE) : tokenize s = .ok s := by
  have h0 : cstr s = s := cstr_eq_self s (fun c hc => inAlphabet_ne_null c (hv c hc))
  have hf : s.filter inAlphabet = s := List.filter_eq_self.2 hv
  rw [tokenize_eq, h0, hf, if_pos hl]

/-! ## Integer literals -/

theorem wrap32_eq (x : Int) (h1 : INT_MIN ≤ x) (h2 : x ≤ INT_MAX) : wrap32 x = x := by
  unfold wrap32
  unfold INT_MIN at h1
  unfold INT_MAX at h2
  omega

theorem digitChar_spec (d : Nat) (h : d < 10) :
    isDig (Nat.digitChar d) = true ∧ (Nat.digitChar d).isDigit = true ∧
      (Nat.digitChar d).toNat - '0'.toNat = d := by
  interval_cases d <;> decide

theorem toDigitsCore_spec : ∀ (fuel n : Nat) (acc : List Char), n < fuel →
    ∃ ds : List Char, Nat.toDigitsCore 10 fuel n acc = ds ++ acc ∧ ds ≠ [] ∧
      (∀ c ∈ ds, isDig c = true ∧ c.isDigit = true) ∧ decval ds = n := by
  intro fuel
  induction fuel with
  | zero => intro n acc h; omega
  | succ fuel ih =>
    intro n acc h
    obtain ⟨hd1, hd2, hd3⟩ := digitChar_spec (n % 10) (Nat.mod_lt _ (by decide))
    by_cases h0 : n / 10 = 0
    · refine ⟨[Nat.digitChar (n % 10)], ?_, by simp, ?_, ?_⟩
      · simp [Nat.toDigitsCore, h0]
      · intro c hc
        simp only [List.mem_singleton] at hc
        subst hc
        exact ⟨hd1, hd2⟩
      · simp only [decval, List.foldl_cons, List.foldl_nil, hd3]
        omega
    · have hlt : n / 10 < fuel := by omega
      obtain ⟨ds, hds, -, hdig, hval⟩ := ih (n / 10) (Nat.digitChar (n % 10) :: acc) hlt
      refine ⟨ds ++ [Nat.digitChar (n % 10)], ?_, by simp, ?_, ?_⟩
      · simp [Nat.toDigitsCore, h0, hds]
      · intro c hc
        rcases List.mem_append.1 hc with hc | hc
        · exact hdig c hc
        · simp only [List.mem_singleton] at hc
          subst hc
          exact ⟨hd1, hd2⟩
      · unfold decval at hval ⊢
        simp only [List.foldl_append, List.foldl_cons, List.foldl_nil, hval, hd3]
        omega

theorem lit_spec (n : Nat) :
    lit n ≠ [] ∧ (∀ c ∈ lit n, isDig c = true ∧ c.isDigit = true) ∧ decval (lit n) = n := by
  obtain ⟨ds, hds, h1, h2, h3⟩ := toDigitsCore_spec (n + 1) n [] (Nat.lt_succ_self n)
  have : lit n = ds := by simpa [lit, Nat.toDigits] using hds
  rw [this]
  exact ⟨h1, h2, h3⟩

theorem lit_length (n : Nat) (h : (n : Int) ≤ INT_MAX) : (lit n).length ≤ 10 := by
  have hn : n < 10 ^ 10 := by
    unfold INT_MAX at h
    have : n ≤ 2147483647 := by exact_mod_cast h
    omega
  exact Nat.toDigitsCore_length 10 (by decide) (n + 1) n 10 hn (by decide)

theorem atoi_digits (ds : List Char) (h : ∀ c ∈ ds, c.isDigit = true) :
    atoi ds = wrap32 (min (decval ds : Int) LONG_MAX) := by
  unfold atoi decval
  rw [List.takeWhile_eq_self_iff.2 h]
  rfl

theorem atoi_fits (ds : List Char) (h : ∀ c ∈ ds, c.isDigit = true)
    (hfit : (decval ds : Int) ≤ INT_MAX) : atoi ds = decval ds := by
  rw [atoi_digits ds h]
  have hm : min (decval ds : Int) LONG_MAX = decval ds := by
    apply min_eq_left
    unfold INT_MAX at hfit
    unfold LONG_MAX
    omega
  rw [hm]
  exact wrap32_eq _ (by unfold INT_MIN; omega) hfit

theorem atoi_lit (n : Nat) (h : (n : Int) ≤ INT_MAX) : atoi (lit n) = n := by
  obtain ⟨-, h2, h3⟩ := lit_spec n
  rw [atoi_fits _ (fun c hc => (h2 c hc).2) (by rw [h3]; exact h), h3]

/-! ## A run of digits is read as one number -/

theorem unread_number_loop_digits : ∀ (ds number : List Char), (∀ c ∈ ds, isDig c = true) →
    number.length + ds.length ≤ MAX_INPUT_SIZE →
    unread_number_loop ds number = ([], number ++ ds) := by
  intro ds
  induction ds with
  | nil => intro number _ _; simp [unread_number_loop]
  | cons c r ih =>
    intro number hd hl
    have hc := hd c (by simp)
    simp only [List.length_cons] at hl
    have hlt : number.length < MAX_INPUT_SIZE := by omega
    rw [unread_number_loop, if_pos (by simp [hc, hlt]),
      ih _ (fun d hd1 => hd d (by simp [hd1])) (by simp; omega)]
    simp

theorem unread_number_digits (ds : List Char) (hne : ds ≠ []) (hd : ∀ c ∈ ds, isDig c = true)
    (hl : ds.length < MAX_INPUT_SIZE) :
    unread_number ds = .ok (Number (atoi ds), []) := by
  unfold unread_number
  rw [unread_number_loop_digits ds [] hd (by simp; omega)]
  have : ¬ ds.length = 0 := fun h => hne (List.length_eq_zero.1 h)
  simp [hl, this, Number]

theorem isDig_ne_paren (c : Char) (h : isDig c = true) : (c == '(') = false := by
  by_contra hne
  have : c = '(' := by simpa using hne
  subst this
  revert h
  decide

theorem unread_atomic_digits (fuel : Nat) (ds : List Char) (hne : ds ≠ [])
    (hd : ∀ c ∈ ds, isDig c = true) (hl : ds.length < MAX_INPUT_SIZE) :
    unread_atomic (fuel + 1) ds = .ok (Number (atoi ds), []) := by
  cases ds with
  | nil => exact absurd rfl hne
  | cons c r =>
    rw [unread_atomic, isDig_ne_paren c (hd c (by simp))]
    simpa using unread_number_digits (c :: r) hne hd hl

theorem unread_atomic_lit (n : Nat) (h : (n : Int) ≤ INT_MAX) :
    unread_atomic 1 (lit n) = .ok (Number n, []) := by
  obtain ⟨h1, h2, -⟩ := lit_spec n
  have hl := lit_length n h
  rw [unread_atomic_digits 0 (lit n) h1 (fun c hc => (h2 c hc).1)
    (by unfold MAX_INPUT_SIZE; omega), atoi_lit n h]

/-! ## The function `parse` through the unread tokens -/

theorem initial_WF (tokens : List Char) :
    (parser_t.mk tokens (strlen tokens) 0).WF ∧
      (parser_t.mk tokens (strlen tokens) 0).rest = cstr tokens :=
  ⟨⟨rfl, Nat.zero_le _⟩, rfl⟩

theorem parse_eq (tokens : List Char) :
    parse tokens = (unread_add (3 * strlen tokens + 3) (cstr tokens)).tree := by
  unfold parse
  simp only
  rw [(parse_eq_unread _).1 _ (initial_WF tokens).1, (initial_WF tokens).2]
  cases unread_add (3 * strlen tokens + 3) (cstr tokens) with
  | ok a => obtain ⟨e, r⟩ := a; rfl
  | exit1 => rfl
  | undef => rfl
  | nofuel => rfl

theorem accepts_unread (f : Nat → parser_t → Result (exprtree × parser_t))
    (u : Nat → List Char → Result (exprtree × List Char))
    (hfu : ∀ fuel (p : parser_t), p.WF → f fuel p = p.lift (u fuel p.rest))
    (hsuf : ∀ fuel inp e r, u fuel inp = .ok (e, r) → r <:+ inp)
    (x : List Char) (T : exprtree) (h : accepts f x T) :
    cstr x = x ∧ ∃ fuel, u fuel x = .ok (T, []) := by
  obtain ⟨fuel, h⟩ := h
  rw [hfu fuel _ (initial_WF x).1, (initial_WF x).2] at h
  cases hu : u fuel (cstr x) with
  | ok a =>
    obtain ⟨e, r⟩ := a
    rw [hu] at h
    simp only [parser_t.lift, parser_t.seek, Result.ok.injEq, Prod.mk.injEq,
      parser_t.mk.injEq, true_and] at h
    obtain ⟨rfl, hpos⟩ := h
    have h1 := strlen_le x
    have h2 := (hsuf _ _ _ _ hu).length_le
    have hlen : (cstr x).length = x.length := by unfold strlen at h1 hpos; omega
    have hx : cstr x = x := ( List.takeWhile_prefix _).eq_of_length hlen
    have hr : r = [] := by
      apply List.length_eq_zero.1
      unfold strlen at hpos
      have : 0 < x.length ∨ x.length = 0 := by omega
      rcases this with h0 | h0
      · omega
      · have : (cstr x).length = 0 := by omega
        omega
    subst hr
    rw [hx] at hu
    exact ⟨hx, fuel, hu⟩
  | exit1 => rw [hu] at h; cases h
  | undef => rw [hu] at h; cases h
  | nofuel => rw [hu] at h; cases h

theorem accepts_mult (x : List Char) (T : exprtree) (h : accepts parse_mult_expression x T) :
    cstr x = x ∧ ∃ fuel, unread_mult fuel x = .ok (T, []) :=
  accepts_unread _ _ (fun fuel => (parse_eq_unread fuel).2.2.1)
    (fun fuel => (unread_suffix fuel).2.2.1) x T h

theorem accepts_atomic (x : List Char) (T : exprtree)
    (h : accepts parse_atomic_expression x T) :
    cstr x = x ∧ ∃ fuel, unread_atomic fuel x = .ok (T, []) :=
  accepts_unread _ _ (fun fuel => (parse_eq_unread fuel).2.2.2.2)
    (fun fuel => (unread_suffix fuel).2.2.2.2) x T h

theorem accepts_add (x : List Char) (T : exprtree) (h : accepts parse_add_expression x T) :
    cstr x = x ∧ ∃ fuel, unread_add fuel x = .ok (T, []) :=
  accepts_unread _ _ (fun fuel => (parse_eq_unread fuel).1)
    (fun fuel => (unread_suffix fuel).1) x T h

/-- A result obtained with some budget is the result with the standard budget. -/
theorem unread_mult_std (x : List Char) (res : exprtree × List Char)
    (h : ∃ f, unread_mult f x = .ok res) (g : Nat) (hg : 3 * x.length + 2 ≤ g) :
    unread_mult g x = .ok res := by
  obtain ⟨f, hf⟩ := h
  have h1 := (unread_fuel_add f g).2.2.1 x ((unread_enough g).2.2.1 x hg)
  have h2 := (unread_fuel_add g f).2.2.1 x (by rw [hf]; simp)
  rw [← h1, Nat.add_comm, h2, hf]

theorem unread_atomic_std (x : List Char) (res : exprtree × List Char)
    (h : ∃ f, unread_atomic f x = .ok res) (g : Nat) (hg : 3 * x.length + 1 ≤ g) :
    unread_atomic g x = .ok res := by
  obtain ⟨f, hf⟩ := h
  have h1 := (unread_fuel_add f g).2.2.2.2 x ((unread_enough g).2.2.2.2 x hg)
  have h2 := (unread_fuel_add g f).2.2.2.2 x (by rw [hf]; simp)
  rw [← h1, Nat.add_comm, h2, hf]

theorem unread_add_std (x : List Char) (res : exprtree × List Char)
    (h : ∃ f, unread_add f x = .ok res) (g : Nat) (hg : 3 * x.length + 3 ≤ g) :
    unread_add g x = .ok res := by
  obtain ⟨f, hf⟩ := h
  have h1 := (unread_fuel_add f g).1 x ((unread_enough g).1 x hg)
  have h2 := (unread_fuel_add g f).1 x (by rw [hf]; simp)
  rw [← h1, Nat.add_comm, h2, hf]

/-! ## Chains of operands -/

theorem stopsMult_chainText (ys : List Link) (rest : List Char)
    (hop : ∀ y ∈ ys, y.op = '+' ∨ y.op = '-') (hrest : stopsAdd rest) :
    stopsMult (chainText ys ++ rest) := by
  cases ys with
  | nil => simpa [chainText] using hrest.toMult
  | cons y ys =>
    intro c hc
    simp only [chainText, List.cons_append, List.head?_cons, Option.mem_def,
      Option.some.injEq] at hc
    subst hc
    rcases hop y (by simp) with h | h <;> rw [h] <;> decide

theorem stopsNumber_chainText (ys : List Link) (rest : List Char)
    (hop : ∀ y ∈ ys, y.op = '*' ∨ y.op = '/') (hrest : stopsMult rest) :
    stopsNumber (chainText ys ++ rest) := by
  cases ys with
  | nil => simpa [chainText] using hrest.toNumber
  | cons y ys =>
    intro c hc
    simp only [chainText, List.cons_append, List.head?_cons, Option.mem_def,
      Option.some.injEq] at hc
    subst hc
    rcases hop y (by simp) with h | h <;> rw [h] <;> decide

theorem unread_add_loop_chain : ∀ (ys : List Link) (acc : exprtree) (rest : List Char)
    (fuel : Nat), (∀ y ∈ ys, (y.op = '+' ∨ y.op = '-') ∧
        ∃ f, unread_mult f y.text = .ok (y.tree, [])) →
    stopsAdd rest → 3 * (chainText ys).length + 2 ≤ fuel →
    unread_add_loop fuel acc (chainText ys ++ rest) = .ok (leftFold acc ys, rest) := by
  intro ys
  induction ys with
  | nil =>
    intro acc rest fuel _ hrest hf
    obtain ⟨g, rfl⟩ : ∃ g, fuel = g + 1 := ⟨fuel - 1, by omega⟩
    cases rest with
    | nil => simp [chainText, leftFold, unread_add_loop]
    | cons c t =>
      have := (hrest c (by simp)).2.2
      simp only [chainText, leftFold, List.nil_append, unread_add_loop, this]
      simp
  | cons y ys ih =>
    intro acc rest fuel hys hrest hf
    obtain ⟨g, rfl⟩ : ∃ g, fuel = g + 1 := ⟨fuel - 1, by omega⟩
    obtain ⟨hop, hy⟩ := hys y (by simp)
    have hys1 : ∀ z ∈ ys, (z.op = '+' ∨ z.op = '-') ∧
        ∃ f, unread_mult f z.text = .ok (z.tree, []) := fun z hz => hys z (by simp [hz])
    simp only [chainText, List.length_cons, List.length_append] at hf
    have hm := unread_mult_std y.text _ hy g (by omega)
    have hm2 := (unread_append g).2.2.1 y.text (chainText ys ++ rest) _ _ hm
      (Or.inr (stopsMult_chainText ys rest (fun z hz => (hys1 z hz).1) hrest))
    have hc : (y.op == '+' || y.op == '-') = true := by
      rcases hop with h | h <;> rw [h] <;> decide
    have hshape : chainText (y :: ys) ++ rest = y.op :: (y.text ++ (chainText ys ++ rest)) := by
      simp [chainText]
    rw [hshape, unread_add_loop, if_pos hc, hm2]
    simp only [List.nil_append, leftFold]
    exact ih _ rest g hys1 hrest (by omega)

theorem unread_mult_loop_chain : ∀ (ys : List Link) (acc : exprtree) (rest : List Char)
    (fuel : Nat), (∀ y ∈ ys, (y.op = '*' ∨ y.op = '/') ∧
        ∃ f, unread_atomic f y.text = .ok (y.tree, [])) →
    stopsMult rest → 3 * (chainText ys).length + 1 ≤ fuel →
    unread_mult_loop fuel acc (chainText ys ++ rest) = .ok (leftFold acc ys, rest) := by
  intro ys
  induction ys with
  | nil =>
    intro acc rest fuel _ hrest hf
    obtain ⟨g, rfl⟩ : ∃ g, fuel = g + 1 := ⟨fuel - 1, by omega⟩
    cases rest with
    | nil => simp [chainText, leftFold, unread_mult_loop]
    | cons c t =>
      have := (hrest c (by simp)).2
      simp only [chainText, leftFold, List.nil_append, unread_mult_loop, this]
      simp
  | cons y ys ih =>
    intro acc rest fuel hys hrest hf
    obtain ⟨g, rfl⟩ : ∃ g, fuel = g + 1 := ⟨fuel - 1, by omega⟩
    obtain ⟨hop, hy⟩ := hys y (by simp)
    have hys1 : ∀ z ∈ ys, (z.op = '*' ∨ z.op = '/') ∧
        ∃ f, unread_atomic f z.text = .ok (z.tree, []) := fun z hz => hys z (by simp [hz])
    simp only [chainText, List.length_cons, List.length_append] at hf
    have hm := unread_atomic_std y.text _ hy g (by omega)
    have hm2 := (unread_append g).2.2.2.2 y.text (chainText ys ++ rest) _ _ hm
      (Or.inr (stopsNumber_chainText ys rest (fun z hz => (hys1 z hz).1) hrest))
    have hc : (y.op == '*' || y.op == '/') = true := by
      rcases hop with h | h <;> rw [h] <;> decide
    have hshape : chainText (y :: ys) ++ rest = y.op :: (y.text ++ (chainText ys ++ rest)) := by
      simp [chainText]
    rw [hshape, unread_mult_loop, if_pos hc, hm2]
    simp only [List.nil_append, leftFold]
    exact ih _ rest g hys1 hrest (by omega)

/-- A chain of `*`/`/` links behind an atomic expression is a `mult_expression`. -/
theorem unread_mult_chain (x0 : List Char) (T0 : exprtree) (ys : List Link) (rest : List Char)
    (fuel : Nat) (h0 : ∃ f, unread_atomic f x0 = .ok (T0, []))
    (hys : ∀ y ∈ ys, (y.op = '*' ∨ y.op = '/') ∧
      ∃ f, unread_atomic f y.text = .ok (y.tree, []))
    (hrest : stopsMult rest) (hf : 3 * (x0 ++ chainText ys).length + 2 ≤ fuel) :
    unread_mult fuel (x0 ++ chainText ys ++ rest) = .ok (leftFold T0 ys, rest) := by
  obtain ⟨g, rfl⟩ : ∃ g, fuel = g + 1 := ⟨fuel - 1, by omega⟩
  simp only [List.length_append] at hf
  have hm := unread_atomic_std x0 _ h0 g (by omega)
  have hm2 := (unread_append g).2.2.2.2 x0 (chainText ys ++ rest) _ _ hm
    (Or.inr (stopsNumber_chainText ys rest (fun z hz => (hys z hz).1) hrest))
  rw [unread_mult, List.append_assoc, hm2]
  simp only [List.nil_append]
  exact unread_mult_loop_chain ys T0 rest g hys hrest (by omega)

/-- A chain of `+`/`-` links behind a `mult_expression` is an `add_expression`. -/
theorem unread_add_chain (x0 : List Char) (T0 : exprtree) (ys : List Link) (rest : List Char)
    (fuel : Nat) (h0 : ∃ f, unread_mult f x0 = .ok (T0, []))
    (hys : ∀ y ∈ ys, (y.op = '+' ∨ y.op = '-') ∧
      ∃ f, unread_mult f y.text = .ok (y.tree, []))
    (hrest : stopsAdd rest) (hf : 3 * (x0 ++ chainText ys).length + 3 ≤ fuel) :
    unread_add fuel (x0 ++ chainText ys ++ rest) = .ok (leftFold T0 ys, rest) := by
  obtain ⟨g, rfl⟩ : ∃ g, fuel = g + 1 := ⟨fuel - 1, by omega⟩
  simp only [List.length_append] at hf
  have hm := unread_mult_std x0 _ h0 g (by omega)
  have hm2 := (unread_append g).2.2.1 x0 (chainText ys ++ rest) _ _ hm
    (Or.inr (stopsMult_chainText ys rest (fun z hz => (hys z hz).1) hrest))
  rw [unread_add, List.append_assoc, hm2]
  simp only [List.nil_append]
  exact unread_add_loop_chain ys T0 rest g hys hrest (by omega)

theorem stopsAdd_nil : stopsAdd [] := by
  intro c hc
  simp at hc

theorem stopsMult_nil : stopsMult [] := by
  intro c hc
  simp at hc

/-- A parenthesized `add_expression` is an atomic expression. -/
theorem unread_atomic_paren (x : List Char) (T : exprtree)
    (h : ∃ f, unread_add f x = .ok (T, [])) :
    ∃ f, unread_atomic f ('(' :: (x ++ [')'])) = .ok (T, []) := by
  obtain ⟨f, hf⟩ := h
  have h2 := (unread_append f).1 x [')'] T [] hf (Or.inr (by
    intro c hc
    simp only [List.head?_cons, Option.mem_def, Option.some.injEq] at hc
    subst hc
    decide))
  refine ⟨f + 1, ?_⟩
  rw [unread_atomic]
  simp only [beq_self_eq_true, if_true, h2, List.nil_append]

/-! ## Reading token strings to their end -/

theorem isDig_inAlphabet (c : Char) (h : isDig c = true) : inAlphabet c = true := by
  simp only [isDig, List.contains_eq_any_beq, List.any_eq_true, beq_iff_eq] at h
  obtain ⟨d, hd, rfl⟩ := h
  simp only [String.toList, List.mem_cons, List.mem_singleton] at hd
  simp only [List.not_mem_nil, or_false] at hd
  rcases hd with rfl | rfl | rfl | rfl | rfl | rfl | rfl | rfl | rfl | rfl <;> decide

theorem lit_inAlphabet (n : Nat) : ∀ c ∈ lit n, inAlphabet c = true :=
  fun c hc => isDig_inAlphabet c ((lit_spec n).2.1 c hc).1

theorem reads_atomic_lit (n : Nat) (h : (n : Int) ≤ INT_MAX) :
    ∃ f, unread_atomic f (lit n) = .ok (Number n, []) :=
  ⟨1, unread_atomic_lit n h⟩

theorem reads_mult_chain (x0 : List Char) (T0 : exprtree) (ys : List Link)
    (h0 : ∃ f, unread_atomic f x0 = .ok (T0, []))
    (hys : ∀ y ∈ ys, (y.op = '*' ∨ y.op = '/') ∧
      ∃ f, unread_atomic f y.text = .ok (y.tree, [])) :
    ∃ f, unread_mult f (x0 ++ chainText ys) = .ok (leftFold T0 ys, []) := by
  have := unread_mult_chain x0 T0 ys [] _ h0 hys stopsMult_nil (Nat.le_refl _)
  rw [List.append_nil] at this
  exact ⟨_, this⟩

theorem reads_mult_of_atomic (x : List Char) (T : exprtree)
    (h : ∃ f, unread_atomic f x = .ok (T, [])) : ∃ f, unread_mult f x = .ok (T, []) := by
  have := reads_mult_chain x T [] h (by simp)
  simpa [chainText, leftFold] using this

theorem reads_add_chain (x0 : List Char) (T0 : exprtree) (ys : List Link)
    (h0 : ∃ f, unread_mult f x0 = .ok (T0, []))
    (hys : ∀ y ∈ ys, (y.op = '+' ∨ y.op = '-') ∧
      ∃ f, unread_mult f y.text = .ok (y.tree, [])) :
    ∃ f, unread_add f (x0 ++ chainText ys) = .ok (leftFold T0 ys, []) := by
  have := unread_add_chain x0 T0 ys [] _ h0 hys stopsAdd_nil (Nat.le_refl _)
  rw [List.append_nil] at this
  exact ⟨_, this⟩

/-- A token string without null that `parse_add_expression` reads (to its end or not) is parsed
to the same tree by `parse`. -/
theorem parse_of_reads (t : List Char) (T : exprtree) (r : List Char) (h0 : cstr t = t)
    (h : ∃ f, unread_add f t = .ok (T, r)) : parse t = .ok T := by
  rw [parse_eq, h0, unread_add_std t _ h _ (by unfold strlen; rw [h0])]
  rfl

/-- The budget that `parse` gives the descent is never used up. -/
theorem parse_ne_nofuel (tokens : List Char) : parse tokens ≠ .nofuel := by
  rw [parse_eq]
  have h := (unread_enough (3 * strlen tokens + 3)).1 (cstr tokens) (Nat.le_refl _)
  cases hu : unread_add (3 * strlen tokens + 3) (cstr tokens) with
  | ok a => obtain ⟨e, r⟩ := a; simp [Result.tree]
  | exit1 => simp [Result.tree]
  | undef => simp [Result.tree]
  | nofuel => exact absurd hu h

/-! ## Evaluation of the nodes the parser builds -/

theorem calculate_Number (dz : Int → Option Int) (v : Int) : calculate dz (Number v) = .ok v :=
  rfl

theorem calculate_add (dz : Int → Option Int) (l r : exprtree) (x y : Int)
    (hl : calculate dz l = .ok x) (hr : calculate dz r = .ok y) :
    calculate dz (BinaryOp '+' l r) = .ok (wrap32 (x + y)) := by
  simp [BinaryOp, create_exprtree, calculate, hl, hr]

theorem calculate_sub (dz : Int → Option Int) (l r : exprtree) (x y : Int)
    (hl : calculate dz l = .ok x) (hr : calculate dz r = .ok y) :
    calculate dz (BinaryOp '-' l r) = .ok (wrap32 (x - y)) := by
  simp [BinaryOp, create_exprtree, calculate, hl, hr]

theorem calculate_mul (dz : Int → Option Int) (l r : exprtree) (x y : Int)
    (hl : calculate dz l = .ok x) (hr : calculate dz r = .ok y) :
    calculate dz (BinaryOp '*' l r) = .ok (wrap32 (x * y)) := by
  simp [BinaryOp, create_exprtree, calculate, hl, hr]

/-- The function `run` on a token string that `tokenize` keeps and `parse` reads. -/
theorem run_of_reads (dz : Int → Option Int) (t : List Char) (T : exprtree) (r : List Char)
    (hv : ∀ c ∈ t, inAlphabet c = true) (hl : t.length < MAX_INPUT_SIZE)
    (h : ∃ f, unread_add f t = .ok (T, r)) : run dz t = calculate dz T := by
  have h0 : cstr t = t := cstr_eq_self t (fun c hc => inAlphabet_ne_null c (hv c hc))
  unfold run
  rw [tokenize_self t hv hl]
  simp only [parse_of_reads t T r h0 h]

/-! ## Helper facts for the claims -/

theorem ne_null_of_cstr_eq (x : List Char) (h : cstr x = x) : ∀ c ∈ x, c ≠ '\x00' := by
  intro c hc
  rw [← h] at hc
  exact cstr_ne_null x c hc

theorem chainText_ne_null : ∀ ys : List Link,
    (∀ y ∈ ys, y.op ≠ '\x00' ∧ cstr y.text = y.text) → ∀ c ∈ chainText ys, c ≠ '\x00' := by
  intro ys
  induction ys with
  | nil => intro _ c hc; simp [chainText] at hc
  | cons y ys ih =>
    intro h c hc
    simp only [chainText, List.mem_cons, List.mem_append] at hc
    rcases hc with rfl | hc | hc
    · exact (h y (by simp)).1
    · exact ne_null_of_cstr_eq _ (h y (by simp)).2 c hc
    · exact ih (fun z hz => h z (by simp [hz])) c hc

theorem parse_exit1_of_add (tokens : List Char) (fuel : Nat) (hf : fuel = 3 * strlen tokens + 3)
    (h : parse_add_expression fuel ⟨tokens, strlen tokens, 0⟩ = .exit1) :
    parse tokens = .exit1 := by
  subst hf
  unfold parse
  simp only [h]

/-! ## Claims -/

set_option maxRecDepth 100000 in
/-- C1 (counterexample): the string of 100 characters `+` consists of alphabet characters, so
its filter by membership in the alphabet is the string itself; `tokenize` does not return it:
the terminator no longer fits the output buffer of `MAX_INPUT_SIZE` bytes. -/
theorem c1_long_input_not_filtered :
    (cstr (List.replicate 100 '+')).filter inAlphabet = List.replicate 100 '+' ∧
    tokenize (List.replicate 100 '+') = .undef ∧
    tokenize (List.replicate 100 '+') ≠
      .ok ((cstr (List.replicate 100 '+')).filter inAlphabet) := by
  decide

/-- C1 (amended): for every input string whose alphabet characters fit the output buffer of
`MAX_INPUT_SIZE` bytes (terminator included), `tokenize` returns exactly the characters of the
string that belong to the alphabet `+-*/0123456789()`, in their original order: the string
filtered by membership in the alphabet.  Every line that fits the input buffer
`char in[MAX_INPUT_SIZE]` of `main` is such a string. -/
theorem c1_tokenize_is_filter (s : List Char)
    (hfit : ((cstr s).filter inAlphabet).length < MAX_INPUT_SIZE) :
    tokenize s = .ok ((cstr s).filter inAlphabet) := by
  rw [tokenize_eq, if_pos hfit]

theorem c1_tokenize_is_filter_witness :
    ((cstr "  2 + 3 ".toList).filter inAlphabet).length < MAX_INPUT_SIZE ∧
      tokenize "  2 + 3 ".toList = .ok "2+3".toList :=
  ⟨by decide, c1_tokenize_is_filter "  2 + 3 ".toList (by decide)⟩

/-- C2: multiplication binds tighter than addition.  For natural numbers `a`, `b`, `c` in the `int` range, written as decimal
literals, `a+b*c` evaluates to `a + (b * c)` when that value is in the `int` range, and
`(a+b)*c` evaluates to `(a + b) * c` when `a + b` and that value are in the `int` range.
In particular `2+3*4` evaluates to 14 and `(2+3)*4` to 20. -/
theorem c2_precedence (dz : Int → Option Int) (a b c : Nat) (ha : (a : Int) ≤ INT_MAX)
    (hb : (b : Int) ≤ INT_MAX) (hc : (c : Int) ≤ INT_MAX) :
    ((a : Int) + b * c ≤ INT_MAX →
      run dz (lit a ++ '+' :: (lit b ++ '*' :: lit c)) = .ok (a + b * c)) ∧
    ((a : Int) + b ≤ INT_MAX → ((a : Int) + b) * c ≤ INT_MAX →
      run dz ('(' :: (lit a ++ '+' :: (lit b ++ ')' :: '*' :: lit c))) = .ok ((a + b) * c)) ∧
    run dz "2+3*4".toList = .ok 14 ∧ run dz "(2+3)*4".toList = .ok 20 := by
  have hla := lit_length a ha
  have hlb := lit_length b hb
  have hlc := lit_length c hc
  have hmin : INT_MIN ≤ 0 := by decide
  refine ⟨?_, ?_, rfl, rfl⟩
  · intro hr
    have hbc : ∃ f, unread_mult f (lit b ++ '*' :: lit c) =
        .ok (BinaryOp '*' (Number b) (Number c), []) := by
      have := reads_mult_chain (lit b) (Number b) [⟨'*', lit c, Number c⟩]
        (reads_atomic_lit b hb) (by simpa using reads_atomic_lit c hc)
      simpa [chainText, leftFold] using this
    have hall : ∃ f, unread_add f (lit a ++ '+' :: (lit b ++ '*' :: lit c)) =
        .ok (BinaryOp '+' (Number a) (BinaryOp '*' (Number b) (Number c)), []) := by
      have := reads_add_chain (lit a) (Number a)
        [⟨'+', lit b ++ '*' :: lit c, BinaryOp '*' (Number b) (Number c)⟩]
        (reads_mult_of_atomic _ _ (reads_atomic_lit a ha)) (by simpa using hbc)
      simpa [chainText, leftFold] using this
    rw [run_of_reads dz _ _ _ ?_ ?_ hall]
    · have hbc0 : (0 : Int) ≤ (b : Int) * c := by positivity
      have hm : calculate dz (BinaryOp '*' (Number b) (Number c)) = .ok ((b : Int) * c) := by
        rw [calculate_mul dz _ _ b c (calculate_Number dz b) (calculate_Number dz c),
          wrap32_eq _ (by unfold INT_MIN; omega) (by omega)]
      rw [calculate_add dz _ _ a (b * c) (calculate_Number dz a) hm,
        wrap32_eq _ (by unfold INT_MIN; omega) hr]
    · intro ch hch
      simp only [List.mem_append, List.mem_cons] at hch
      rcases hch with h | rfl | h | rfl | h
      · exact lit_inAlphabet a ch h
      · decide
      · exact lit_inAlphabet b ch h
      · decide
      · exact lit_inAlphabet c ch h
    · simp only [List.length_append, List.length_cons, MAX_INPUT_SIZE]
      omega
  · intro hab hr
    have hsum : ∃ f, unread_add f (lit a ++ '+' :: lit b) =
        .ok (BinaryOp '+' (Number a) (Number b), []) := by
      have := reads_add_chain (lit a) (Number a) [⟨'+', lit b, Number b⟩]
        (reads_mult_of_atomic _ _ (reads_atomic_lit a ha))
        (by simpa using reads_mult_of_atomic _ _ (reads_atomic_lit b hb))
      simpa [chainText, leftFold] using this
    have hpar := unread_atomic_paren _ _ hsum
    have hall : ∃ f, unread_add f ('(' :: (lit a ++ '+' :: (lit b ++ ')' :: '*' :: lit c))) =
        .ok (BinaryOp '*' (BinaryOp '+' (Number a) (Number b)) (Number c), []) := by
      have h1 := reads_mult_chain _ _ [⟨'*', lit c, Number c⟩] hpar
        (by simpa using reads_atomic_lit c hc)
      have h2 := reads_add_chain _ _ [] h1 (by simp)
      simpa [chainText, leftFold] using h2
    rw [run_of_reads dz _ _ _ ?_ ?_ hall]
    · have hs : calculate dz (BinaryOp '+' (Number a) (Number b)) = .ok ((a : Int) + b) := by
        rw [calculate_add dz _ _ a b (calculate_Number dz a) (calculate_Number dz b),
          wrap32_eq _ (by unfold INT_MIN; omega) hab]
      have h0 : (0 : Int) ≤ ((a : Int) + b) * c := by positivity
      rw [calculate_mul dz _ _ (a + b) c hs (calculate_Number dz c),
        wrap32_eq _ (by unfold INT_MIN; omega) hr]
    · intro ch hch
      simp only [List.mem_append, List.mem_cons] at hch
      rcases hch with rfl | h | rfl | h | rfl | rfl | h
      · decide
      · exact lit_inAlphabet a ch h
      · decide
      · exact lit_inAlphabet b ch h
      · decide
      · decide
      · exact lit_inAlphabet c ch h
    · simp only [List.length_append, List.length_cons, MAX_INPUT_SIZE]
      omega

theorem c2_precedence_witness :
    (((2 : Nat) : Int) ≤ INT_MAX ∧ ((3 : Nat) : Int) ≤ INT_MAX ∧ ((4 : Nat) : Int) ≤ INT_MAX) ∧
      run (fun _ => none) (lit 2 ++ '+' :: (lit 3 ++ '*' :: lit 4)) =
        .ok (((2 : Nat) : Int) + ((3 : Nat) : Int) * ((4 : Nat) : Int)) ∧
      run (fun _ => none) ('(' :: (lit 2 ++ '+' :: (lit 3 ++ ')' :: '*' :: lit 4))) =
        .ok ((((2 : Nat) : Int) + ((3 : Nat) : Int)) * ((4 : Nat) : Int)) :=
  ⟨⟨by decide, by decide, by decide⟩,
    (c2_precedence (fun _ => none) 2 3 4 (by decide) (by decide) (by decide)).1 (by decide),
    (c2_precedence (fun _ => none) 2 3 4 (by decide) (by decide) (by decide)).2.1 (by decide)
      (by decide)⟩

/-- C3: subtraction associates to the left.  For natural numbers `a`, `b`, `c` in the `int`
range, written as decimal literals, `a-b-c` evaluates to `(a - b) - c` when that value is in
the `int` range, and so not to `a - (b - c)` when the two differ.  In particular `10-2-3`
evaluates to 5, not to 11. -/
theorem c3_subtraction_left_assoc (dz : Int → Option Int) (a b c : Nat) (ha : (a : Int) ≤ INT_MAX)
    (hb : (b : Int) ≤ INT_MAX) (hc : (c : Int) ≤ INT_MAX) (hr : INT_MIN ≤ (a : Int) - b - c) :
    run dz (lit a ++ '-' :: (lit b ++ '-' :: lit c)) = .ok ((a - b) - c) ∧
    ((a : Int) - b - c ≠ a - (b - c) →
      run dz (lit a ++ '-' :: (lit b ++ '-' :: lit c)) ≠ .ok (a - (b - c))) ∧
    run dz "10-2-3".toList = .ok 5 ∧ run dz "10-2-3".toList ≠ .ok 11 := by
  have hla := lit_length a ha
  have hlb := lit_length b hb
  have hlc := lit_length c hc
  have hmain : run dz (lit a ++ '-' :: (lit b ++ '-' :: lit c)) = .ok (((a : Int) - b) - c) := by
    have hall : ∃ f, unread_add f (lit a ++ '-' :: (lit b ++ '-' :: lit c)) =
        .ok (BinaryOp '-' (BinaryOp '-' (Number a) (Number b)) (Number c), []) := by
      have := reads_add_chain (lit a) (Number a) [⟨'-', lit b, Number b⟩, ⟨'-', lit c, Number c⟩]
        (reads_mult_of_atomic _ _ (reads_atomic_lit a ha))
        (by
          intro y hy
          simp only [List.mem_cons, List.mem_singleton, List.not_mem_nil, or_false] at hy
          rcases hy with rfl | rfl
          · exact ⟨Or.inr rfl, reads_mult_of_atomic _ _ (reads_atomic_lit b hb)⟩
          · exact ⟨Or.inr rfl, reads_mult_of_atomic _ _ (reads_atomic_lit c hc)⟩)
      simpa [chainText, leftFold] using this
    rw [run_of_reads dz _ _ _ ?_ ?_ hall]
    · unfold INT_MIN at hr
      unfold INT_MAX at ha hb hc
      have hs : calculate dz (BinaryOp '-' (Number a) (Number b)) = .ok ((a : Int) - b) := by
        rw [calculate_sub dz _ _ a b (calculate_Number dz a) (calculate_Number dz b),
          wrap32_eq _ (by unfold INT_MIN; omega) (by unfold INT_MAX; omega)]
      rw [calculate_sub dz _ _ (a - b) c hs (calculate_Number dz c),
        wrap32_eq _ (by unfold INT_MIN; omega) (by unfold INT_MAX; omega)]
    · intro ch hch
      simp only [List.mem_append, List.mem_cons] at hch
      rcases hch with h | rfl | h | rfl | h
      · exact lit_inAlphabet a ch h
      · decide
      · exact lit_inAlphabet b ch h
      · decide
      · exact lit_inAlphabet c ch h
    · simp only [List.length_append, List.length_cons, MAX_INPUT_SIZE]
      omega
  have h5 : run dz "10-2-3".toList = .ok 5 := rfl
  refine ⟨hmain, ?_, h5, fun h => ?_⟩
  swap
  · rw [h5] at h
    exact absurd h (by decide)
  intro hne
  rw [hmain]
  intro heq
  exact hne (Result.ok.inj heq)

theorem c3_subtraction_left_assoc_witness :
    ((10 : Nat) : Int) ≤ INT_MAX ∧ ((2 : Nat) : Int) ≤ INT_MAX ∧ ((3 : Nat) : Int) ≤ INT_MAX ∧
      INT_MIN ≤ ((10 : Nat) : Int) - ((2 : Nat) : Int) - ((3 : Nat) : Int) ∧
      run (fun _ => none) (lit 10 ++ '-' :: (lit 2 ++ '-' :: lit 3)) =
        .ok ((((10 : Nat) : Int) - ((2 : Nat) : Int)) - ((3 : Nat) : Int)) :=
  ⟨by decide, by decide, by decide, by decide,
    (c3_subtraction_left_assoc (fun _ => none) 10 2 3 (by decide) (by decide) (by decide)
      (by decide)).1⟩

/-- C4: tree shape of a left-associative chain.  Let the token string be
`x0 op1 x1 ... opn xn`, where either every `opi` is `+` or `-` and every `xi` is read to its
end by `parse_mult_expression` with tree `Ti`, or every `opi` is `*` or `/` and every `xi` is
read to its end by `parse_atomic_expression` with tree `Ti`.  Then `parse` returns the left
fold `BinaryOp(opn, BinaryOp(..., BinaryOp(op1, T0, T1) ...), Tn)`; for two links
`x0 op1 x1 op2 x2` the root is `op2`, its left child is the `BinaryOp` of `x0 op1 x1` and its
right child is the tree of `x2`. -/
theorem c4_chain_parses_to_left_fold (x0 : List Char) (T0 : exprtree) (ys : List Link)
    (h : (accepts parse_mult_expression x0 T0 ∧
          ∀ y ∈ ys, (y.op = '+' ∨ y.op = '-') ∧ accepts parse_mult_expression y.text y.tree) ∨
        (accepts parse_atomic_expression x0 T0 ∧
          ∀ y ∈ ys, (y.op = '*' ∨ y.op = '/') ∧
            accepts parse_atomic_expression y.text y.tree)) :
    parse (x0 ++ chainText ys) = .ok (leftFold T0 ys) ∧
    (∀ y1 y2 : Link, ys = [y1, y2] →
      parse (x0 ++ y1.op :: (y1.text ++ y2.op :: y2.text)) =
        .ok (BinaryOp y2.op (BinaryOp y1.op T0 y1.tree) y2.tree)) := by
  have hmain : parse (x0 ++ chainText ys) = .ok (leftFold T0 ys) := by
    rcases h with ⟨h0, hys⟩ | ⟨h0, hys⟩
    · obtain ⟨hx0, hr0⟩ := accepts_mult x0 T0 h0
      have hnull : ∀ c ∈ x0 ++ chainText ys, c ≠ '\x00' := by
        intro c hc
        rcases List.mem_append.1 hc with hc | hc
        · exact ne_null_of_cstr_eq x0 hx0 c hc
        · refine chainText_ne_null ys (fun y hy => ⟨?_, (accepts_mult _ _ (hys y hy).2).1⟩) c hc
          rcases (hys y hy).1 with h | h <;> rw [h] <;> decide
      exact parse_of_reads _ _ [] (cstr_eq_self _ hnull)
        (reads_add_chain x0 T0 ys hr0
          (fun y hy => ⟨(hys y hy).1, (accepts_mult _ _ (hys y hy).2).2⟩))
    · obtain ⟨hx0, hr0⟩ := accepts_atomic x0 T0 h0
      have hnull : ∀ c ∈ x0 ++ chainText ys, c ≠ '\x00' := by
        intro c hc
        rcases List.mem_append.1 hc with hc | hc
        · exact ne_null_of_cstr_eq x0 hx0 c hc
        · refine chainText_ne_null ys (fun y hy => ⟨?_, (accepts_atomic _ _ (hys y hy).2).1⟩) c hc
          rcases (hys y hy).1 with h | h <;> rw [h] <;> decide
      have h1 := reads_mult_chain x0 T0 ys hr0
        (fun y hy => ⟨(hys y hy).1, (accepts_atomic _ _ (hys y hy).2).2⟩)
      have h2 := reads_add_chain _ _ [] h1 (by simp)
      simp only [chainText, leftFold, List.append_nil] at h2
      exact parse_of_reads _ _ [] (cstr_eq_self _ hnull) h2
  refine ⟨hmain, ?_⟩
  intro y1 y2 hy
  subst hy
  simpa [chainText, leftFold] using hmain

theorem c4_chain_parses_to_left_fold_witness :
    parse "1+2-3".toList =
        .ok (BinaryOp '-' (BinaryOp '+' (Number 1) (Number 2)) (Number 3)) ∧
      parse "8/4*2".toList =
        .ok (BinaryOp '*' (BinaryOp '/' (Number 8) (Number 4)) (Number 2)) :=
  ⟨(c4_chain_parses_to_left_fold "1".toList (Number 1)
      [⟨'+', "2".toList, Number 2⟩, ⟨'-', "3".toList, Number 3⟩]
      (Or.inl ⟨⟨3, by decide⟩, by
        intro y hy
        simp only [List.mem_cons, List.mem_singleton, List.not_mem_nil, or_false] at hy
        rcases hy with rfl | rfl
        · exact ⟨Or.inl rfl, 3, by decide⟩
        · exact ⟨Or.inr rfl, 3, by decide⟩⟩)).1,
    (c4_chain_parses_to_left_fold "8".toList (Number 8)
      [⟨'/', "4".toList, Number 4⟩, ⟨'*', "2".toList, Number 2⟩]
      (Or.inr ⟨⟨2, by decide⟩, by
        intro y hy
        simp only [List.mem_cons, List.mem_singleton, List.not_mem_nil, or_false] at hy
        rcases hy with rfl | rfl
        · exact ⟨Or.inr rfl, 2, by decide⟩
        · exact ⟨Or.inl rfl, 2, by decide⟩⟩)).1⟩

/-- C5 (the code at the failing input): on `7/2` the program returns the divisor 2, while the
quotient of 7 by 2 truncated toward zero is 3. -/
theorem c5_seven_div_two_is_two (dz : Int → Option Int) :
    run dz "7/2".toList = .ok 2 ∧ Int.tdiv 7 2 = 3 :=
  ⟨rfl, by decide⟩

/-- C6 (the code at the failing input): `5/0` parses to the `/` node over 5 and 0, and
`calculate` divides 5 by 0 with no test of the divisor: the conditional of the line
`left / right ? right : 0` tests the quotient.  Where the division by zero traps, the run has
no defined result and the program reports nothing; where it yields a value, the program
returns the integer 0. -/
theorem c6_division_by_zero_unchecked (dz : Int → Option Int) :
    parse "5/0".toList = .ok (BinaryOp '/' (Number 5) (Number 0)) ∧
    run dz "5/0".toList = (if (dz 5).isSome then .ok 0 else .undef) ∧
    run (fun _ => none) "5/0".toList = .undef ∧
    run (fun _ => some 0) "5/0".toList = .ok 0 := by
  have hp : parse "5/0".toList = .ok (BinaryOp '/' (Number 5) (Number 0)) := by decide
  have ht : tokenize "5/0".toList = .ok "5/0".toList := by decide
  have h : run dz "5/0".toList = (if (dz 5).isSome then .ok 0 else .undef) := by
    unfold run
    rw [ht]
    simp only [hp]
    cases hd : dz 5 <;> simp [calculate, BinaryOp, Number, create_exprtree, cdiv, hd]
  exact ⟨hp, h, by decide, by decide⟩

/-- C7: unbalanced parentheses are rejected.  When the token at the cursor is `(`, the
`add_expression` behind it is parsed successfully and the token then at the cursor is not `)`
(the terminator at the end of the string included), `parse_atomic_expression` exits with the
syntax error, and so do `parse_mult_expression` and `parse_add_expression` called at that
cursor and `parse` when the cursor is the start of the string.  In particular `(2+3` is
rejected. -/
theorem c7_unbalanced_paren_rejected (fuel : Nat) (p p1 : parser_t) (e : exprtree)
    (hopen : p.cur = '(') (hadd : parse_add_expression fuel p.advance = .ok (e, p1))
    (hclose : p1.cur ≠ ')') :
    parse_atomic_expression (fuel + 1) p = .exit1 ∧
    parse_mult_expression (fuel + 2) p = .exit1 ∧
    parse_add_expression (fuel + 3) p = .exit1 ∧
    (∀ tokens : List Char, p = ⟨tokens, strlen tokens, 0⟩ → fuel = 3 * strlen tokens →
      parse tokens = .exit1) ∧
    parse "(2+3".toList = .exit1 := by
  have h1 : parse_atomic_expression (fuel + 1) p = .exit1 := by
    simp [parse_atomic_expression, hopen, hadd, hclose]
  have h2 : parse_mult_expression (fuel + 2) p = .exit1 := by
    simp [parse_mult_expression, h1]
  have h3 : parse_add_expression (fuel + 3) p = .exit1 := by
    simp [parse_add_expression, h2]
  refine ⟨h1, h2, h3, ?_, by decide⟩
  intro tokens hp hf
  subst hp
  exact parse_exit1_of_add tokens (fuel + 3) (by omega) h3

theorem c7_unbalanced_paren_rejected_witness : parse "(2+3".toList = .exit1 :=
  (c7_unbalanced_paren_rejected 12 ⟨"(2+3".toList, 4, 0⟩ ⟨"(2+3".toList, 4, 4⟩
    (BinaryOp '+' (Number 2) (Number 3)) (by decide) (by decide) (by decide)).2.2.2.1
    "(2+3".toList (by decide) (by decide)

/-- C8: a missing operand is rejected.  When the token at the cursor is not `(` and is not a
digit either (the cursor is at the end of the string, or `parse_number` finds no digit there),
`parse_number` exits with the syntax error, and so does every place that expects an operand at
that cursor: `parse_atomic_expression`, `parse_mult_expression` and `parse_add_expression`
called there, the loops that have just consumed one of `+ - * /`, `parse_atomic_expression`
that has just consumed `(`, and `parse` when the cursor is the start of the string.  In
particular `2+` is rejected. -/
theorem c8_missing_operand_rejected (fuel : Nat) (p : parser_t) (hparen : p.cur ≠ '(')
    (hdigit : p.ntokens ≤ p.pos ∨ strchr "0123456789".toList p.cur = false) :
    parse_number p = .exit1 ∧
    parse_atomic_expression (fuel + 1) p = .exit1 ∧
    parse_mult_expression (fuel + 2) p = .exit1 ∧
    parse_add_expression (fuel + 3) p = .exit1 ∧
    (∀ (expr : exprtree) (q : parser_t), q.advance = p → q.pos < q.ntokens →
      (q.cur = '+' ∨ q.cur = '-') → parse_add_expression_loop (fuel + 3) expr q = .exit1) ∧
    (∀ (expr : exprtree) (q : parser_t), q.advance = p → q.pos < q.ntokens →
      (q.cur = '*' ∨ q.cur = '/') → parse_mult_expression_loop (fuel + 2) expr q = .exit1) ∧
    (∀ q : parser_t, q.advance = p → q.cur = '(' →
      parse_atomic_expression (fuel + 4) q = .exit1) ∧
    (∀ tokens : List Char, p = ⟨tokens, strlen tokens, 0⟩ → parse tokens = .exit1) ∧
    parse "2+".toList = .exit1 := by
  have hloop : parse_number_loop (p.ntokens - p.pos) p [] = (p, []) := by
    cases hn : p.ntokens - p.pos with
    | zero => rfl
    | succ k =>
      rcases hdigit with h | h
      · omega
      · rw [parse_number_loop, h]
        rfl
  have h0 : parse_number p = .exit1 := by
    unfold parse_number
    rw [hloop]
    simp [MAX_INPUT_SIZE]
  have h1 : ∀ g, parse_atomic_expression (g + 1) p = .exit1 := by
    intro g
    simp [parse_atomic_expression, hparen, h0]
  have h2 : ∀ g, parse_mult_expression (g + 2) p = .exit1 := by
    intro g
    simp [parse_mult_expression, h1]
  have h3 : ∀ g, parse_add_expression (g + 3) p = .exit1 := by
    intro g
    simp [parse_add_expression, h2]
  refine ⟨h0, h1 fuel, h2 fuel, h3 fuel, ?_, ?_, ?_, ?_, by decide⟩
  · intro expr q hq hlt hop
    subst hq
    have hc : (q.cur == '+' || q.cur == '-') = true := by
      rcases hop with h | h <;> simp [h]
    rw [parse_add_expression_loop, if_pos (by simp only [hlt, decide_True, Bool.true_and, hc])]
    simp only [h2 fuel]
  · intro expr q hq hlt hop
    subst hq
    have hc : (q.cur == '*' || q.cur == '/') = true := by
      rcases hop with h | h <;> simp [h]
    rw [parse_mult_expression_loop, if_pos (by simp only [hlt, decide_True, Bool.true_and, hc])]
    simp only [h1 fuel]
  · intro q hq hop
    subst hq
    rw [parse_atomic_expression, if_pos (by simp [hop])]
    simp only [h3 fuel]
  · intro tokens hp
    subst hp
    exact parse_exit1_of_add tokens _ rfl (h3 _)

theorem c8_missing_operand_rejected_witness :
    parse_add_expression_loop 8 (Number 2) ⟨"2+".toList, 2, 1⟩ = .exit1 :=
  (c8_missing_operand_rejected 5 ⟨"2+".toList, 2, 2⟩ (by decide) (Or.inl (by decide))).2.2.2.2.1
    (Number 2) ⟨"2+".toList, 2, 1⟩ rfl (by decide) (Or.inl (by decide))

/-- C9: for every input string without a character of the alphabet (the empty string
included), `tokenize` returns the empty token string, and `parse` of the empty token string
exits with the syntax error instead of returning a tree. -/
theorem c9_empty_stream_rejected (s : List Char) (h : ∀ c ∈ cstr s, inAlphabet c = false) :
    tokenize s = .ok [] ∧ parse [] = .exit1 ∧
      ∀ dz : Int → Option Int, run dz s = .exit1 := by
  have hf : (cstr s).filter inAlphabet = [] := by
    rw [List.filter_eq_nil_iff]
    intro c hc
    simp [h c hc]
  have ht : tokenize s = .ok [] := by
    rw [tokenize_eq, hf]
    rfl
  have hp : parse [] = .exit1 := by decide
  refine ⟨ht, hp, ?_⟩
  intro dz
  unfold run
  rw [ht]
  simp only [hp]

theorem c9_empty_stream_rejected_witness :
    tokenize "a b, c!".toList = .ok [] ∧ parse [] = .exit1 :=
  ⟨(c9_empty_stream_rejected "a b, c!".toList (by decide)).1,
    (c9_empty_stream_rejected "a b, c!".toList (by decide)).2.1⟩

/-- C10: characters outside the alphabet are ignored by the whole pipeline.  Two input
strings with the same sequence of alphabet characters have the same outcome of
`calculate(parse(tokenize(s)))`: the same integer or the same failure.  In particular
`  2 + 3 ` and `2x+y3` both evaluate to 5, and `2 3` evaluates like `23`, to 23. -/
theorem c10_run_ignores_other_characters (dz : Int → Option Int) (s1 s2 : List Char)
    (h : (cstr s1).filter inAlphabet = (cstr s2).filter inAlphabet) :
    run dz s1 = run dz s2 ∧
    run dz "  2 + 3 ".toList = .ok 5 ∧ run dz "2x+y3".toList = .ok 5 ∧
    run dz "2 3".toList = run dz "23".toList ∧ run dz "2 3".toList = .ok 23 := by
  refine ⟨?_, rfl, rfl, rfl, rfl⟩
  unfold run
  rw [tokenize_eq s1, tokenize_eq s2, h]

theorem c10_run_ignores_other_characters_witness :
    run (fun _ => none) "  2 + 3 ".toList = run (fun _ => none) "2x+y3".toList :=
  (c10_run_ignores_other_characters (fun _ => none) "  2 + 3 ".toList "2x+y3".toList
    (by decide)).1

/-! ## The writes of the tokenizer -/

theorem tokenize_writes_loop_eq : ∀ (xs : List Char) (k : Nat), (∀ c ∈ xs, c ≠ '\x00') →
    tokenize_writes_loop xs k = List.range' k ((xs.filter inAlphabet).length + 1) := by
  intro xs
  induction xs with
  | nil => intro k _; simp [tokenize_writes_loop]
  | cons c r ih =>
    intro k h0
    have hc : c ≠ '\x00' := h0 c (by simp)
    have hr : ∀ d ∈ r, d ≠ '\x00' := fun d hd => h0 d (by simp [hd])
    rw [tokenize_writes_loop, strchr_valid c hc]
    by_cases hv : inAlphabet c = true
    · rw [if_pos hv, ih _ hr]
      simp [List.filter_cons, hv, List.range'_succ]
    · rw [if_neg hv, ih _ hr]
      simp [List.filter_cons, hv]

/-- The tokenizer writes the indices `0, ..., n` where `n` is the number of alphabet characters
of the input. -/
theorem tokenize_writes_eq (s : List Char) :
    tokenize_writes s = List.range (((cstr s).filter inAlphabet).length + 1) := by
  unfold tokenize_writes
  rw [take_strlen, tokenize_writes_loop_eq _ _ (cstr_ne_null s), List.range_eq_range']

theorem tokenize_writes_bounded_iff (s : List Char) :
    (∀ i ∈ tokenize_writes s, i < MAX_INPUT_SIZE) ↔
      ((cstr s).filter inAlphabet).length < MAX_INPUT_SIZE := by
  rw [tokenize_writes_eq]
  constructor
  · intro h
    exact h _ (List.mem_range.2 (Nat.lt_succ_self _))
  · intro h i hi
    have := List.mem_range.1 hi
    omega

theorem replicate_ones_filter (n : Nat) :
    (cstr (List.replicate n '1')).filter inAlphabet = List.replicate n '1' := by
  have h0 : cstr (List.replicate n '1') = List.replicate n '1' := by
    apply cstr_eq_self
    intro c hc
    rw [List.eq_of_mem_replicate hc]
    decide
  rw [h0, List.filter_eq_self]
  intro c hc
  rw [List.eq_of_mem_replicate hc]
  decide

/-! ## Claims, continued -/

/-- C11 (the code at the failing input): on an input of 100 digits `1` the tokenizer writes the
indices 0 to 100 of its buffer of `MAX_INPUT_SIZE` = 100 bytes, the terminator at index 100, so
its run is undefined; in general all writes are below `MAX_INPUT_SIZE` exactly when the input
has fewer than `MAX_INPUT_SIZE` alphabet characters. -/
theorem c11_tokenize_writes_past_buffer :
    tokenize_writes (List.replicate 100 '1') = List.range 101 ∧
    100 ∈ tokenize_writes (List.replicate 100 '1') ∧
    tokenize (List.replicate 100 '1') = .undef ∧
    ∀ s : List Char, (∀ i ∈ tokenize_writes s, i < MAX_INPUT_SIZE) ↔
      ((cstr s).filter inAlphabet).length < MAX_INPUT_SIZE := by
  have hw : tokenize_writes (List.replicate 100 '1') = List.range 101 := by
    rw [tokenize_writes_eq, replicate_ones_filter]
    simp
  refine ⟨hw, ?_, ?_, tokenize_writes_bounded_iff⟩
  · rw [hw]
    exact List.mem_range.2 (by decide)
  · rw [tokenize_eq, replicate_ones_filter]
    simp [MAX_INPUT_SIZE]

/-- C12: the parser ignores trailing tokens.  For every token string `t` that
`parse_add_expression` reads to its end with tree `T`, and every string `u`, `parse` of `t`
followed by `)` and `u` succeeds with the same tree `T` as `parse` of `t`.  In particular `2+3)`
parses to the tree of `2+3`, with the cursor left before the `)`: a successful parse has not
always consumed the whole string. -/
theorem c12_trailing_tokens_ignored (t u : List Char) (T : exprtree)
    (h : accepts parse_add_expression t T) :
    parse t = .ok T ∧ parse (t ++ ')' :: u) = .ok T ∧
    parse "2+3)".toList = parse "2+3".toList ∧
    parse "2+3)".toList = .ok (BinaryOp '+' (Number 2) (Number 3)) ∧
    parse_add_expression 15 ⟨"2+3)".toList, 4, 0⟩ =
      .ok (BinaryOp '+' (Number 2) (Number 3), ⟨"2+3)".toList, 4, 3⟩) := by
  obtain ⟨ht, f, hf⟩ := accepts_add t T h
  refine ⟨parse_of_reads t T [] ht ⟨f, hf⟩, ?_, by decide, by decide, by decide⟩
  have hst : stopsAdd (')' :: cstr u) := by
    intro c hc
    simp only [List.head?_cons, Option.mem_def, Option.some.injEq] at hc
    subst hc
    decide
  have h2 := (unread_append f).1 t (')' :: cstr u) T [] hf (Or.inr hst)
  have hc : cstr (t ++ ')' :: u) = t ++ ')' :: cstr u := by
    have h1 : t ++ ')' :: u = (t ++ [')']) ++ u := by simp
    rw [h1, cstr_append _ _ ?_]
    · simp
    · intro c hc
      rcases List.mem_append.1 hc with hc | hc
      · exact ne_null_of_cstr_eq t ht c hc
      · simp only [List.mem_singleton] at hc
        subst hc
        decide
  rw [parse_eq, hc]
  have hlen : strlen (t ++ ')' :: u) = (t ++ ')' :: cstr u).length := by
    unfold strlen
    rw [hc]
  rw [unread_add_std _ _ ⟨f, h2⟩ _ (by rw [hlen])]
  rfl

theorem c12_trailing_tokens_ignored_witness :
    parse ("2+3".toList ++ ')' :: "*4".toList) = .ok (BinaryOp '+' (Number 2) (Number 3)) :=
  (c12_trailing_tokens_ignored "2+3".toList "*4".toList (BinaryOp '+' (Number 2) (Number 3))
    ⟨5, by decide⟩).2.1

/-- C13: evaluator semantics for `+`, `-`, `*`.  `calculate(Number(v))` is `v`; a `BinaryOp` of
`+`, `-` or `*` whose children evaluate to `x` and `y` evaluates to `x op y` when that value is
in the `int` range; and every fully built tree whose operator nodes are all `+`, `-` or `*`
evaluates to its value in integer arithmetic when no intermediate result leaves the `int` range.
The function `calculate` only reads the tree: it returns nothing but the integer. -/
theorem c13_calculate_add_sub_mul (dz : Int → Option Int) (t : exprtree)
    (ht : arithOnly t = true) (hrange : allInRange t = true) :
    calculate dz t = .ok (exactValue t) ∧
    (∀ v : Int, calculate dz (Number v) = .ok v) ∧
    (∀ (op : Char) (l r : exprtree) (x y : Int), op = '+' ∨ op = '-' ∨ op = '*' →
      calculate dz l = .ok x → calculate dz r = .ok y → inIntRange (intOp op x y) = true →
      calculate dz (BinaryOp op l r) = .ok (intOp op x y)) := by
  have hnode : ∀ (op : Char) (v : Int) (l r : exprtree) (x y : Int),
      op = '+' ∨ op = '-' ∨ op = '*' →
      calculate dz l = .ok x → calculate dz r = .ok y → inIntRange (intOp op x y) = true →
      calculate dz (.node op v l r) = .ok (intOp op x y) := by
    intro op v l r x y hop hl hr hin
    have hw : wrap32 (intOp op x y) = intOp op x y := by
      simp only [inIntRange, Bool.and_eq_true, decide_eq_true_eq] at hin
      exact wrap32_eq _ hin.1 hin.2
    rcases hop with rfl | rfl | rfl
    · have e : intOp '+' x y = x + y := by simp [intOp]
      rw [e] at hw ⊢
      simp [calculate, hl, hr, hw]
    · have e : intOp '-' x y = x - y := by simp [intOp]
      rw [e] at hw ⊢
      simp [calculate, hl, hr, hw]
    · have e : intOp '*' x y = x * y := by simp [intOp]
      rw [e] at hw ⊢
      simp [calculate, hl, hr, hw]
  refine ⟨?_, fun v => rfl, fun op l r x y hop hl hr hin => hnode op 0 l r x y hop hl hr hin⟩
  induction t with
  | NULL => simp [arithOnly] at ht
  | node type value left right ihl ihr =>
    by_cases hn : type = 'n'
    · subst hn
      simp [calculate, exactValue]
    · simp only [arithOnly, beq_iff_eq, hn, Bool.false_or, Bool.and_eq_true, Bool.or_eq_true,
        decide_eq_true_eq] at ht
      simp only [allInRange, hn, if_false, Bool.and_eq_true] at hrange
      simp only [false_or] at ht
      obtain ⟨⟨hop, hal⟩, har⟩ := ht
      obtain ⟨⟨hin, hrl⟩, hrr⟩ := hrange
      simp only [exactValue, hn, if_false]
      exact hnode type value left right _ _ (by tauto) (ihl hal hrl) (ihr har hrr) hin

theorem c13_calculate_add_sub_mul_witness :
    calculate (fun _ => none)
      (BinaryOp '-' (BinaryOp '*' (Number 6) (Number 7)) (BinaryOp '+' (Number 40) (Number 3)))
      = .ok (-1) :=
  (c13_calculate_add_sub_mul (fun _ => none)
    (BinaryOp '-' (BinaryOp '*' (Number 6) (Number 7)) (BinaryOp '+' (Number 40) (Number 3)))
    (by decide) (by decide)).1

theorem isDig_isDigit (c : Char) (h : isDig c = true) : c.isDigit = true := by
  simp only [isDig, List.contains_eq_any_beq, List.any_eq_true, beq_iff_eq] at h
  obtain ⟨d, hd, rfl⟩ := h
  simp only [String.toList, List.mem_cons, List.mem_singleton] at hd
  simp only [List.not_mem_nil, or_false] at hd
  rcases hd with rfl | rfl | rfl | rfl | rfl | rfl | rfl | rfl | rfl | rfl <;> decide

theorem parser_t.rest_length (p : parser_t) (h : p.WF) : p.rest.length = p.ntokens - p.pos := by
  unfold parser_t.rest
  have := h.1
  unfold strlen at this
  simp [this]

theorem tdiv_ne_zero_iff (l r : Int) (hr : r ≠ 0) : Int.tdiv l r ≠ 0 ↔ |r| ≤ |l| := by
  have h1 : Int.tdiv l r = 0 ↔ (Int.tdiv l r).natAbs = 0 := Int.natAbs_eq_zero.symm
  have h2 : (Int.tdiv l r).natAbs = l.natAbs / r.natAbs := Int.natAbs_tdiv l r
  have hr0 : 0 < r.natAbs := Int.natAbs_pos.2 hr
  have h3 : l.natAbs / r.natAbs = 0 ↔ l.natAbs < r.natAbs := by
    constructor
    · intro h
      by_contra hn
      have : 0 < l.natAbs / r.natAbs := Nat.div_pos (by omega) hr0
      omega
    · exact Nat.div_eq_of_lt
  rw [Ne, h1, h2, h3]
  rw [Int.abs_eq_natAbs, Int.abs_eq_natAbs]
  omega

theorem wrap32_tdiv_ne_zero_iff (l r : Int) (hl : inIntRange l = true) :
    wrap32 (Int.tdiv l r) ≠ 0 ↔ Int.tdiv l r ≠ 0 := by
  simp only [inIntRange, Bool.and_eq_true, decide_eq_true_eq, INT_MIN, INT_MAX] at hl
  have h2 : (Int.tdiv l r).natAbs ≤ l.natAbs := by
    rw [Int.natAbs_tdiv]
    exact Nat.div_le_self _ _
  unfold wrap32
  omega

set_option maxRecDepth 100000 in
/-- C14 (counterexample): on a token string of 101 digits `0`, whose value 0 fits in an `int`,
the loop of `parse_number` stops after 100 digits, with the cursor on the last digit and not at
the end of the run, and the terminator write `number[100]` is outside the buffer. -/
theorem c14_long_run_not_consumed :
    strlen (List.replicate 101 '0') = 101 ∧ decval (List.replicate 101 '0') = 0 ∧
    parse_number_loop 101 ⟨List.replicate 101 '0', 101, 0⟩ [] =
      (⟨List.replicate 101 '0', 101, 100⟩, List.replicate 100 '0') ∧
    parse_number ⟨List.replicate 101 '0', 101, 0⟩ = .undef := by
  refine ⟨by decide, by decide, by decide, by decide⟩

/-- C14 (amended): maximal munch of number literals.  When the unread tokens start with a run
`ds` of fewer than `MAX_INPUT_SIZE` digits that ends at a non-digit or at the end of the string,
and the decimal value of the run fits in an `int` (leading zeros allowed), `parse_number` moves
the cursor behind the whole run and returns `Number(v)` with `v` the decimal value of the run.
In particular `123` parses to `Number(123)`. -/
theorem c14_number_maximal_munch (p : parser_t) (ds r : List Char) (hwf : p.WF)
    (hrest : p.rest = ds ++ r) (hne : ds ≠ []) (hd : ∀ c ∈ ds, isDig c = true)
    (hstop : stopsNumber r) (hlen : ds.length < MAX_INPUT_SIZE)
    (hfit : (decval ds : Int) ≤ INT_MAX) :
    parse_number p = .ok (Number (decval ds), { p with pos := p.pos + ds.length }) ∧
    parse_number ⟨"123".toList, 3, 0⟩ = .ok (Number 123, ⟨"123".toList, 3, 3⟩) ∧
    parse "123".toList = .ok (Number 123) := by
  refine ⟨?_, by decide, by decide⟩
  have h1 := unread_number_append ds r _ _ (unread_number_digits ds hne hd hlen) (Or.inr hstop)
  have hat : atoi ds = decval ds := atoi_fits ds (fun c hc => isDig_isDigit c (hd c hc)) hfit
  rw [parse_number_eq p hwf, hrest, h1, hat]
  simp only [parser_t.lift, List.nil_append, parser_t.seek]
  have hl := p.rest_length hwf
  rw [hrest, List.length_append] at hl
  have h2 := hwf.2
  have hpos : p.ntokens - r.length = p.pos + ds.length := by omega
  rw [hpos]

theorem c14_number_maximal_munch_witness :
    parse_number ⟨"12+3".toList, 4, 0⟩ = .ok (Number 12, ⟨"12+3".toList, 4, 2⟩) :=
  (c14_number_maximal_munch ⟨"12+3".toList, 4, 0⟩ "12".toList "+3".toList
    ⟨by decide, by decide⟩ (by decide) (by decide) (by decide)
    (by intro c hc; simp at hc; subst hc; decide) (by decide) (by decide)).1

/-- C15 (counterexample): in `(0-2147483647-1)/(0-1)` the left operand of the division
evaluates to `INT_MIN` and the right one to `-1`, which is not zero.  The quotient is no `int`,
the division overflows, and `calculate` does not return the divisor `-1`: the run has
no defined result, whatever the platform does on a division by zero. -/
theorem c15_quotient_overflows :
    parse "(0-2147483647-1)/(0-1)".toList =
      .ok (BinaryOp '/' (BinaryOp '-' (BinaryOp '-' (Number 0) (Number 2147483647)) (Number 1))
        (BinaryOp '-' (Number 0) (Number 1))) ∧
    calculate (fun _ => none)
      (BinaryOp '-' (BinaryOp '-' (Number 0) (Number 2147483647)) (Number 1)) = .ok INT_MIN ∧
    calculate (fun _ => none) (BinaryOp '-' (Number 0) (Number 1)) = .ok (-1) ∧
    run (fun _ => none) "(0-2147483647-1)/(0-1)".toList = .undef ∧
    run (fun _ => some 0) "(0-2147483647-1)/(0-1)".toList = .undef := by
  decide

/-- C15 (amended): the division of the program substitutes the divisor.  For every `/` node
whose left child evaluates to the `int` `l` and whose right child evaluates to `r` with
`r ≠ 0`, other than `l = INT_MIN` with `r = -1`, `calculate` returns `r` when the truncated
quotient of `l` by `r` is not zero, that is when `|r| ≤ |l|`, and 0 otherwise; the value
returned is the quotient exactly when the quotient is 0 or equal to `r`. -/
theorem c15_division_substitutes_divisor (dz : Int → Option Int) (v l r : Int)
    (lt rt : exprtree) (hl : calculate dz lt = .ok l) (hr : calculate dz rt = .ok r)
    (hr0 : r ≠ 0) (hlr : inIntRange l = true) (hov : ¬ (l = INT_MIN ∧ r = -1)) :
    calculate dz (.node '/' v lt rt) = .ok (if Int.tdiv l r ≠ 0 then r else 0) ∧
    calculate dz (.node '/' v lt rt) = .ok (if |r| ≤ |l| then r else 0) ∧
    (calculate dz (.node '/' v lt rt) = .ok (Int.tdiv l r) ↔
      (Int.tdiv l r = 0 ∨ Int.tdiv l r = r)) := by
  have h1 : calculate dz (.node '/' v lt rt) = .ok (if Int.tdiv l r ≠ 0 then r else 0) := by
    by_cases hq : Int.tdiv l r ≠ 0
    · have := (wrap32_tdiv_ne_zero_iff l r hlr).2 hq
      simp [calculate, hl, hr, cdiv, hr0, if_neg hov, this, hq]
    · have hw : ¬ wrap32 (Int.tdiv l r) ≠ 0 := fun h => hq ((wrap32_tdiv_ne_zero_iff l r hlr).1 h)
      simp only [ne_eq, not_not] at hw hq
      have hw0 : wrap32 0 = 0 := by decide
      simp [calculate, hl, hr, cdiv, hr0, if_neg hov, hq, hw0]
  refine ⟨h1, ?_, ?_⟩
  · rw [h1]
    by_cases hq : Int.tdiv l r ≠ 0
    · rw [if_pos hq, if_pos ((tdiv_ne_zero_iff l r hr0).1 hq)]
    · rw [if_neg hq, if_neg (fun h => hq ((tdiv_ne_zero_iff l r hr0).2 h))]
  · rw [h1]
    by_cases hq : Int.tdiv l r ≠ 0
    · rw [if_pos hq]
      constructor
      · intro h
        exact Or.inr (Result.ok.inj h).symm
      · intro h
        rcases h with h | h
        · exact absurd h hq
        · rw [h]
    · rw [if_neg hq]
      simp only [ne_eq, not_not] at hq
      rw [hq]
      simp

theorem c15_division_substitutes_divisor_witness :
    calculate (fun _ => none) (.node '/' 0 (Number 7) (Number 2)) =
      .ok (if Int.tdiv 7 2 ≠ 0 then 2 else 0) :=
  (c15_division_substitutes_divisor (fun _ => none) 0 7 2 (Number 7) (Number 2) rfl rfl
    (by decide) (by decide) (by decide)).1

/-! ## Invariants of the trees the parser builds -/

theorem parse_ok_unread (tokens : List Char) (T : exprtree) (h : parse tokens = .ok T) :
    ∃ r, unread_add (3 * strlen tokens + 3) (cstr tokens) = .ok (T, r) := by
  rw [parse_eq] at h
  cases hu : unread_add (3 * strlen tokens + 3) (cstr tokens) with
  | ok a =>
    obtain ⟨e, r⟩ := a
    rw [hu] at h
    simp only [Result.tree, Result.ok.injEq] at h
    exact ⟨r, by rw [h]⟩
  | exit1 => rw [hu] at h; cases h
  | undef => rw [hu] at h; cases h
  | nofuel => rw [hu] at h; cases h

/-- An induction over the descent: properties `At`, `M`, `A` of the trees of atomic, `mult` and
`add` expressions that the construction steps preserve hold for every tree returned, on inputs
satisfying a condition `I` that passes to suffixes. -/
theorem unread_invariant (I : List Char → Prop) (At M A : exprtree → Prop)
    (hI : ∀ inp r, I inp → r <:+ inp → I r)
    (hnum : ∀ inp e r, I inp → unread_number inp = .ok (e, r) → At e)
    (hparen : ∀ inp e, I ('(' :: inp) → A e → At e)
    (hAtM : ∀ e, At e → M e)
    (hMstep : ∀ c acc e, (c == '*' || c == '/') = true → M acc → At e →
      M (create_exprtree c 0 acc e))
    (hMA : ∀ e, M e → A e)
    (hAstep : ∀ c acc e, (c == '+' || c == '-') = true → A acc → M e →
      A (create_exprtree c 0 acc e)) :
    ∀ fuel : Nat,
      (∀ inp e r, I inp → unread_add fuel inp = .ok (e, r) → A e) ∧
      (∀ acc inp e r, I inp → A acc → unread_add_loop fuel acc inp = .ok (e, r) → A e) ∧
      (∀ inp e r, I inp → unread_mult fuel inp = .ok (e, r) → M e) ∧
      (∀ acc inp e r, I inp → M acc → unread_mult_loop fuel acc inp = .ok (e, r) → M e) ∧
      (∀ inp e r, I inp → unread_atomic fuel inp = .ok (e, r) → At e) := by
  intro fuel
  induction fuel with
  | zero =>
    refine ⟨?_, ?_, ?_, ?_, ?_⟩ <;> intros <;> simp_all [unread_add, unread_add_loop, unread_mult,
      unread_mult_loop, unread_atomic]
  | succ fuel ih =>
    obtain ⟨ihA, ihAL, ihM, ihML, ihAt⟩ := ih
    have hS := unread_suffix fuel
    refine ⟨?_, ?_, ?_, ?_, ?_⟩
    · intro inp e r hi h
      rw [unread_add] at h
      cases hm : unread_mult fuel inp with
      | ok a =>
        obtain ⟨e1, r1⟩ := a
        rw [hm] at h
        exact ihAL _ _ _ _ (hI _ _ hi (hS.2.2.1 _ _ _ hm)) (hMA _ (ihM _ _ _ hi hm)) h
      | exit1 => rw [hm] at h; cases h
      | undef => rw [hm] at h; cases h
      | nofuel => rw [hm] at h; cases h
    · intro acc inp e r hi hacc h
      cases inp with
      | nil =>
        rw [unread_add_loop] at h
        cases h; exact hacc
      | cons c r0 =>
        rw [unread_add_loop] at h
        have hi0 : I r0 := hI _ _ hi (List.suffix_cons c r0)
        by_cases hcond : (c == '+' || c == '-') = true
        · rw [if_pos hcond] at h
          cases hm : unread_mult fuel r0 with
          | ok a =>
            obtain ⟨e1, r1⟩ := a
            rw [hm] at h
            exact ihAL _ _ _ _ (hI _ _ hi0 (hS.2.2.1 _ _ _ hm))
              (hAstep c acc e1 hcond hacc (ihM _ _ _ hi0 hm)) h
          | exit1 => rw [hm] at h; cases h
          | undef => rw [hm] at h; cases h
          | nofuel => rw [hm] at h; cases h
        · rw [if_neg hcond] at h
          cases h; exact hacc
    · intro inp e r hi h
      rw [unread_mult] at h
      cases hm : unread_atomic fuel inp with
      | ok a =>
        obtain ⟨e1, r1⟩ := a
        rw [hm] at h
        exact ihML _ _ _ _ (hI _ _ hi (hS.2.2.2.2 _ _ _ hm)) (hAtM _ (ihAt _ _ _ hi hm)) h
      | exit1 => rw [hm] at h; cases h
      | undef => rw [hm] at h; cases h
      | nofuel => rw [hm] at h; cases h
    · intro acc inp e r hi hacc h
      cases inp with
      | nil =>
        rw [unread_mult_loop] at h
        cases h; exact hacc
      | cons c r0 =>
        rw [unread_mult_loop] at h
        have hi0 : I r0 := hI _ _ hi (List.suffix_cons c r0)
        by_cases hcond : (c == '*' || c == '/') = true
        · rw [if_pos hcond] at h
          cases hm : unread_atomic fuel r0 with
          | ok a =>
            obtain ⟨e1, r1⟩ := a
            rw [hm] at h
            exact ihML _ _ _ _ (hI _ _ hi0 (hS.2.2.2.2 _ _ _ hm))
              (hMstep c acc e1 hcond hacc (ihAt _ _ _ hi0 hm)) h
          | exit1 => rw [hm] at h; cases h
          | undef => rw [hm] at h; cases h
          | nofuel => rw [hm] at h; cases h
        · rw [if_neg hcond] at h
          cases h; exact hacc
    · intro inp e r hi h
      cases inp with
      | nil =>
        rw [unread_atomic] at h
        exact hnum _ _ _ hi h
      | cons c r0 =>
        rw [unread_atomic] at h
        by_cases hcond : (c == '(') = true
        · rw [if_pos hcond] at h
          have hc : c = '(' := by simpa using hcond
          subst hc
          have hi0 : I r0 := hI _ _ hi (List.suffix_cons _ r0)
          cases hm : unread_add fuel r0 with
          | ok a =>
            obtain ⟨e1, r1⟩ := a
            rw [hm] at h
            cases r1 with
            | nil => cases h
            | cons c1 r2 =>
              simp only at h
              by_cases hc1 : (c1 == ')') = true
              · rw [if_pos hc1] at h
                cases h
                exact hparen r0 _ hi (ihA _ _ _ hi0 hm)
              · rw [if_neg hc1] at h
                cases h
          | exit1 => rw [hm] at h; cases h
          | undef => rw [hm] at h; cases h
          | nofuel => rw [hm] at h; cases h
        · rw [if_neg hcond] at h
          exact hnum _ _ _ hi h

theorem isNumberLeaf_create (v : Int) : isNumberLeaf (create_exprtree 'n' v .NULL .NULL) = true := by
  simp [isNumberLeaf, create_exprtree]

theorem isNumberLeaf_props (e : exprtree) (h : isNumberLeaf e = true) :
    hasAddNode e = false ∧ precedenceOK e = true ∧ multShape e = true := by
  cases e with
  | NULL => simp [isNumberLeaf] at h
  | node type value left right =>
    simp only [isNumberLeaf, Bool.and_eq_true, beq_iff_eq, decide_eq_true_eq] at h
    obtain ⟨⟨rfl, rfl⟩, rfl⟩ := h
    refine ⟨by simp [hasAddNode], by simp [precedenceOK], ?_⟩
    simp [multShape, isNumberLeaf]

theorem multShape_props : ∀ e : exprtree, multShape e = true →
    hasAddNode e = false ∧ precedenceOK e = true := by
  intro e
  induction e with
  | NULL => intro h; simp [multShape] at h
  | node type value left right ihl _ =>
    intro h
    simp only [multShape, Bool.or_eq_true, Bool.and_eq_true] at h
    rcases h with h | ⟨⟨hop, hl⟩, hr⟩
    · exact ⟨(isNumberLeaf_props _ h).1, (isNumberLeaf_props _ h).2.1⟩
    · obtain ⟨hl1, hl2⟩ := ihl hl
      obtain ⟨hr1, hr2, -⟩ := isNumberLeaf_props _ hr
      have hty : (type == '+') = false ∧ (type == '-') = false := by
        simp only [Bool.or_eq_true, beq_iff_eq] at hop
        rcases hop with rfl | rfl <;> decide
      constructor
      · simp [hasAddNode, hty.1, hty.2, hl1, hr1]
      · simp [precedenceOK, hop, hl1, hr1, hr, hl2, hr2]

theorem addShape_props : ∀ e : exprtree, addShape e = true → precedenceOK e = true := by
  intro e
  induction e with
  | NULL => intro h; simp [addShape] at h
  | node type value left right ihl _ =>
    intro h
    simp only [addShape, Bool.or_eq_true, Bool.and_eq_true] at h
    rcases h with h | ⟨⟨hop, hl⟩, hr⟩
    · exact (multShape_props _ h).2
    · have hty : (type == '*' || type == '/') = false := by
        simp only [Bool.or_eq_true, beq_iff_eq] at hop
        rcases hop with rfl | rfl <;> decide
      simp [precedenceOK, hty, ihl hl, (multShape_props _ hr).2]

theorem unread_number_loop_isDig : ∀ (inp number : List Char),
    (∀ c ∈ number, isDig c = true) →
    ∀ c ∈ (unread_number_loop inp number).2, isDig c = true := by
  intro inp
  induction inp with
  | nil => intro number h; simpa [unread_number_loop] using h
  | cons d r ih =>
    intro number h
    rw [unread_number_loop]
    by_cases hcond : (isDig d && decide (number.length < MAX_INPUT_SIZE)) = true
    · rw [if_pos hcond]
      apply ih
      intro c hc
      rcases List.mem_append.1 hc with hc | hc
      · exact h c hc
      · simp only [List.mem_singleton] at hc
        subst hc
        simp only [Bool.and_eq_true] at hcond
        exact hcond.1
    · rw [if_neg hcond]
      exact h

/-- What `parse_number` returns on success: the leaf of the `atoi` value of a run of 1 to 99
digits. -/
theorem unread_number_ok_digits (inp : List Char) (e : exprtree) (r : List Char)
    (h : unread_number inp = .ok (e, r)) :
    ∃ number : List Char, number ≠ [] ∧ number.length < MAX_INPUT_SIZE ∧
      (∀ c ∈ number, isDig c = true) ∧ e = create_exprtree 'n' (atoi number) .NULL .NULL := by
  have hdig := unread_number_loop_isDig inp [] (by simp)
  unfold unread_number at h
  cases hl : unread_number_loop inp [] with
  | mk r0 number =>
    rw [hl] at h hdig
    simp only at h hdig
    by_cases h1 : number.length < MAX_INPUT_SIZE
    · by_cases h2 : number.length = 0
      · rw [if_pos h1, if_pos h2] at h
        cases h
      · rw [if_pos h1, if_neg h2] at h
        cases h
        exact ⟨number, fun hn => h2 (by rw [hn]; rfl), h1, hdig, rfl⟩
    · rw [if_neg h1] at h
      cases h

theorem atoi_nonneg (number : List Char) (hd : ∀ c ∈ number, isDig c = true)
    (hfit : (decval number : Int) ≤ INT_MAX) : 0 ≤ atoi number := by
  rw [atoi_fits number (fun c hc => isDig_isDigit c (hd c hc)) hfit]
  omega

/-- The tree of a successful parse of a token string without `(` has the shape of an
`add_expression` over `mult_expression`s over numbers. -/
theorem parse_addShape (tokens : List Char) (T : exprtree) (hp : '(' ∉ cstr tokens)
    (h : parse tokens = .ok T) : addShape T = true := by
  obtain ⟨r, hr⟩ := parse_ok_unread tokens T h
  refine (unread_invariant (fun inp => '(' ∉ inp)
    (fun e => isNumberLeaf e = true) (fun e => multShape e = true)
    (fun e => addShape e = true) ?_ ?_ ?_ ?_ ?_ ?_ ?_ _).1 _ _ _ hp hr
  · intro inp r hi hs hm
    exact hi (hs.subset hm)
  · intro inp e r _ hn
    obtain ⟨number, -, -, -, rfl⟩ := unread_number_ok_digits inp e r hn
    exact isNumberLeaf_create _
  · intro inp e hi _
    exact absurd (List.mem_cons_self _ _) hi
  · intro e he
    exact (isNumberLeaf_props e he).2.2
  · intro c acc e hc hacc he
    simp only [multShape, create_exprtree, hc, hacc, he]
    simp
  · intro e he
    cases e with
    | NULL => simp [multShape] at he
    | node type value left right => simp [addShape, he]
  · intro c acc e hc hacc he
    simp only [addShape, create_exprtree, hc, hacc, he]
    simp

/-- C16: structural precedence.  For every token string without an opening parenthesis (so for
every one without parentheses) that `parse` accepts, the returned tree has no `+` or `-` node
below a `*` or `/` node, and the right child of every `*` or `/` node is a `Number` leaf: the
tree is a left chain of `+`/`-` nodes over left chains of `*`/`/` nodes over numbers. -/
theorem c16_structural_precedence (tokens : List Char) (T : exprtree)
    (hp : '(' ∉ cstr tokens) (h : parse tokens = .ok T) :
    precedenceOK T = true ∧ addShape T = true :=
  ⟨addShape_props T (parse_addShape tokens T hp h), parse_addShape tokens T hp h⟩

theorem c16_structural_precedence_witness :
    precedenceOK (BinaryOp '-' (BinaryOp '+' (Number 1) (BinaryOp '*' (Number 2) (Number 3)))
      (BinaryOp '/' (Number 4) (Number 5))) = true :=
  (c16_structural_precedence "1+2*3-4/5".toList
    (BinaryOp '-' (BinaryOp '+' (Number 1) (BinaryOp '*' (Number 2) (Number 3)))
      (BinaryOp '/' (Number 4) (Number 5))) (by decide) (by decide)).1

/-! ## The leaves of the tree are the numbers of the text -/

theorem digitRunsFrom_digits : ∀ (ds cur r : List Char), (∀ c ∈ ds, isDig c = true) →
    digitRunsFrom cur (ds ++ r) = digitRunsFrom (cur ++ ds) r := by
  intro ds
  induction ds with
  | nil => intro cur r _; simp
  | cons d ds ih =>
    intro cur r h
    have hd : isDig d = true := h d (List.mem_cons_self _ _)
    rw [List.cons_append, digitRunsFrom, if_pos hd, ih _ _ (fun c hc => h c (List.mem_cons_of_mem _ hc))]
    simp

theorem unread_number_loop_split : ∀ (inp number : List Char),
    number ++ inp = (unread_number_loop inp number).2 ++ (unread_number_loop inp number).1 := by
  intro inp
  induction inp with
  | nil => intro number; simp [unread_number_loop]
  | cons d r ih =>
    intro number
    rw [unread_number_loop]
    by_cases hcond : (isDig d && decide (number.length < MAX_INPUT_SIZE)) = true
    · rw [if_pos hcond, ← ih]
      simp
    · rw [if_neg hcond]

theorem depth_le_size : ∀ e : exprtree, depth e ≤ size e := by
  intro e
  induction e with
  | NULL => simp [depth, size]
  | node type value left right ihl ihr =>
    simp only [depth, size]
    omega

theorem unread_number_loop_length : ∀ (inp number : List Char),
    (unread_number_loop inp number).1.length + (unread_number_loop inp number).2.length =
      inp.length + number.length := by
  intro inp
  induction inp with
  | nil => intro number; simp [unread_number_loop]
  | cons c r ih =>
    intro number
    rw [unread_number_loop]
    split
    · rw [ih]
      simp
      omega
    · simp

theorem unread_number_size (inp : List Char) (e : exprtree) (r : List Char)
    (h : unread_number inp = .ok (e, r)) : size e = 1 ∧ r.length + 1 ≤ inp.length := by
  have hlen := unread_number_loop_length inp []
  unfold unread_number at h
  cases hl : unread_number_loop inp [] with
  | mk r0 number =>
    rw [hl] at h hlen
    simp only at h hlen
    by_cases h1 : number.length < MAX_INPUT_SIZE
    · by_cases h2 : number.length = 0
      · rw [if_pos h1, if_pos h2] at h
        cases h
      · rw [if_pos h1, if_neg h2] at h
        cases h
        refine ⟨by simp [size, create_exprtree], ?_⟩
        simp only [List.length_nil, Nat.add_zero] at hlen
        omega
    · rw [if_neg h1] at h
      cases h

theorem unread_size : ∀ fuel : Nat,
    (∀ inp e r, unread_add fuel inp = .ok (e, r) →
      0 < size e ∧ size e + r.length ≤ inp.length) ∧
    (∀ acc inp e r, unread_add_loop fuel acc inp = .ok (e, r) →
      size acc ≤ size e ∧ size e + r.length ≤ size acc + inp.length) ∧
    (∀ inp e r, unread_mult fuel inp = .ok (e, r) →
      0 < size e ∧ size e + r.length ≤ inp.length) ∧
    (∀ acc inp e r, unread_mult_loop fuel acc inp = .ok (e, r) →
      size acc ≤ size e ∧ size e + r.length ≤ size acc + inp.length) ∧
    (∀ inp e r, unread_atomic fuel inp = .ok (e, r) →
      0 < size e ∧ size e + r.length ≤ inp.length) := by
  intro fuel
  induction fuel with
  | zero =>
    refine ⟨?_, ?_, ?_, ?_, ?_⟩ <;> intros <;> simp_all [unread_add, unread_add_loop, unread_mult,
      unread_mult_loop, unread_atomic]
  | succ fuel ih =>
    obtain ⟨ihA, ihAL, ihM, ihML, ihAt⟩ := ih
    refine ⟨?_, ?_, ?_, ?_, ?_⟩
    · intro inp e r h
      rw [unread_add] at h
      cases hm : unread_mult fuel inp with
      | ok a =>
        obtain ⟨e1, r1⟩ := a
        rw [hm] at h
        have h1 := ihM _ _ _ hm
        have h2 := ihAL _ _ _ _ h
        omega
      | exit1 => rw [hm] at h; cases h
      | undef => rw [hm] at h; cases h
      | nofuel => rw [hm] at h; cases h
    · intro acc inp e r h
      cases inp with
      | nil =>
        rw [unread_add_loop] at h
        cases h; simp
      | cons c r0 =>
        rw [unread_add_loop] at h
        by_cases hcond : (c == '+' || c == '-') = true
        · rw [if_pos hcond] at h
          cases hm : unread_mult fuel r0 with
          | ok a =>
            obtain ⟨e1, r1⟩ := a
            rw [hm] at h
            have h1 := ihM _ _ _ hm
            have h2 := ihAL _ _ _ _ h
            simp only [create_exprtree, size, List.length_cons] at h2 ⊢
            omega
          | exit1 => rw [hm] at h; cases h
          | undef => rw [hm] at h; cases h
          | nofuel => rw [hm] at h; cases h
        · rw [if_neg hcond] at h
          cases h; simp
    · intro inp e r h
      rw [unread_mult] at h
      cases hm : unread_atomic fuel inp with
      | ok a =>
        obtain ⟨e1, r1⟩ := a
        rw [hm] at h
        have h1 := ihAt _ _ _ hm
        have h2 := ihML _ _ _ _ h
        omega
      | exit1 => rw [hm] at h; cases h
      | undef => rw [hm] at h; cases h
      | nofuel => rw [hm] at h; cases h
    · intro acc inp e r h
      cases inp with
      | nil =>
        rw [unread_mult_loop] at h
        cases h; simp
      | cons c r0 =>
        rw [unread_mult_loop] at h
        by_cases hcond : (c == '*' || c == '/') = true
        · rw [if_pos hcond] at h
          cases hm : unread_atomic fuel r0 with
          | ok a =>
            obtain ⟨e1, r1⟩ := a
            rw [hm] at h
            have h1 := ihAt _ _ _ hm
            have h2 := ihML _ _ _ _ h
            simp only [create_exprtree, size, List.length_cons] at h2 ⊢
            omega
          | exit1 => rw [hm] at h; cases h
          | undef => rw [hm] at h; cases h
          | nofuel => rw [hm] at h; cases h
        · rw [if_neg hcond] at h
          cases h; simp
    · intro inp e r h
      cases inp with
      | nil =>
        rw [unread_atomic] at h
        have := unread_number_size _ _ _ h
        omega
      | cons c r0 =>
        rw [unread_atomic] at h
        by_cases hcond : (c == '(') = true
        · rw [if_pos hcond] at h
          cases hm : unread_add fuel r0 with
          | ok a =>
            obtain ⟨e1, r1⟩ := a
            rw [hm] at h
            cases r1 with
            | nil => cases h
            | cons c1 r2 =>
              simp only at h
              by_cases hc1 : (c1 == ')') = true
              · rw [if_pos hc1] at h
                cases h
                have h1 := ihA _ _ _ hm
                simp only [List.length_cons] at h1 ⊢
                omega
              · rw [if_neg hc1] at h
                cases h
          | exit1 => rw [hm] at h; cases h
          | undef => rw [hm] at h; cases h
          | nofuel => rw [hm] at h; cases h
        · rw [if_neg hcond] at h
          have := unread_number_size _ _ _ h
          omega

/-! ## Token strings that fit the token buffer have defined parses -/

theorem unread_number_ne_undef (inp : List Char) (h : inp.length < MAX_INPUT_SIZE) :
    unread_number inp ≠ .undef := by
  have hlen := unread_number_loop_length inp []
  unfold unread_number
  cases hl : unread_number_loop inp [] with
  | mk r0 number =>
    rw [hl] at hlen
    simp only at hlen ⊢
    have h1 : number.length < MAX_INPUT_SIZE := by
      simp only [List.length_nil, Nat.add_zero] at hlen
      omega
    rw [if_pos h1]
    split <;> simp

theorem unread_number_short (inp : List Char)
    (h : ∀ a ds b : List Char, inp = a ++ (ds ++ b) → (∀ c ∈ ds, isDig c = true) →
      ds.length < MAX_INPUT_SIZE) :
    unread_number inp ≠ .undef := by
  have hdig := unread_number_loop_isDig inp [] (by simp)
  have hsp := unread_number_loop_split inp []
  unfold unread_number
  cases hl : unread_number_loop inp [] with
  | mk r0 number =>
    rw [hl] at hdig hsp
    simp only at hdig hsp ⊢
    have h1 : number.length < MAX_INPUT_SIZE := h [] number r0 (by simpa using hsp) hdig
    rw [if_pos h1]
    split <;> simp

/-- The parsing functions run into no undefined behaviour on unread tokens with a property `Q`
that passes to the suffixes of a string and keeps `parse_number` inside its buffer. -/
theorem unread_defined (Q : List Char → Prop)
    (hsuf : ∀ a b : List Char, b <:+ a → Q a → Q b)
    (hnum : ∀ inp : List Char, Q inp → unread_number inp ≠ .undef) : ∀ fuel : Nat,
    (∀ inp : List Char, Q inp → unread_add fuel inp ≠ .undef) ∧
    (∀ (acc : exprtree) (inp : List Char), Q inp → unread_add_loop fuel acc inp ≠ .undef) ∧
    (∀ inp : List Char, Q inp → unread_mult fuel inp ≠ .undef) ∧
    (∀ (acc : exprtree) (inp : List Char), Q inp → unread_mult_loop fuel acc inp ≠ .undef) ∧
    (∀ inp : List Char, Q inp → unread_atomic fuel inp ≠ .undef) := by
  intro fuel
  induction fuel with
  | zero =>
    refine ⟨?_, ?_, ?_, ?_, ?_⟩ <;> intros <;> simp [unread_add, unread_add_loop, unread_mult,
      unread_mult_loop, unread_atomic]
  | succ fuel ih =>
    obtain ⟨ihA, ihAL, ihM, ihML, ihAt⟩ := ih
    have hS := unread_suffix fuel
    refine ⟨?_, ?_, ?_, ?_, ?_⟩
    · intro inp hf
      simp only [unread_add]
      cases hm : unread_mult fuel inp with
      | ok a =>
        obtain ⟨e1, r1⟩ := a
        exact ihAL _ _ (hsuf _ _ (hS.2.2.1 _ _ _ hm) hf)
      | exit1 => simp
      | undef => exact absurd hm (ihM inp hf)
      | nofuel => simp
    · intro acc inp hf
      cases inp with
      | nil => simp [unread_add_loop]
      | cons c r =>
        simp only [unread_add_loop]
        have hr := hsuf _ _ (List.suffix_cons c r) hf
        split
        · cases hm : unread_mult fuel r with
          | ok a =>
            obtain ⟨e1, r1⟩ := a
            exact ihAL _ _ (hsuf _ _ (hS.2.2.1 _ _ _ hm) hr)
          | exit1 => simp
          | undef => exact absurd hm (ihM r hr)
          | nofuel => simp
        · simp
    · intro inp hf
      simp only [unread_mult]
      cases hm : unread_atomic fuel inp with
      | ok a =>
        obtain ⟨e1, r1⟩ := a
        exact ihML _ _ (hsuf _ _ (hS.2.2.2.2 _ _ _ hm) hf)
      | exit1 => simp
      | undef => exact absurd hm (ihAt inp hf)
      | nofuel => simp
    · intro acc inp hf
      cases inp with
      | nil => simp [unread_mult_loop]
      | cons c r =>
        simp only [unread_mult_loop]
        have hr := hsuf _ _ (List.suffix_cons c r) hf
        split
        · cases hm : unread_atomic fuel r with
          | ok a =>
            obtain ⟨e1, r1⟩ := a
            exact ihML _ _ (hsuf _ _ (hS.2.2.2.2 _ _ _ hm) hr)
          | exit1 => simp
          | undef => exact absurd hm (ihAt r hr)
          | nofuel => simp
        · simp
    · intro inp hf
      cases inp with
      | nil =>
        simp only [unread_atomic]
        exact hnum _ hf
      | cons c r =>
        simp only [unread_atomic]
        split
        · have hr := hsuf _ _ (List.suffix_cons c r) hf
          cases hm : unread_add fuel r with
          | ok a =>
            obtain ⟨e1, r1⟩ := a
            cases r1 with
            | nil => simp
            | cons c1 r2 =>
              simp only
              split <;> simp
          | exit1 => simp
          | undef => exact absurd hm (ihA r hr)
          | nofuel => simp
        · exact hnum _ hf

theorem digitRunsFrom_cur : ∀ (b cur : List Char), cur ≠ [] →
    ∃ run ∈ digitRunsFrom cur b, cur.length ≤ run.length := by
  intro b
  induction b with
  | nil =>
    intro cur hcur
    cases cur with
    | nil => exact absurd rfl hcur
    | cons x cur => exact ⟨x :: cur, by simp [digitRunsFrom], Nat.le_refl _⟩
  | cons x b ih =>
    intro cur hcur
    rw [digitRunsFrom]
    by_cases hx : isDig x = true
    · rw [if_pos hx]
      obtain ⟨run, hrun, hlen⟩ := ih (cur ++ [x]) (by simp)
      refine ⟨run, hrun, ?_⟩
      simp only [List.length_append, List.length_singleton] at hlen
      omega
    · rw [if_neg hx]
      cases cur with
      | nil => exact absurd rfl hcur
      | cons y cur => exact ⟨y :: cur, by simp, Nat.le_refl _⟩

/-- Consecutive digits of a token string lie inside one of its maximal runs of digits. -/
theorem digitRunsFrom_covers : ∀ (a cur ds b : List Char), ds ≠ [] →
    (∀ c ∈ ds, isDig c = true) →
    ∃ run ∈ digitRunsFrom cur (a ++ (ds ++ b)), ds.length ≤ run.length := by
  intro a
  induction a with
  | nil =>
    intro cur ds b hne hd
    rw [List.nil_append, digitRunsFrom_digits ds cur b hd]
    obtain ⟨run, hrun, hlen⟩ := digitRunsFrom_cur b (cur ++ ds) (by simp [hne])
    refine ⟨run, hrun, ?_⟩
    simp only [List.length_append] at hlen
    omega
  | cons x a ih =>
    intro cur ds b hne hd
    rw [List.cons_append, digitRunsFrom]
    by_cases hx : isDig x = true
    · rw [if_pos hx]
      exact ih _ ds b hne hd
    · rw [if_neg hx]
      obtain ⟨run, hrun, hlen⟩ := ih [] ds b hne hd
      exact ⟨run, List.mem_append_right _ hrun, hlen⟩

/-- A token string whose maximal runs of digits have fewer than `MAX_INPUT_SIZE` digits is
parsed without undefined behaviour. -/
theorem unread_short_runs (fuel : Nat) (inp : List Char)
    (h : ∀ ds ∈ digitRuns inp, ds.length < MAX_INPUT_SIZE) : unread_add fuel inp ≠ .undef := by
  refine (unread_defined (fun s => ∀ a ds b : List Char, s = a ++ (ds ++ b) →
    (∀ c ∈ ds, isDig c = true) → ds.length < MAX_INPUT_SIZE) ?_ unread_number_short fuel).1 inp ?_
  · intro s t hst hs a ds b ht hd
    obtain ⟨pre, rfl⟩ := hst
    exact hs (pre ++ a) ds b (by rw [ht]; simp) hd
  · intro a ds b hs hd
    cases ds with
    | nil => simp [MAX_INPUT_SIZE]
    | cons d ds =>
      obtain ⟨run, hrun, hlen⟩ := digitRunsFrom_covers a [] (d :: ds) b (by simp) hd
      rw [← hs] at hrun
      have := h run hrun
      omega

theorem unread_ne_undef : ∀ fuel : Nat,
    (∀ inp : List Char, inp.length < MAX_INPUT_SIZE → unread_add fuel inp ≠ .undef) ∧
    (∀ (acc : exprtree) (inp : List Char), inp.length < MAX_INPUT_SIZE →
      unread_add_loop fuel acc inp ≠ .undef) ∧
    (∀ inp : List Char, inp.length < MAX_INPUT_SIZE → unread_mult fuel inp ≠ .undef) ∧
    (∀ (acc : exprtree) (inp : List Char), inp.length < MAX_INPUT_SIZE →
      unread_mult_loop fuel acc inp ≠ .undef) ∧
    (∀ inp : List Char, inp.length < MAX_INPUT_SIZE → unread_atomic fuel inp ≠ .undef) :=
  unread_defined (fun s => s.length < MAX_INPUT_SIZE)
    (fun _ _ hab ha => Nat.lt_of_le_of_lt hab.length_le ha) unread_number_ne_undef

/-- A successful call of one of the four parsing functions moves the cursor forward, inside
the token string; a loop does not move it back. -/
theorem parse_progress (fuel : Nat) (p p1 : parser_t) (e : exprtree) (hwf : p.WF) :
    (parse_add_expression fuel p = .ok (e, p1) ∨ parse_mult_expression fuel p = .ok (e, p1) ∨
      parse_atomic_expression fuel p = .ok (e, p1) ∨ parse_number p = .ok (e, p1) →
      p1.tokens = p.tokens ∧ p1.ntokens = p.ntokens ∧ p.pos < p1.pos ∧ p1.pos ≤ p1.ntokens) ∧
    (∀ acc, parse_add_expression_loop fuel acc p = .ok (e, p1) ∨
      parse_mult_expression_loop fuel acc p = .ok (e, p1) →
      p1.tokens = p.tokens ∧ p1.ntokens = p.ntokens ∧ p.pos ≤ p1.pos ∧ p1.pos ≤ p1.ntokens) := by
  have hE := parse_eq_unread fuel
  have hS := unread_suffix fuel
  have hZ := unread_size fuel
  have hlen := p.rest_length hwf
  have key : ∀ (res : Result (exprtree × List Char)),
      p.lift res = .ok (e, p1) → ∃ r, res = .ok (e, r) ∧ p1 = p.seek r := by
    intro res h
    cases res with
    | ok a =>
      obtain ⟨e1, r⟩ := a
      simp only [parser_t.lift, Result.ok.injEq, Prod.mk.injEq] at h
      exact ⟨r, by rw [h.1], h.2.symm⟩
    | exit1 => cases h
    | undef => cases h
    | nofuel => cases h
  have fin : ∀ r : List Char, r <:+ p.rest → p1 = p.seek r →
      p1.tokens = p.tokens ∧ p1.ntokens = p.ntokens ∧ p1.pos ≤ p1.ntokens ∧
        p1.pos = p.ntokens - r.length := by
    intro r hs hp
    obtain ⟨hw, -, -, -⟩ := p.seek_spec hwf r hs
    subst hp
    exact ⟨rfl, rfl, hw.2, rfl⟩
  have h2 := hwf.2
  constructor
  · intro h
    rcases h with h | h | h | h
    · rw [hE.1 p hwf] at h
      obtain ⟨r, hr, hp⟩ := key _ h
      obtain ⟨a, b, c, d⟩ := fin r (hS.1 _ _ _ hr) hp
      have := hZ.1 _ _ _ hr
      have := (hS.1 _ _ _ hr).length_le
      exact ⟨a, b, by omega, c⟩
    · rw [hE.2.2.1 p hwf] at h
      obtain ⟨r, hr, hp⟩ := key _ h
      obtain ⟨a, b, c, d⟩ := fin r (hS.2.2.1 _ _ _ hr) hp
      have := hZ.2.2.1 _ _ _ hr
      have := (hS.2.2.1 _ _ _ hr).length_le
      exact ⟨a, b, by omega, c⟩
    · rw [hE.2.2.2.2 p hwf] at h
      obtain ⟨r, hr, hp⟩ := key _ h
      obtain ⟨a, b, c, d⟩ := fin r (hS.2.2.2.2 _ _ _ hr) hp
      have := hZ.2.2.2.2 _ _ _ hr
      have := (hS.2.2.2.2 _ _ _ hr).length_le
      exact ⟨a, b, by omega, c⟩
    · rw [parse_number_eq p hwf] at h
      obtain ⟨r, hr, hp⟩ := key _ h
      obtain ⟨a, b, c, d⟩ := fin r (unread_number_suffix _ _ _ hr) hp
      have := unread_number_size _ _ _ hr
      have := (unread_number_suffix _ _ _ hr).length_le
      exact ⟨a, b, by omega, c⟩
  · intro acc h
    rcases h with h | h
    · rw [hE.2.1 acc p hwf] at h
      obtain ⟨r, hr, hp⟩ := key _ h
      obtain ⟨a, b, c, d⟩ := fin r (hS.2.1 _ _ _ _ hr) hp
      have := (hS.2.1 _ _ _ _ hr).length_le
      exact ⟨a, b, by omega, c⟩
    · rw [hE.2.2.2.1 acc p hwf] at h
      obtain ⟨r, hr, hp⟩ := key _ h
      obtain ⟨a, b, c, d⟩ := fin r (hS.2.2.2.1 _ _ _ _ hr) hp
      have := (hS.2.2.2.1 _ _ _ _ hr).length_le
      exact ⟨a, b, by omega, c⟩

theorem lift_ne_nofuel (p : parser_t) (res : Result (exprtree × List Char))
    (h : res ≠ .nofuel) : p.lift res ≠ .nofuel := by
  cases res with
  | ok a => obtain ⟨e, r⟩ := a; simp [parser_t.lift]
  | exit1 => simp [parser_t.lift]
  | undef => simp [parser_t.lift]
  | nofuel => exact absurd rfl h

theorem accepts_of_reads (x : List Char) (T : exprtree) (h0 : cstr x = x)
    (h : ∃ f, unread_add f x = .ok (T, [])) : accepts parse_add_expression x T := by
  obtain ⟨f, hf⟩ := h
  refine ⟨f, ?_⟩
  rw [(parse_eq_unread f).1 _ (initial_WF x).1, (initial_WF x).2, h0, hf]
  have hl : strlen x = x.length := by unfold strlen; rw [h0]
  simp [parser_t.lift, parser_t.seek, hl]

theorem showTree_reads : ∀ T : exprtree, showable T = true →
    (∃ f, unread_add f (showTree T) = .ok (T, [])) ∧
      ∀ c ∈ showTree T, inAlphabet c = true := by
  intro T
  induction T with
  | NULL => intro h; simp [showable] at h
  | node type value left right ihl ihr =>
    intro h
    simp only [showable, Bool.or_eq_true, Bool.and_eq_true, beq_iff_eq,
      decide_eq_true_eq] at h
    rcases h with ⟨⟨⟨⟨rfl, h0⟩, hmax⟩, rfl⟩, rfl⟩ | ⟨⟨⟨hop, rfl⟩, hl⟩, hr⟩
    · have hv : ((value.toNat : Nat) : Int) = value := Int.toNat_of_nonneg h0
      have hfit : ((value.toNat : Nat) : Int) ≤ INT_MAX := by rw [hv]; exact hmax
      have hs : showTree (.node 'n' value .NULL .NULL) = lit value.toNat := by
        simp [showTree]
      rw [hs]
      constructor
      · have h1 := reads_add_chain _ _ []
          (reads_mult_of_atomic _ _ (reads_atomic_lit value.toNat hfit)) (by simp)
        simp only [chainText, leftFold, List.append_nil, hv] at h1
        exact h1
      · exact lit_inAlphabet _
    · obtain ⟨hrl, hal⟩ := ihl hl
      obtain ⟨hrr, har⟩ := ihr hr
      have hn : type ≠ 'n' := by
        rcases hop with ((rfl | rfl) | rfl) | rfl <;> decide
      have hta : inAlphabet type = true := by
        rcases hop with ((rfl | rfl) | rfl) | rfl <;> decide
      have hs : showTree (.node type 0 left right) =
          ('(' :: (showTree left ++ [')'])) ++
            chainText [⟨type, '(' :: (showTree right ++ [')']), right⟩] := by
        simp [showTree, hn, chainText]
      have hpl := unread_atomic_paren _ _ hrl
      have hpr := unread_atomic_paren _ _ hrr
      constructor
      · rw [hs]
        have hfold : leftFold left [⟨type, '(' :: (showTree right ++ [')']), right⟩] =
            .node type 0 left right := rfl
        rcases hop with (hadd | hmul) | hmul
        · have h1 := reads_add_chain _ left [⟨type, '(' :: (showTree right ++ [')']), right⟩]
            (reads_mult_of_atomic _ _ hpl)
            (by
              intro y hy
              simp only [List.mem_singleton] at hy
              subst hy
              exact ⟨hadd, reads_mult_of_atomic _ _ hpr⟩)
          rw [hfold] at h1
          exact h1
        · have h1 := reads_mult_chain _ left [⟨type, '(' :: (showTree right ++ [')']), right⟩]
            hpl
            (by
              intro y hy
              simp only [List.mem_singleton] at hy
              subst hy
              exact ⟨Or.inl hmul, hpr⟩)
          rw [hfold] at h1
          have h2 := reads_add_chain _ _ [] h1 (by simp)
          simpa [chainText, leftFold] using h2
        · have h1 := reads_mult_chain _ left [⟨type, '(' :: (showTree right ++ [')']), right⟩]
            hpl
            (by
              intro y hy
              simp only [List.mem_singleton] at hy
              subst hy
              exact ⟨Or.inr hmul, hpr⟩)
          rw [hfold] at h1
          have h2 := reads_add_chain _ _ [] h1 (by simp)
          simpa [chainText, leftFold] using h2
      · intro c hc
        simp only [showTree, hn, if_false, List.mem_cons, List.mem_append,
          List.mem_singleton] at hc
        rcases hc with rfl | hc | rfl | rfl | rfl | hc | hc
        · decide
        · exact hal c hc
        · decide
        · exact hta
        · decide
        · exact har c hc
        · simp only [List.not_mem_nil, or_false] at hc
          subst hc
          decide

set_option maxRecDepth 100000 in
/-- C19 (counterexample): on the token string of 100 digits `7`, `parse` returns neither a tree
nor the syntax error: `parse_number` reads the 100 digits and then writes the terminator
outside its buffer `number`. -/
theorem c19_long_number_no_result :
    strlen (List.replicate 100 '7') = 100 ∧
    parse (List.replicate 100 '7') = .undef ∧
    (¬ ∃ T, parse (List.replicate 100 '7') = .ok T) ∧
    parse (List.replicate 100 '7') ≠ .exit1 := by
  have h : parse (List.replicate 100 '7') = .undef := by decide
  refine ⟨by decide, h, ?_, ?_⟩
  · rw [h]
    simp
  · rw [h]
    simp

/-- C19 (amended): parsing terminates on every token string.  The budget of `parse`, three
units per token, is never used up, and so for every call of the descent with three units per
unread token; every successful call of one of the four parsing functions leaves the cursor
strictly further, so the number of unread tokens decreases along the recursion.  On every token
string whose maximal runs of digits have fewer than `MAX_INPUT_SIZE` digits, so on every token
string that fits the token buffer and on every output of `tokenize`, `parse` returns a tree or
exits with the syntax error; and the depth of a returned tree is at most the length of the
token string. -/
theorem c19_parse_terminates (tokens : List Char) :
    parse tokens ≠ .nofuel ∧
    (∀ (fuel : Nat) (p : parser_t), p.WF → 3 * (p.ntokens - p.pos) + 3 ≤ fuel →
      parse_add_expression fuel p ≠ .nofuel ∧ parse_mult_expression fuel p ≠ .nofuel ∧
      parse_atomic_expression fuel p ≠ .nofuel ∧
      ∀ acc : exprtree, parse_add_expression_loop fuel acc p ≠ .nofuel ∧
        parse_mult_expression_loop fuel acc p ≠ .nofuel) ∧
    (∀ (fuel : Nat) (p p1 : parser_t) (e : exprtree), p.WF →
      parse_add_expression fuel p = .ok (e, p1) ∨ parse_mult_expression fuel p = .ok (e, p1) ∨
        parse_atomic_expression fuel p = .ok (e, p1) ∨ parse_number p = .ok (e, p1) →
      p1.ntokens - p1.pos < p.ntokens - p.pos) ∧
    ((∀ ds ∈ digitRuns (cstr tokens), ds.length < MAX_INPUT_SIZE) →
      (∃ T, parse tokens = .ok T) ∨ parse tokens = .exit1) ∧
    (strlen tokens < MAX_INPUT_SIZE → (∃ T, parse tokens = .ok T) ∨ parse tokens = .exit1) ∧
    (∀ s : List Char, tokenize s = .ok tokens →
      (∃ T, parse tokens = .ok T) ∨ parse tokens = .exit1) ∧
    (∀ T : exprtree, parse tokens = .ok T → depth T ≤ strlen tokens) := by
  have hdef : unread_add (3 * strlen tokens + 3) (cstr tokens) ≠ .undef →
      (∃ T, parse tokens = .ok T) ∨ parse tokens = .exit1 := by
    intro h2
    have h1 := parse_ne_nofuel tokens
    rw [parse_eq] at h1 ⊢
    cases hu : unread_add (3 * strlen tokens + 3) (cstr tokens) with
    | ok a => obtain ⟨e, r⟩ := a; exact Or.inl ⟨e, rfl⟩
    | exit1 => exact Or.inr rfl
    | undef => exact absurd hu h2
    | nofuel => rw [hu] at h1; exact absurd rfl h1
  have hbound : strlen tokens < MAX_INPUT_SIZE →
      (∃ T, parse tokens = .ok T) ∨ parse tokens = .exit1 :=
    fun hlen => hdef ((unread_ne_undef (3 * strlen tokens + 3)).1 (cstr tokens) hlen)
  refine ⟨parse_ne_nofuel tokens, ?_, ?_,
    fun hruns => hdef (unread_short_runs _ _ hruns), hbound, ?_, ?_⟩
  · intro fuel p hwf hf
    have hE := parse_eq_unread fuel
    have hN := unread_enough fuel
    have hl := p.rest_length hwf
    refine ⟨?_, ?_, ?_, fun acc => ⟨?_, ?_⟩⟩
    · rw [hE.1 p hwf]
      exact lift_ne_nofuel _ _ (hN.1 _ (by omega))
    · rw [hE.2.2.1 p hwf]
      exact lift_ne_nofuel _ _ (hN.2.2.1 _ (by omega))
    · rw [hE.2.2.2.2 p hwf]
      exact lift_ne_nofuel _ _ (hN.2.2.2.2 _ (by omega))
    · rw [hE.2.1 acc p hwf]
      exact lift_ne_nofuel _ _ (hN.2.1 _ _ (by omega))
    · rw [hE.2.2.2.1 acc p hwf]
      exact lift_ne_nofuel _ _ (hN.2.2.2.1 _ _ (by omega))
  · intro fuel p p1 e hwf h
    obtain ⟨-, h2, h3, h4⟩ := (parse_progress fuel p p1 e hwf).1 h
    have := hwf.2
    omega
  · intro s hs
    apply hbound
    rw [tokenize_eq] at hs
    split at hs
    · cases hs
      rename_i hlt
      exact Nat.lt_of_le_of_lt (strlen_le _) hlt
    · cases hs
  · intro T hT
    obtain ⟨r, hr⟩ := parse_ok_unread tokens T hT
    have h1 := (unread_size _).1 _ _ _ hr
    have h2 := depth_le_size T
    unfold strlen
    omega

theorem c19_parse_terminates_witness :
    (∀ ds ∈ digitRuns (cstr "2*(3+4)".toList), ds.length < MAX_INPUT_SIZE) ∧
      ((∃ T, parse "2*(3+4)".toList = .ok T) ∨ parse "2*(3+4)".toList = .exit1) :=
  ⟨by decide, (c19_parse_terminates "2*(3+4)".toList).2.2.2.1 (by decide)⟩

set_option maxRecDepth 100000 in
/-- C20 (counterexample): the sum of 18 ones, nested to the left, is a well-formed tree whose
text `show(T)` has 103 characters; `tokenize` does not return that text, which does not fit the
token buffer of `MAX_INPUT_SIZE` bytes. -/
theorem c20_long_text_not_tokenized :
    showable (leftFold (Number 1) (List.replicate 17 ⟨'+', ['1'], Number 1⟩)) = true ∧
    (showTree (leftFold (Number 1) (List.replicate 17 ⟨'+', ['1'], Number 1⟩))).length = 103 ∧
    tokenize (showTree (leftFold (Number 1) (List.replicate 17 ⟨'+', ['1'], Number 1⟩))) =
      .undef ∧
    tokenize (showTree (leftFold (Number 1) (List.replicate 17 ⟨'+', ['1'], Number 1⟩))) ≠
      .ok (showTree (leftFold (Number 1) (List.replicate 17 ⟨'+', ['1'], Number 1⟩))) := by
  decide

/-- C20 (amended): print and parse round trip.  For every tree `T` built from `Number` and
`BinaryOp` with operators among `+ - * /` and leaves non-negative and within the `int` range,
`parse` of the text `show(T)` succeeds and returns `T`, and `parse_add_expression` reads that
text to its end; so every such tree is returned by the parser.  The text consists of alphabet
characters, and `tokenize` returns it unchanged exactly when it has fewer than
`MAX_INPUT_SIZE` characters, so that it fits the token buffer with its terminator. -/
theorem c20_show_parse_round_trip (T : exprtree) (hT : showable T = true) :
    parse (showTree T) = .ok T ∧ accepts parse_add_expression (showTree T) T ∧
    (∃ tokens : List Char, parse tokens = .ok T) ∧
    (∀ c ∈ showTree T, inAlphabet c = true) ∧
    (tokenize (showTree T) = .ok (showTree T) ↔ (showTree T).length < MAX_INPUT_SIZE) := by
  obtain ⟨hr, ha⟩ := showTree_reads T hT
  have h0 : cstr (showTree T) = showTree T :=
    cstr_eq_self _ (fun c hc => inAlphabet_ne_null c (ha c hc))
  have hp := parse_of_reads _ _ [] h0 hr
  have hf : (showTree T).filter inAlphabet = showTree T := List.filter_eq_self.2 ha
  have ht : tokenize (showTree T) =
      if (showTree T).length < MAX_INPUT_SIZE then .ok (showTree T) else .undef := by
    rw [tokenize_eq, h0, hf]
  refine ⟨hp, accepts_of_reads _ _ h0 hr, ⟨_, hp⟩, ha, ?_⟩
  rw [ht]
  constructor
  · intro h
    by_contra hn
    rw [if_neg hn] at h
    cases h
  · intro h
    rw [if_pos h]

theorem c20_show_parse_round_trip_witness :
    showable (BinaryOp '*' (BinaryOp '+' (Number 2) (Number 3)) (Number 4)) = true ∧
      parse "((2)+(3))*(4)".toList =
        .ok (BinaryOp '*' (BinaryOp '+' (Number 2) (Number 3)) (Number 4)) :=
  ⟨by decide,
    (c20_show_parse_round_trip (BinaryOp '*' (BinaryOp '+' (Number 2) (Number 3)) (Number 4))
      (by decide)).1⟩

/-! ## The positions of the reads of the parser -/

theorem Within.nil (lo hi : Nat) : Within lo hi [] := by
  simp [Within]

theorem Within.cons {lo hi : Nat} {L : List Nat} (h : Within lo hi L) (hl : lo ≤ hi) :
    Within lo hi (lo :: L) := by
  refine ⟨?_, ?_⟩
  · intro i hi1
    rcases List.mem_cons.1 hi1 with rfl | hi1
    · exact ⟨Nat.le_refl _, hl⟩
    · exact h.1 i hi1
  · exact List.Pairwise.cons (fun b hb => (h.1 b hb).1) h.2

theorem Within.mono {lo hi lo1 hi1 : Nat} {L : List Nat} (h : Within lo hi L) (h1 : lo1 ≤ lo)
    (h2 : hi ≤ hi1) : Within lo1 hi1 L :=
  ⟨fun i hi0 => ⟨Nat.le_trans h1 (h.1 i hi0).1, Nat.le_trans (h.1 i hi0).2 h2⟩, h.2⟩

theorem Within.append {lo mid hi : Nat} {L1 L2 : List Nat} (h1 : Within lo mid L1)
    (h2 : Within mid hi L2) (hlm : lo ≤ mid) (hmh : mid ≤ hi) : Within lo hi (L1 ++ L2) := by
  refine ⟨?_, ?_⟩
  · intro i hi0
    rcases List.mem_append.1 hi0 with hi0 | hi0
    · exact ⟨(h1.1 i hi0).1, Nat.le_trans (h1.1 i hi0).2 hmh⟩
    · exact ⟨Nat.le_trans hlm (h2.1 i hi0).1, (h2.1 i hi0).2⟩
  · rw [List.pairwise_append]
    exact ⟨h1.2, h2.2, fun a ha b hb => Nat.le_trans (h1.1 a ha).2 (h2.1 b hb).1⟩

theorem parser_t.advance_WF_of_cur (p : parser_t) (hwf : p.WF) (h : p.cur ≠ '\x00') :
    p.pos < p.ntokens ∧ p.advance.WF := by
  cases hr : p.rest with
  | nil =>
    have := p.cur_eq hwf
    rw [hr] at this
    exact absurd (by simpa using this) h
  | cons c r =>
    obtain ⟨-, h1, h2, -, -⟩ := p.rest_cons hwf c r hr
    exact ⟨h1, h2⟩

theorem parser_t.advance_WF (p : parser_t) (hwf : p.WF) (h : p.pos < p.ntokens) :
    p.advance.WF :=
  ⟨hwf.1, h⟩

theorem reads_number_loop_within : ∀ (fuel : Nat) (p : parser_t) (number : List Char), p.WF →
    Within p.pos (parse_number_loop fuel p number).1.pos (reads_number_loop fuel p number) ∧
      p.pos ≤ (parse_number_loop fuel p number).1.pos ∧
      (parse_number_loop fuel p number).1.pos ≤ p.ntokens := by
  intro fuel
  induction fuel with
  | zero =>
    intro p number hwf
    simp only [reads_number_loop, parse_number_loop]
    exact ⟨(Within.nil _ _).cons (Nat.le_refl _), Nat.le_refl _, hwf.2⟩
  | succ fuel ih =>
    intro p number hwf
    simp only [reads_number_loop, parse_number_loop]
    split
    · rename_i hcond
      have hlt : p.pos < p.ntokens := by
        simp only [Bool.and_eq_true, decide_eq_true_eq] at hcond
        exact hcond.2
      obtain ⟨h1, h2, h3⟩ := ih p.advance (number ++ [p.cur]) (p.advance_WF hwf hlt)
      have hadv : p.advance.pos = p.pos + 1 := rfl
      rw [hadv] at h1 h2
      have hn : p.advance.ntokens = p.ntokens := rfl
      rw [hn] at h3
      refine ⟨?_, by omega, h3⟩
      exact ((h1.mono (Nat.le_succ _) (Nat.le_refl _)).cons (by omega)).cons (by omega)
    · exact ⟨(Within.nil _ _).cons (Nat.le_refl _), Nat.le_refl _, hwf.2⟩

theorem reads_number_within (p : parser_t) (hwf : p.WF) :
    Within p.pos (hiOf p (parse_number p)) (reads_number p) ∧
      p.pos ≤ hiOf p (parse_number p) ∧ hiOf p (parse_number p) ≤ p.ntokens := by
  obtain ⟨h1, h2, h3⟩ := reads_number_loop_within (p.ntokens - p.pos) p [] hwf
  unfold reads_number parse_number
  cases hl : parse_number_loop (p.ntokens - p.pos) p [] with
  | mk p1 number =>
    rw [hl] at h1 h2 h3
    simp only at h1 h2 h3 ⊢
    split
    · split
      · exact ⟨h1.mono (Nat.le_refl _) h3, hwf.2, Nat.le_refl _⟩
      · exact ⟨h1, h2, h3⟩
    · exact ⟨h1.mono (Nat.le_refl _) h3, hwf.2, Nat.le_refl _⟩

/-- The cursor after a call is not before the cursor at the call, and not behind the end of the
token string. -/
theorem hiOf_bounds (fuel : Nat) (p : parser_t) (hwf : p.WF) :
    (p.pos ≤ hiOf p (parse_add_expression fuel p) ∧
      hiOf p (parse_add_expression fuel p) ≤ p.ntokens) ∧
    (p.pos ≤ hiOf p (parse_mult_expression fuel p) ∧
      hiOf p (parse_mult_expression fuel p) ≤ p.ntokens) ∧
    (p.pos ≤ hiOf p (parse_atomic_expression fuel p) ∧
      hiOf p (parse_atomic_expression fuel p) ≤ p.ntokens) ∧
    (∀ acc, p.pos ≤ hiOf p (parse_add_expression_loop fuel acc p) ∧
      hiOf p (parse_add_expression_loop fuel acc p) ≤ p.ntokens) ∧
    (∀ acc, p.pos ≤ hiOf p (parse_mult_expression_loop fuel acc p) ∧
      hiOf p (parse_mult_expression_loop fuel acc p) ≤ p.ntokens) := by
  have h2 := hwf.2
  have aux : ∀ res : Result (exprtree × parser_t),
      (∀ e p1, res = .ok (e, p1) → p1.ntokens = p.ntokens ∧ p.pos ≤ p1.pos ∧
        p1.pos ≤ p1.ntokens) → p.pos ≤ hiOf p res ∧ hiOf p res ≤ p.ntokens := by
    intro res h
    cases res with
    | ok a =>
      obtain ⟨e, p1⟩ := a
      obtain ⟨a1, a2, a3⟩ := h e p1 rfl
      simp only [hiOf]
      omega
    | exit1 => exact ⟨h2, Nat.le_refl _⟩
    | undef => exact ⟨h2, Nat.le_refl _⟩
    | nofuel => exact ⟨h2, Nat.le_refl _⟩
  refine ⟨aux _ ?_, aux _ ?_, aux _ ?_, fun acc => aux _ ?_, fun acc => aux _ ?_⟩
  · intro e p1 h
    obtain ⟨-, a, b, c⟩ := (parse_progress fuel p p1 e hwf).1 (Or.inl h)
    exact ⟨a, Nat.le_of_lt b, c⟩
  · intro e p1 h
    obtain ⟨-, a, b, c⟩ := (parse_progress fuel p p1 e hwf).1 (Or.inr (Or.inl h))
    exact ⟨a, Nat.le_of_lt b, c⟩
  · intro e p1 h
    obtain ⟨-, a, b, c⟩ := (parse_progress fuel p p1 e hwf).1 (Or.inr (Or.inr (Or.inl h)))
    exact ⟨a, Nat.le_of_lt b, c⟩
  · intro e p1 h
    obtain ⟨-, a, b, c⟩ := (parse_progress fuel p p1 e hwf).2 acc (Or.inl h)
    exact ⟨a, b, c⟩
  · intro e p1 h
    obtain ⟨-, a, b, c⟩ := (parse_progress fuel p p1 e hwf).2 acc (Or.inr h)
    exact ⟨a, b, c⟩

/-- The parser returned by a successful call is well formed. -/
theorem WF_of_ok (fuel : Nat) (p p1 : parser_t) (e : exprtree) (hwf : p.WF)
    (h : parse_add_expression fuel p = .ok (e, p1) ∨ parse_mult_expression fuel p = .ok (e, p1) ∨
      parse_atomic_expression fuel p = .ok (e, p1) ∨ parse_number p = .ok (e, p1)) :
    p1.WF ∧ p1.ntokens = p.ntokens ∧ p.pos < p1.pos := by
  obtain ⟨a, b, c, d⟩ := (parse_progress fuel p p1 e hwf).1 h
  exact ⟨⟨by rw [a, b]; exact hwf.1, d⟩, b, c⟩

theorem hiOf_congr (p p1 : parser_t) (h : p1.ntokens = p.ntokens)
    (res : Result (exprtree × parser_t)) : hiOf p1 res = hiOf p res := by
  cases res with
  | ok a => rfl
  | exit1 => exact h
  | undef => exact h
  | nofuel => exact h

theorem reads_within : ∀ fuel : Nat,
    (∀ p : parser_t, p.WF →
      Within p.pos (hiOf p (parse_add_expression fuel p)) (reads_add fuel p)) ∧
    (∀ (acc : exprtree) (p : parser_t), p.WF →
      Within p.pos (hiOf p (parse_add_expression_loop fuel acc p)) (reads_add_loop fuel p)) ∧
    (∀ p : parser_t, p.WF →
      Within p.pos (hiOf p (parse_mult_expression fuel p)) (reads_mult fuel p)) ∧
    (∀ (acc : exprtree) (p : parser_t), p.WF →
      Within p.pos (hiOf p (parse_mult_expression_loop fuel acc p)) (reads_mult_loop fuel p)) ∧
    (∀ p : parser_t, p.WF →
      Within p.pos (hiOf p (parse_atomic_expression fuel p)) (reads_atomic fuel p)) := by
  intro fuel
  induction fuel with
  | zero =>
    refine ⟨?_, ?_, ?_, ?_, ?_⟩ <;> intros <;>
      simp [reads_add, reads_add_loop, reads_mult, reads_mult_loop, reads_atomic, Within.nil]
  | succ fuel ih =>
    obtain ⟨ihA, ihAL, ihM, ihML, ihAt⟩ := ih
    refine ⟨?_, ?_, ?_, ?_, ?_⟩
    · intro p hwf
      have hM := ihM p hwf
      have hb := (hiOf_bounds fuel p hwf).2.1
      simp only [reads_add, parse_add_expression]
      cases hm : parse_mult_expression fuel p with
      | ok a =>
        obtain ⟨e1, p1⟩ := a
        rw [hm] at hM hb
        simp only [hiOf] at hM hb
        obtain ⟨hwf1, hn1, hlt1⟩ := WF_of_ok fuel p p1 e1 hwf (Or.inr (Or.inl hm))
        have hL := ihAL e1 p1 hwf1
        have hb1 := (hiOf_bounds fuel p1 hwf1).2.2.2.1 e1
        rw [hiOf_congr p p1 hn1] at hL hb1
        exact hM.append hL hb.1 hb1.1
      | exit1 => rw [hm] at hM; simpa using hM
      | undef => rw [hm] at hM; simpa using hM
      | nofuel => rw [hm] at hM; simpa using hM
    · intro acc p hwf
      simp only [reads_add_loop, parse_add_expression_loop]
      by_cases hlt : p.pos < p.ntokens
      · by_cases hc : (p.cur == '+' || p.cur == '-') = true
        · have hwfa := p.advance_WF hwf hlt
          have hM := ihM p.advance hwfa
          have hb := (hiOf_bounds fuel p.advance hwfa).2.1
          have hpa : p.advance.pos = p.pos + 1 := rfl
          have hna : p.advance.ntokens = p.ntokens := rfl
          simp only [hlt, hc, if_true, decide_True, Bool.and_self]
          cases hm : parse_mult_expression fuel p.advance with
          | ok a =>
            obtain ⟨e1, p1⟩ := a
            rw [hm] at hM hb
            simp only [hiOf] at hM hb
            obtain ⟨hwf1, hn1, hlt1⟩ := WF_of_ok fuel p.advance p1 e1 hwfa (Or.inr (Or.inl hm))
            have hL := ihAL (create_exprtree p.cur 0 acc e1) p1 hwf1
            have hb1 := (hiOf_bounds fuel p1 hwf1).2.2.2.1 (create_exprtree p.cur 0 acc e1)
            rw [hiOf_congr p p1 (hn1.trans hna)] at hL hb1
            have h3 := (hM.append hL hb.1 hb1.1).mono (Nat.le_succ p.pos) (Nat.le_refl _)
            rw [hpa] at hb
            exact h3.cons (by omega)
          | exit1 =>
            rw [hm] at hM
            simp only [hiOf, hna] at hM
            simpa [hiOf] using (hM.mono (Nat.le_succ p.pos) (Nat.le_refl _)).cons
              (Nat.le_of_lt hlt)
          | undef =>
            rw [hm] at hM
            simp only [hiOf, hna] at hM
            simpa [hiOf] using (hM.mono (Nat.le_succ p.pos) (Nat.le_refl _)).cons
              (Nat.le_of_lt hlt)
          | nofuel =>
            rw [hm] at hM
            simp only [hiOf, hna] at hM
            simpa [hiOf] using (hM.mono (Nat.le_succ p.pos) (Nat.le_refl _)).cons
              (Nat.le_of_lt hlt)
        · simp only [hlt, hc, if_true, decide_True, Bool.and_false, Bool.false_eq_true,
            if_false, hiOf]
          exact (Within.nil _ _).cons (Nat.le_refl _)
      · simp only [hlt, if_false, decide_False, Bool.false_and, Bool.false_eq_true]
        exact Within.nil _ _
    · intro p hwf
      have hM := ihAt p hwf
      have hb := (hiOf_bounds fuel p hwf).2.2.1
      simp only [reads_mult, parse_mult_expression]
      cases hm : parse_atomic_expression fuel p with
      | ok a =>
        obtain ⟨e1, p1⟩ := a
        rw [hm] at hM hb
        simp only [hiOf] at hM hb
        obtain ⟨hwf1, hn1, hlt1⟩ := WF_of_ok fuel p p1 e1 hwf (Or.inr (Or.inr (Or.inl hm)))
        have hL := ihML e1 p1 hwf1
        have hb1 := (hiOf_bounds fuel p1 hwf1).2.2.2.2 e1
        rw [hiOf_congr p p1 hn1] at hL hb1
        exact hM.append hL hb.1 hb1.1
      | exit1 => rw [hm] at hM; simpa using hM
      | undef => rw [hm] at hM; simpa using hM
      | nofuel => rw [hm] at hM; simpa using hM
    · intro acc p hwf
      simp only [reads_mult_loop, parse_mult_expression_loop]
      by_cases hlt : p.pos < p.ntokens
      · by_cases hc : (p.cur == '*' || p.cur == '/') = true
        · have hwfa := p.advance_WF hwf hlt
          have hM := ihAt p.advance hwfa
          have hb := (hiOf_bounds fuel p.advance hwfa).2.2.1
          have hpa : p.advance.pos = p.pos + 1 := rfl
          have hna : p.advance.ntokens = p.ntokens := rfl
          simp only [hlt, hc, if_true, decide_True, Bool.and_self]
          cases hm : parse_atomic_expression fuel p.advance with
          | ok a =>
            obtain ⟨e1, p1⟩ := a
            rw [hm] at hM hb
            simp only [hiOf] at hM hb
            obtain ⟨hwf1, hn1, hlt1⟩ :=
              WF_of_ok fuel p.advance p1 e1 hwfa (Or.inr (Or.inr (Or.inl hm)))
            have hL := ihML (create_exprtree p.cur 0 acc e1) p1 hwf1
            have hb1 := (hiOf_bounds fuel p1 hwf1).2.2.2.2 (create_exprtree p.cur 0 acc e1)
            rw [hiOf_congr p p1 (hn1.trans hna)] at hL hb1
            have h3 := (hM.append hL hb.1 hb1.1).mono (Nat.le_succ p.pos) (Nat.le_refl _)
            rw [hpa] at hb
            exact h3.cons (by omega)
          | exit1 =>
            rw [hm] at hM
            simp only [hiOf, hna] at hM
            simpa [hiOf] using (hM.mono (Nat.le_succ p.pos) (Nat.le_refl _)).cons
              (Nat.le_of_lt hlt)
          | undef =>
            rw [hm] at hM
            simp only [hiOf, hna] at hM
            simpa [hiOf] using (hM.mono (Nat.le_succ p.pos) (Nat.le_refl _)).cons
              (Nat.le_of_lt hlt)
          | nofuel =>
            rw [hm] at hM
            simp only [hiOf, hna] at hM
            simpa [hiOf] using (hM.mono (Nat.le_succ p.pos) (Nat.le_refl _)).cons
              (Nat.le_of_lt hlt)
        · simp only [hlt, hc, if_true, decide_True, Bool.and_false, Bool.false_eq_true,
            if_false, hiOf]
          exact (Within.nil _ _).cons (Nat.le_refl _)
      · simp only [hlt, if_false, decide_False, Bool.false_and, Bool.false_eq_true]
        exact Within.nil _ _
    · intro p hwf
      simp only [reads_atomic, parse_atomic_expression]
      by_cases hc : (p.cur == '(') = true
      · have hcur : p.cur ≠ '\x00' := by
          have : p.cur = '(' := by simpa using hc
          rw [this]
          decide
        obtain ⟨hlt, hwfa⟩ := p.advance_WF_of_cur hwf hcur
        have hA := ihA p.advance hwfa
        have hb := (hiOf_bounds fuel p.advance hwfa).1
        have hpa : p.advance.pos = p.pos + 1 := rfl
        have hna : p.advance.ntokens = p.ntokens := rfl
        simp only [hc, if_true]
        cases hm : parse_add_expression fuel p.advance with
        | ok a =>
          obtain ⟨e1, p1⟩ := a
          rw [hm] at hA hb
          simp only [hiOf] at hA hb
          obtain ⟨hwf1, hn1, hlt1⟩ := WF_of_ok fuel p.advance p1 e1 hwfa (Or.inl hm)
          have h1 := hwf1.2
          simp only
          have hlast : ∀ hi, p1.pos ≤ hi → Within p.pos hi
              (p.pos :: (reads_add fuel p.advance ++ [p1.pos])) := by
            intro hi hhi
            have hs : Within p1.pos hi [p1.pos] := (Within.nil _ _).cons hhi
            have h3 := (hA.append hs hb.1 hhi).mono (Nat.le_succ p.pos) (Nat.le_refl _)
            rw [hpa] at hb
            exact h3.cons (by omega)
          by_cases hc1 : (p1.cur == ')') = true
          · simp only [hc1, if_true, hiOf]
            exact hlast _ (Nat.le_succ _)
          · simp only [hc1, if_false, Bool.false_eq_true, hiOf]
            rw [hn1, hna] at h1
            exact hlast _ h1
        | exit1 =>
          rw [hm] at hA
          simp only [hiOf, hna] at hA
          simpa [hiOf] using (hA.mono (Nat.le_succ p.pos) (Nat.le_refl _)).cons
            (Nat.le_of_lt hlt)
        | undef =>
          rw [hm] at hA
          simp only [hiOf, hna] at hA
          simpa [hiOf] using (hA.mono (Nat.le_succ p.pos) (Nat.le_refl _)).cons
            (Nat.le_of_lt hlt)
        | nofuel =>
          rw [hm] at hA
          simp only [hiOf, hna] at hA
          simpa [hiOf] using (hA.mono (Nat.le_succ p.pos) (Nat.le_refl _)).cons
            (Nat.le_of_lt hlt)
      · obtain ⟨h1, h2, h3⟩ := reads_number_within p hwf
        simp only [hc, if_false, Bool.false_eq_true]
        exact h1.cons h2

/-- C18: cursor invariant.  During the parse of a token string of length `n` every read of
`tokens[pos]` is at a position `pos ≤ n`, inside the string or on its terminator, and the
positions of the reads never decrease; the same holds for every call of the descent from a
cursor inside the string.  Every successful call of `parse_number`,
`parse_atomic_expression`, `parse_mult_expression` and `parse_add_expression` returns with the
same token string and a cursor strictly greater than on entry and at most `n`; the loops
return with a cursor not smaller than on entry. -/
theorem c18_cursor_invariant (tokens : List Char) :
    (∀ i ∈ reads_add (3 * strlen tokens + 3) ⟨tokens, strlen tokens, 0⟩, i ≤ strlen tokens) ∧
    (reads_add (3 * strlen tokens + 3) ⟨tokens, strlen tokens, 0⟩).Pairwise
      (fun a b => a ≤ b) ∧
    (∀ (fuel : Nat) (p : parser_t), p.WF →
      Within p.pos p.ntokens (reads_add fuel p) ∧ Within p.pos p.ntokens (reads_mult fuel p) ∧
      Within p.pos p.ntokens (reads_atomic fuel p) ∧ Within p.pos p.ntokens (reads_number p) ∧
      Within p.pos p.ntokens (reads_add_loop fuel p) ∧
      Within p.pos p.ntokens (reads_mult_loop fuel p)) ∧
    (∀ (fuel : Nat) (p p1 : parser_t) (e : exprtree), p.WF →
      parse_add_expression fuel p = .ok (e, p1) ∨ parse_mult_expression fuel p = .ok (e, p1) ∨
        parse_atomic_expression fuel p = .ok (e, p1) ∨ parse_number p = .ok (e, p1) →
      p1.tokens = p.tokens ∧ p1.ntokens = p.ntokens ∧ p.pos < p1.pos ∧ p1.pos ≤ p1.ntokens) ∧
    (∀ (fuel : Nat) (p p1 : parser_t) (e acc : exprtree), p.WF →
      parse_add_expression_loop fuel acc p = .ok (e, p1) ∨
        parse_mult_expression_loop fuel acc p = .ok (e, p1) →
      p1.tokens = p.tokens ∧ p1.ntokens = p.ntokens ∧ p.pos ≤ p1.pos ∧ p1.pos ≤ p1.ntokens) := by
  have hgen : ∀ (fuel : Nat) (p : parser_t), p.WF →
      Within p.pos p.ntokens (reads_add fuel p) ∧ Within p.pos p.ntokens (reads_mult fuel p) ∧
      Within p.pos p.ntokens (reads_atomic fuel p) ∧ Within p.pos p.ntokens (reads_number p) ∧
      Within p.pos p.ntokens (reads_add_loop fuel p) ∧
      Within p.pos p.ntokens (reads_mult_loop fuel p) := by
    intro fuel p hwf
    have hR := reads_within fuel
    have hB := hiOf_bounds fuel p hwf
    have hN := reads_number_within p hwf
    exact ⟨(hR.1 p hwf).mono (Nat.le_refl _) hB.1.2,
      (hR.2.2.1 p hwf).mono (Nat.le_refl _) hB.2.1.2,
      (hR.2.2.2.2 p hwf).mono (Nat.le_refl _) hB.2.2.1.2,
      hN.1.mono (Nat.le_refl _) hN.2.2,
      (hR.2.1 .NULL p hwf).mono (Nat.le_refl _) (hB.2.2.2.1 .NULL).2,
      (hR.2.2.2.1 .NULL p hwf).mono (Nat.le_refl _) (hB.2.2.2.2 .NULL).2⟩
  have h0 := (hgen (3 * strlen tokens + 3) ⟨tokens, strlen tokens, 0⟩ (initial_WF tokens).1).1
  refine ⟨fun i hi => (h0.1 i hi).2, h0.2, hgen, ?_, ?_⟩
  · intro fuel p p1 e hwf h
    exact (parse_progress fuel p p1 e hwf).1 h
  · intro fuel p p1 e acc hwf h
    exact (parse_progress fuel p p1 e hwf).2 acc h

theorem c18_cursor_invariant_witness :
    (∀ i ∈ reads_add (3 * strlen "(2+3".toList + 3) ⟨"(2+3".toList, strlen "(2+3".toList, 0⟩,
        i ≤ strlen "(2+3".toList) ∧
      (parser_t.mk "12+3".toList 4 0).pos < (parser_t.mk "12+3".toList 4 2).pos :=
  ⟨(c18_cursor_invariant "(2+3".toList).1,
    ((c18_cursor_invariant []).2.2.2.1 3 ⟨"12+3".toList, 4, 0⟩ ⟨"12+3".toList, 4, 2⟩
      (Number 12) ⟨by decide, by decide⟩ (Or.inr (Or.inr (Or.inr (by decide))))).2.2.1⟩

end Calc
